import Mathlib

/-!
# Console input subsystem of xv6-riscv (kernel/console.c)

A shallow embedding of `consoleread`, `consoleintr`, `replaceHistoryCommand`,
`clearCurrentLine` and `shiftAndAdd`, followed by theorems about the line
buffer and the command history.

Conventions of the embedding.
* A `char` cell holds a byte, a `Nat` below 256.
* `uint` values (`cons.r`, `cons.w`, `cons.e`, `lastCommandIndex`, the stored
  lengths) are `Nat`s and every `uint` operation is reduced modulo `2^32`.
* `int` values (`c`, the results of `uartgetc`, `currentHistory`,
  `numOfCommandsInMem`) are `Int`s.
* The bytes handed to `uartputc_sync` are appended to `Kernel.uart`; a call of
  `procdump` is counted in `Kernel.procdumps`.
* The `int i` of the copy loop in the commit block is taken to wrap in two's
  complement; a read of `cons.buf` at a negative index takes its byte from the
  surroundings (`Dev.below`).
* The locks are not modelled: every operation runs atomically; a
  `consoleread` that has to wait is returned as asleep, with what it still
  wants, and can be resumed on a later state.
-/

namespace Console

/-! ## Constants and machine arithmetic -/

/-- The macro `INPUT_BUF_SIZE`. -/
def INPUT_BUF_SIZE : Nat := 128

/-- The macro `MAX_HISTORY`. -/
def MAX_HISTORY : Nat := 16

/-- The macro `BACKSPACE`. -/
def BACKSPACE : Int := 0x100

/-- Number of values of a 32-bit `uint`. -/
def UINT : Nat := 4294967296

/-- Unsigned 32-bit subtraction `a - b`: the difference when there is no
borrow, else `2^32` less the borrow. -/
@[irreducible] def usub (a b : Nat) : Nat :=
  if b % UINT ≤ a % UINT then a % UINT - b % UINT else UINT - (b % UINT - a % UINT)

/-- Unsigned 32-bit increment `a++`. -/
@[irreducible] def uinc (a : Nat) : Nat := (a + 1) % UINT

/-- Unsigned 32-bit decrement `a--`: 0 wraps to `2^32 - 1`. -/
@[irreducible] def udec (a : Nat) : Nat :=
  if a % UINT = 0 then UINT - 1 else a % UINT - 1

/-- Conversion of an `int` to `uint`. -/
@[irreducible] def toUint (i : Int) : Nat := (i % 4294967296).toNat

/-- The number `2^31`: a `uint` from here on is negative as an `int`. -/
def HALF : Nat := 2147483648

/-- Conversion of a `uint` to `int` (two's complement), as in `int i = cons.w`. -/
@[irreducible] def toInt (a : Nat) : Int :=
  if a % UINT < HALF then ((a % UINT : Nat) : Int) else ((a % UINT : Nat) : Int) - 4294967296

/-- The remainder `i % INPUT_BUF_SIZE` of C for an `int i`: it has the sign of
`i`. -/
def crem (i : Int) : Int := if 0 ≤ i then i % 128 else -((-i) % 128)

/-- Conversion of an `int` to a `char` cell (its low byte). -/
def toByte (c : Int) : Nat := (c % 256).toNat

/-- Read of an array cell. -/
def rd (a : List Nat) (i : Nat) : Nat := a.getD i 0

/-- Read of the cell `buf[j]` for an `int j`: a negative `j` reads the byte
`-j` places below the array, which is `below (-j)`. -/
def rdAt (buf : List Nat) (below : Nat → Nat) (j : Int) : Nat :=
  if 0 ≤ j then rd buf j.toNat else below (-j).toNat

/-- Write of an array cell. -/
def wr (a : List Nat) (i : Nat) (v : Nat) : List Nat := a.set i v

/-! ## Data model -/

/-- The global `cons` (without its lock). -/
structure Cons where
  buf : List Nat
  r : Nat
  w : Nat
  e : Nat
deriving DecidableEq, Repr

/-- The global `historyBufferArray`. -/
structure HistoryBufferArray where
  bufferArr : List (List Nat)
  lengthsArr : List Nat
  lastCommandIndex : Nat
  numOfCommandsInMem : Int
  currentHistory : Int
deriving DecidableEq, Repr

/-- The state the console code works on: the two globals, the bytes written to
the UART so far (oldest first) and the number of `procdump` calls. -/
structure Kernel where
  cons : Cons
  historyBufferArray : HistoryBufferArray
  uart : List Nat
  procdumps : Nat
deriving DecidableEq, Repr

/-- What one call of `consoleintr` takes from its surroundings: the results of
the first and of the second `uartgetc` call of the escape handling (`-1` when
the device has no byte), the indeterminate initial contents of the local
array `command`, and the bytes in memory below `cons.buf` (`below n` is the
byte `n` places below the array: the lock and what precedes the global), which
the copy loop of the commit block reads when its index is negative. -/
structure Dev where
  g1 : Int
  g2 : Int
  stack : Nat → Nat
  below : Nat → Nat

/-- The zero-initialised globals. -/
def init : Kernel :=
  { cons := { buf := List.replicate 128 0, r := 0, w := 0, e := 0 }
    historyBufferArray :=
      { bufferArr := List.replicate 16 (List.replicate 128 0)
        lengthsArr := List.replicate 16 0
        lastCommandIndex := 0
        numOfCommandsInMem := 0
        currentHistory := 0 }
    uart := []
    procdumps := 0 }

/-! ## String routines of kernel/string.c -/

/-- Modelled from the spec: `strncpy` of kernel/string.c is not under src/; it
is the C library routine. `strncpy t n` is the `n` bytes written to the
destination: the bytes of `t` up to its first NUL, then NULs. -/
def strncpy : List Nat → Nat → List Nat
  | _, 0 => []
  | [], n + 1 => 0 :: strncpy [] n
  | c :: t, n + 1 => if c ≠ 0 then c :: strncpy t n else List.replicate (n + 1) 0

/-- Modelled from the spec: `strlen` of kernel/string.c is not under src/; it
is the C library routine, the number of bytes before the first NUL. -/
def strlen : List Nat → Nat
  | [] => 0
  | c :: s => if c ≠ 0 then strlen s + 1 else 0

/-- Modelled from the spec: `strncmp` of kernel/string.c is not under src/; it
is the C library routine: compare at most `n` bytes, stopping at a NUL of `p`
or at the first difference, and return the difference of the two bytes. -/
def strncmp : List Nat → List Nat → Nat → Int
  | _, _, 0 => 0
  | p, q, n + 1 =>
    if p.headD 0 ≠ 0 ∧ p.headD 0 = q.headD 0 then strncmp p.tail q.tail n
    else (p.headD 0 : Int) - (q.headD 0 : Int)

/-- The string literal `"history"` with its terminating NUL. -/
def historyLit : List Nat := [104, 105, 115, 116, 111, 114, 121, 0]

/-! ## Output -/

/-- The function `consputc`, on the list of bytes sent to the UART. -/
def consputc (uart : List Nat) (c : Int) : List Nat :=
  if c = BACKSPACE then uart ++ [8, 32, 8] else uart ++ [toByte c]

/-- The loop `for (i = 0; i < n; i++) consputc(BACKSPACE);`. -/
def eraseN : Nat → List Nat → List Nat
  | 0, uart => uart
  | n + 1, uart => eraseN n (consputc uart BACKSPACE)

/-! ## consoleread -/

/-- Outcome of `consoleread`: the state it leaves, its return value (`none`
when the caller is left asleep in `sleep`), the bytes copied out to `dst` and
the number of bytes still wanted. -/
structure ReadResult where
  k : Kernel
  ret : Option Int
  dst : List Nat
  n : Nat

/-- The loop `while(n > 0)` of `consoleread`, by recursion on `n`. `target` is
the local of that name, `killed` the value of `killed(myproc())`,
`copyout i` tells whether the `either_copyout` of the byte with offset `i`
succeeds, `dst` is what has been copied out so far. In a state with `r == w`
the caller either returns `-1` (killed) or sleeps. -/
def readLoop (target : Nat) (killed : Bool) (copyout : Nat → Bool) :
    Nat → Kernel → List Nat → ReadResult
  | 0, k, dst => { k := k, ret := some ((target - 0 : Nat) : Int), dst := dst, n := 0 }
  | n + 1, k, dst =>
    if k.cons.r = k.cons.w then
      if killed then { k := k, ret := some (-1), dst := dst, n := n + 1 }
      else { k := k, ret := none, dst := dst, n := n + 1 }
    else
      let c := rd k.cons.buf (k.cons.r % INPUT_BUF_SIZE)
      let k1 : Kernel := { k with cons := { k.cons with r := uinc k.cons.r } }
      if c = 4 then
        if n + 1 < target then
          { k := { k1 with cons := { k1.cons with r := udec k1.cons.r } },
            ret := some ((target - (n + 1) : Nat) : Int), dst := dst, n := n + 1 }
        else
          { k := k1, ret := some ((target - (n + 1) : Nat) : Int), dst := dst, n := n + 1 }
      else if copyout dst.length = false then
        { k := k1, ret := some ((target - (n + 1) : Nat) : Int), dst := dst, n := n + 1 }
      else if c = 10 then
        { k := k1, ret := some ((target - n : Nat) : Int), dst := dst ++ [c], n := n }
      else readLoop target killed copyout n k1 (dst ++ [c])

/-- The function `consoleread(user_dst, dst, n)`. -/
def consoleread (k : Kernel) (killed : Bool) (copyout : Nat → Bool) (n : Int) : ReadResult :=
  readLoop n.toNat killed copyout n.toNat k []

/-! ## History -/

/-- The loop `for (int i = 1; i < MAX_HISTORY; i++) strncpy(arr[i-1], arr[i], 128)`
of `shiftAndAdd`, from index `i`, with `cnt` iterations left. -/
def shiftLoop : Nat → Nat → List (List Nat) → List (List Nat)
  | 0, _, arr => arr
  | cnt + 1, i, arr =>
    shiftLoop cnt (i + 1) (arr.set (i - 1) (strncpy (arr.getD i []) INPUT_BUF_SIZE))

/-- The function `shiftAndAdd(historyBufferArray.bufferArr, newValue)`. -/
def shiftAndAdd (h : HistoryBufferArray) (newValue : List Nat) : HistoryBufferArray :=
  let arr := shiftLoop (MAX_HISTORY - 1) 1 h.bufferArr
  { h with
    bufferArr := arr.set (MAX_HISTORY - 1) (strncpy newValue INPUT_BUF_SIZE)
    lengthsArr := h.lengthsArr.set (MAX_HISTORY - 1) (strlen newValue)
    currentHistory := (h.lastCommandIndex : Int) }

/-- The function `clearCurrentLine`. -/
def clearCurrentLine (k : Kernel) : Kernel :=
  { k with
    uart := eraseN (usub k.cons.e k.cons.r) k.uart
    cons := { k.cons with e := k.cons.w } }

/-- The loop of `replaceHistoryCommand` over the bytes of one slot, from index
`i`, with `cnt` iterations left. -/
def spliceLoop (slot : List Nat) : Nat → Nat → Kernel → Kernel
  | 0, _, k => k
  | cnt + 1, i, k =>
    let c := rd slot i
    spliceLoop slot cnt (i + 1)
      { k with
        uart := consputc k.uart c
        cons := { k.cons with
                  buf := wr k.cons.buf (k.cons.e % INPUT_BUF_SIZE) c
                  e := uinc k.cons.e } }

/-- The function `replaceHistoryCommand(index)`; `index < 0` is never true of
a `uint`. -/
def replaceHistoryCommand (k : Kernel) (index : Nat) : Kernel :=
  if index ≥ k.historyBufferArray.lastCommandIndex then k
  else
    spliceLoop (k.historyBufferArray.bufferArr.getD index [])
      (rd k.historyBufferArray.lengthsArr index) 0 (clearCurrentLine k)

/-! ## consoleintr -/

/-- The kill-line loop of `consoleintr`, with `fuel` iterations allowed. -/
def killLoop : Nat → Kernel → Kernel
  | 0, k => k
  | fuel + 1, k =>
    if k.cons.e ≠ k.cons.w ∧ rd k.cons.buf (usub k.cons.e 1 % INPUT_BUF_SIZE) ≠ 10 then
      killLoop fuel
        { k with
          cons := { k.cons with e := udec k.cons.e }
          uart := consputc k.uart BACKSPACE }
    else k

/-- The loop `for(int i=cons.w, k=0; i < cons.e-1; i++, k++)
command[k] = cons.buf[i % INPUT_BUF_SIZE];`, from `i` and `j`, with `cnt`
iterations left. The `int i` is carried as its value as a `uint`, which is how
`i < cons.e-1` compares it and which `i++` increments (two's complement); the
index `i % INPUT_BUF_SIZE` is the signed remainder of the `int` value
`toInt i`, so from `2^31` on it is zero or negative and the read goes below
the array. -/
def copyLoop (buf : List Nat) (below : Nat → Nat) : Nat → Nat → Nat → List Nat → List Nat
  | 0, _, _, command => command
  | cnt + 1, i, j, command =>
    copyLoop buf below cnt (i + 1) (j + 1) (wr command j (rdAt buf below (crem (toInt i))))

/-- The local array `command` as the commit block of `consoleintr` fills it:
the copy loop runs while `i < cons.e - 1` (compared as `uint`s), then the
terminating NUL is stored. `stack` is what the array holds at entry, `below`
the memory below `cons.buf`. -/
def scratch (cons : Cons) (stack below : Nat → Nat) : List Nat :=
  let command := (List.range INPUT_BUF_SIZE).map stack
  let command := copyLoop cons.buf below (usub cons.e 1 - cons.w) cons.w 0 command
  wr command (usub (usub cons.e 1) cons.w % INPUT_BUF_SIZE) 0

/-- The history update of the commit block: nothing when `strncmp` returns 0,
else `shiftAndAdd` on a full store, else a write to the next free slot. -/
def record (h : HistoryBufferArray) (command : List Nat) : HistoryBufferArray :=
  if strncmp command historyLit 7 ≠ 0 then
    if h.lastCommandIndex = MAX_HISTORY then shiftAndAdd h command
    else
      let index := h.lastCommandIndex
      { bufferArr := h.bufferArr.set index (strncpy command INPUT_BUF_SIZE)
        lengthsArr := h.lengthsArr.set index (strlen command)
        currentHistory := (h.lastCommandIndex : Int)
        lastCommandIndex := uinc h.lastCommandIndex
        numOfCommandsInMem :=
          if h.numOfCommandsInMem < 16 then h.numOfCommandsInMem + 1
          else h.numOfCommandsInMem }
  else h

/-- The `default:` case of `consoleintr`. -/
def consoleintrDefault (k : Kernel) (c : Int) (d : Dev) : Kernel :=
  if c ≠ 0 ∧ usub k.cons.e k.cons.r < INPUT_BUF_SIZE then
    let c : Int := if c = 13 then 10 else c
    let uart := consputc k.uart c
    let cons : Cons :=
      { k.cons with
        buf := wr k.cons.buf (k.cons.e % INPUT_BUF_SIZE) (toByte c)
        e := uinc k.cons.e }
    if c = 10 ∨ c = 4 ∨ usub cons.e cons.r = INPUT_BUF_SIZE then
      { k with
        uart := consputc uart 1
        historyBufferArray := record k.historyBufferArray (scratch cons d.stack d.below)
        cons := { cons with w := cons.e } }
    else { k with uart := uart, cons := cons }
  else k

/-- The `'A'` branch of the escape handling (history-up). -/
def historyUp (k : Kernel) : Kernel :=
  let k1 := replaceHistoryCommand k (toUint k.historyBufferArray.currentHistory)
  if k1.historyBufferArray.currentHistory ≠ 0 then
    { k1 with historyBufferArray :=
        { k1.historyBufferArray with
          currentHistory := k1.historyBufferArray.currentHistory - 1 } }
  else k1

/-- The `'B'` branch of the escape handling (history-down). -/
def historyDown (k : Kernel) : Kernel :=
  let k1 := replaceHistoryCommand k (toUint k.historyBufferArray.currentHistory)
  if toUint k1.historyBufferArray.currentHistory
      ≠ usub k1.historyBufferArray.lastCommandIndex 1 then
    { k1 with historyBufferArray :=
        { k1.historyBufferArray with
          currentHistory := k1.historyBufferArray.currentHistory + 1 } }
  else k1

/-- The function `consoleintr(c)`. -/
def consoleintr (k : Kernel) (c : Int) (d : Dev) : Kernel :=
  if c = 16 then { k with procdumps := k.procdumps + 1 }
  else if c = 21 then killLoop (usub k.cons.e k.cons.w) k
  else if c = 8 ∨ c = 127 then
    if k.cons.e ≠ k.cons.w then
      { k with
        cons := { k.cons with e := udec k.cons.e }
        uart := consputc k.uart BACKSPACE }
    else k
  else if c = 27 then
    if d.g1 = 91 then
      if d.g2 = 65 then historyUp k
      else if d.g2 = 66 then historyDown k
      else k
    else k
  else consoleintrDefault k c d

/-! ## Runs -/

/-- Feed the bytes `cs` to `consoleintr`, one call each. -/
def feed (d : Dev) : Kernel → List Int → Kernel
  | k, [] => k
  | k, c :: cs => feed d (consoleintr k c d) cs

/-- A device with nothing to read, a zeroed stack and zero bytes below the
ring. -/
def quiet : Dev := { g1 := -1, g2 := -1, stack := fun _ => 0, below := fun _ => 0 }

/-- A device that answers the two `uartgetc` calls with `[` and `A`. -/
def arrowUp : Dev := { g1 := 91, g2 := 65, stack := fun _ => 0, below := fun _ => 0 }

/-- A device that answers the two `uartgetc` calls with `[` and `B`. -/
def arrowDown : Dev := { g1 := 91, g2 := 66, stack := fun _ => 0, below := fun _ => 0 }

/-- A device with nothing to read whose stack holds newline bytes where the
local array `command` comes to lie. -/
def stale : Dev := { g1 := -1, g2 := -1, stack := fun _ => 10, below := fun _ => 0 }

/-- The bytes of a text as `consoleintr` arguments. -/
def keys (t : List Nat) : List Int := t.map Int.ofNat

/-- States reachable from the zero-initialised globals by calls of
`consoleintr` and (possibly resumed) runs of the `consoleread` loop. -/
inductive Reachable : Kernel → Prop
  | start : Reachable init
  | intr (k : Kernel) (c : Int) (d : Dev) : Reachable k → Reachable (consoleintr k c d)
  | read (k : Kernel) (target n : Nat) (killed : Bool) (copyout : Nat → Bool)
      (dst : List Nat) : Reachable k → Reachable (readLoop target killed copyout n k dst).k

/-! ## Notions used in the statements -/

/-- The `n` bytes of the ring from index `i` on. -/
def window (buf : List Nat) (i : Nat) : Nat → List Nat
  | 0 => []
  | n + 1 => rd buf (i % INPUT_BUF_SIZE) :: window buf (uinc i) n

/-- The ring after the bytes `s` have been stored from index `e` on. -/
def wrs (buf : List Nat) : Nat → List Nat → List Nat
  | _, [] => buf
  | e, b :: s => wrs (wr buf (e % INPUT_BUF_SIZE) b) (uinc e) s

/-- Bytes that `consoleintr` stores without any further action. -/
def Ordinary (b : Nat) : Prop :=
  b ≠ 0 ∧ b < 256 ∧ b ≠ 4 ∧ b ≠ 8 ∧ b ≠ 16 ∧ b ≠ 21 ∧ b ≠ 27 ∧ b ≠ 127 ∧ b ≠ 13 ∧ b ≠ 10

instance : DecidablePred Ordinary := fun b => by unfold Ordinary; infer_instance

/-- The text of a NUL-terminated string held in an array. -/
def cstr (row : List Nat) : List Nat := row.takeWhile (· ≠ 0)

/-- The bytes of the word `history`. -/
def historyStr : List Nat := [104, 105, 115, 116, 111, 114, 121]

/-- A text padded with NULs to the 128 bytes of a history slot. -/
def pad (t : List Nat) : List Nat := t ++ List.replicate (INPUT_BUF_SIZE - t.length) 0

/-- The uncommitted line `buf[w..e)`. -/
def uncommitted (k : Kernel) : List Nat :=
  window k.cons.buf k.cons.w (usub k.cons.e k.cons.w)

/-- The function `checkIndex(index)`; the comparison with the `uint`
`lastCommandIndex` converts `index` to `uint`. -/
def checkIndex (k : Kernel) (index : Int) : Int :=
  if index < 0 ∨ toUint index ≥ k.historyBufferArray.lastCommandIndex then 0 else 1

/-- The function `sys_history` with `historyId` the value fetched by
`argint(1, ..)`: its return value and the 128 bytes of the slot it hands to
`copyout` (whose result it ignores). -/
def sys_history (k : Kernel) (historyId : Int) : Int × Option (List Nat) :=
  if checkIndex k historyId = 0 then (-1, none)
  else (0, some (k.historyBufferArray.bufferArr.getD historyId.toNat []))

/-- Type the line `t` and its newline, then read it out with a `read` of 128
bytes whose copy-outs succeed. -/
def submit (d : Dev) (k : Kernel) (t : List Nat) : Kernel :=
  (consoleread (feed d k (keys t ++ [10])) false (fun _ => true) 128).k

/-- Submit the lines `ts` one after the other, each read out before the next. -/
def session (d : Dev) (k : Kernel) (ts : List (List Nat)) : Kernel :=
  ts.foldl (submit d) k

/-- Seventeen command lines: fourteen times `a`, then `ab`, `c` and `d`. -/
def seventeen : List (List Nat) :=
  List.replicate 14 [97] ++ [[97, 98], [99], [100]]

/-- A well-formed history slot: 128 bytes whose string is not `history`. -/
def SlotOK (row : List Nat) : Prop := row.length = INPUT_BUF_SIZE ∧ cstr row ≠ historyStr

/-- The invariant of the history store used for the bound on the number of
entries and for the exclusion of `history`. -/
def HInv (h : HistoryBufferArray) : Prop :=
  h.bufferArr.length = MAX_HISTORY ∧ h.lastCommandIndex ≤ MAX_HISTORY ∧
    ∀ row, row ∈ h.bufferArr → SlotOK row

/-- A command line of the history scenarios: ordinary bytes, fewer than 128 of
them, not beginning with the seven bytes `history`. -/
def CommandLine (t : List Nat) : Prop :=
  (∀ b, b ∈ t → Ordinary b) ∧ t.length < INPUT_BUF_SIZE ∧ t.take 7 ≠ historyStr

/-- The number of bytes typed when the lines are submitted, newlines included. -/
def typedBytes (ts : List (List Nat)) : Nat := (ts.map (fun t => t.length + 1)).sum

instance : DecidablePred CommandLine := fun t => by unfold CommandLine; infer_instance

/-- The seventeen commands `c0`, `c1`, ..., `c16`. -/
def commands17 : List (List Nat) :=
  (List.range 17).map (fun j => if j < 10 then [99, 48 + j] else [99, 49, 48 + (j - 10)])

/-- The committed bytes not yet read, `buf[r..w)`. -/
def committed (k : Kernel) : List Nat :=
  window k.cons.buf k.cons.r (usub k.cons.w k.cons.r)

/-- The keys of two lines typed with nothing read: `x`, then 125 times `a`. -/
def twoLines : List Int := keys [120] ++ [10] ++ keys (List.replicate 125 97) ++ [10]

/-- A history slot that holds a string and nothing else: a text of fewer than
128 bytes followed by NULs up to the 128 bytes of the slot. -/
def RowOK (row : List Nat) : Prop := row = pad (cstr row) ∧ (cstr row).length < INPUT_BUF_SIZE

/-- The invariant of the three indices: each is a `uint`, at most 128 bytes
are committed and unread, and at most 127 bytes are uncommitted. -/
def IdxInv (c : Cons) : Prop :=
  c.r < UINT ∧ c.w < UINT ∧ c.e < UINT ∧ usub c.w c.r ≤ 128 ∧ usub c.e c.w ≤ 127

/-- The shape invariant of the history store: every slot is well shaped and
every stored length is at most 127. -/
def HShape (h : HistoryBufferArray) : Prop :=
  (∀ row, row ∈ h.bufferArr → RowOK row) ∧ ∀ i, rd h.lengthsArr i ≤ 127

/-- The `cnt` bytes of a slot from index `i` on, as the splice loop reads them. -/
def slotBytes (slot : List Nat) : Nat → Nat → List Nat
  | 0, _ => []
  | cnt + 1, i => rd slot i :: slotBytes slot cnt (i + 1)

/-- Type the lines `ts`, each with its newline, with nothing read. -/
def typeLines (d : Dev) (k : Kernel) (ts : List (List Nat)) : Kernel :=
  ts.foldl (fun k t => feed d k (keys t ++ [10])) k

/-- The history store that holds exactly the lines `ls`, fewer than or as many
as its 16 slots: slot `i` holds line `i` with its length, `lastCommandIndex` is
their number and the cursor is on the newest. -/
def HistBelow (ls : List (List Nat)) (h : HistoryBufferArray) : Prop :=
  ls.length ≤ MAX_HISTORY ∧ h.bufferArr.length = MAX_HISTORY ∧
  h.lengthsArr.length = MAX_HISTORY ∧ h.lastCommandIndex = ls.length ∧
  (ls ≠ [] → h.currentHistory = ((ls.length - 1 : Nat) : Int)) ∧
  ∀ i, i < ls.length →
    h.bufferArr.getD i [] = pad (ls.getD i []) ∧ rd h.lengthsArr i = (ls.getD i []).length

/-- States reachable from the zero-initialised globals when `consoleintr` is
only called with bytes (`uartintr` of kernel/uart.c, not under src/, passes it
the bytes that `uartgetc` returned). -/
inductive ReachableByte : Kernel → Prop
  | start : ReachableByte init
  | intr (k : Kernel) (c : Int) (d : Dev) : ReachableByte k → 0 ≤ c → c < 256 →
      ReachableByte (consoleintr k c d)
  | read (k : Kernel) (target n : Nat) (killed : Bool) (copyout : Nat → Bool)
      (dst : List Nat) : ReachableByte k → ReachableByte (readLoop target killed copyout n k dst).k

/-- No newline byte lies in the uncommitted line or in a history slot, and the
edit index is not behind the write index. -/
def NoNewline (k : Kernel) : Prop :=
  k.cons.buf.length = INPUT_BUF_SIZE ∧ k.cons.w ≤ k.cons.e ∧ 10 ∉ uncommitted k ∧
    ∀ row, row ∈ k.historyBufferArray.bufferArr → 10 ∉ row

/-- The bytes of `n` erase sequences (backspace, space, backspace). -/
def eraseBytes : Nat → List Nat
  | 0 => []
  | n + 1 => [8, 32, 8] ++ eraseBytes n

/-- The ring once sixteen lines `history` have gone through it. -/
def ringH : List Nat := (List.range INPUT_BUF_SIZE).map (fun j => (historyStr ++ [10]).getD (j % 8) 0)

/-- What `n` submitted lines `history` send to the terminal: the echo of each
line and the byte 1 after its newline. -/
def idleOut : Nat → List Nat
  | 0 => []
  | n + 1 => idleOut n ++ historyStr ++ [10, 1]

/-- The state after `n` lines `history` (16 or more) have been submitted at
boot, each read out before the next: the history is as at boot and the three
indices are `8 * n`. -/
def idleState (n : Nat) : Kernel :=
  { cons := { buf := ringH, r := 8 * n, w := 8 * n, e := 8 * n }
    historyBufferArray := init.historyBufferArray
    uart := idleOut n
    procdumps := 0 }

/-- What `n` submitted empty lines send to the terminal. -/
def emptyOut : Nat → List Nat
  | 0 => []
  | n + 1 => emptyOut n ++ [10, 1]

/-- The state after `n` empty lines (128 or more) have been submitted at boot,
each read out before the next: the store holds sixteen empty entries and the
three indices are `n`. -/
def emptyState (n : Nat) : Kernel :=
  { cons := { buf := List.replicate 128 10, r := n, w := n, e := n }
    historyBufferArray :=
      { bufferArr := List.replicate 16 (List.replicate 128 0)
        lengthsArr := List.replicate 16 0
        lastCommandIndex := 16
        numOfCommandsInMem := 16
        currentHistory := 16 }
    uart := emptyOut n
    procdumps := 0 }

/-- The state reached from `emptyState (2^32 - 8)` when eight bytes `a` and a
newline are typed while the stack holds newline bytes (the edit index wraps
around to 1), and history-up is then pressed twice. -/
def afterWrap : Kernel :=
  feed arrowUp (feed stale (emptyState 4294967288) (keys (List.replicate 8 97) ++ [10])) [27, 27]

/-! ## Machine arithmetic -/

theorem usub_eq (a b : Nat) : usub a b = (a % UINT + UINT - b % UINT) % UINT := by
  unfold usub UINT
  split_ifs <;> omega

theorem udec_eq (a : Nat) : udec a = (a % UINT + UINT - 1) % UINT := by
  unfold udec UINT
  split_ifs <;> omega

theorem uinc_eq (a : Nat) : uinc a = (a + 1) % UINT := by
  unfold uinc; rfl

theorem toInt_eq (a : Nat) :
    toInt a = if a % UINT < HALF then ((a % UINT : Nat) : Int)
      else ((a % UINT : Nat) : Int) - 4294967296 := by
  unfold toInt; rfl

/-- Below `2^31` the copy loop of the commit block reads the ring cell. -/
theorem rdAt_low (buf : List Nat) (below : Nat → Nat) (a : Nat) (h : a < HALF) :
    rdAt buf below (crem (toInt a)) = rd buf (a % INPUT_BUF_SIZE) := by
  have e1 : toInt a = (a : Int) := by
    rw [toInt_eq]
    have h1 : a % UINT = a := Nat.mod_eq_of_lt (by simp only [HALF, UINT] at *; omega)
    rw [h1, if_pos h]
  have e2 : crem (a : Int) = ((a % 128 : Nat) : Int) := by
    unfold crem
    rw [if_pos (by omega)]
    omega
  rw [e1, e2]
  unfold rdAt
  rw [if_pos (by omega)]
  rfl

/-! ## The read loop and the typing of a line -/

theorem rd_wr_same (a : List Nat) (i v : Nat) (h : i < a.length) : rd (wr a i v) i = v := by
  simp [rd, wr, List.getD_eq_getElem?_getD, h]

theorem rd_wr_ne (a : List Nat) (i j v : Nat) (h : i ≠ j) : rd (wr a i v) j = rd a j := by
  simp [rd, wr, List.getD_eq_getElem?_getD, List.getElem?_set_ne h]

theorem length_wr (a : List Nat) (i v : Nat) : (wr a i v).length = a.length := by
  simp [wr]

theorem window_length (buf : List Nat) (n : Nat) : ∀ i, (window buf i n).length = n := by
  induction n with
  | zero => intro i; rfl
  | succ n ih => intro i; simp [window, ih]

theorem window_succ_last (buf : List Nat) (n : Nat) :
    ∀ i, i < UINT → window buf i (n + 1) = window buf i n ++ [rd buf ((i + n) % UINT % INPUT_BUF_SIZE)] := by
  induction n with
  | zero => intro i hi; simp [window, Nat.mod_eq_of_lt hi]
  | succ n ih =>
    intro i hi
    have h1 : uinc i < UINT := by simp only [uinc_eq, UINT]; omega
    have h2 : (uinc i + n) % UINT = (i + (n + 1)) % UINT := by simp only [uinc_eq, UINT]; omega
    rw [window, ih (uinc i) h1, h2]
    rfl

/-- Reading `m` bytes none of which ends the loop. -/
theorem readLoop_run (target : Nat) (killed : Bool) (copyout : Nat → Bool)
    (hc : ∀ i, copyout i = true) (m : Nat) :
    ∀ (n : Nat) (k : Kernel) (dst : List Nat), k.cons.r < UINT →
      (∀ j, j < m → (k.cons.r + j) % UINT ≠ k.cons.w) →
      (∀ j, j < m → rd k.cons.buf ((k.cons.r + j) % UINT % INPUT_BUF_SIZE) ≠ 4) →
      (∀ j, j < m → rd k.cons.buf ((k.cons.r + j) % UINT % INPUT_BUF_SIZE) ≠ 10) →
      readLoop target killed copyout (n + m) k dst =
        readLoop target killed copyout n
          { k with cons := { k.cons with r := (k.cons.r + m) % UINT } }
          (dst ++ window k.cons.buf k.cons.r m) := by
  induction m with
  | zero =>
    intro n k dst hr _ _ _
    simp [window, Nat.mod_eq_of_lt hr]
  | succ m ih =>
    intro n k dst hr hw h4 h10
    have e0 : (k.cons.r + 0) % UINT = k.cons.r := by simp [Nat.mod_eq_of_lt hr]
    have hw0 := hw 0 (by omega)
    have h40 := h4 0 (by omega)
    have h100 := h10 0 (by omega)
    rw [e0] at hw0 h40 h100
    have hstep : readLoop target killed copyout (n + (m + 1)) k dst =
        readLoop target killed copyout (n + m)
          { k with cons := { k.cons with r := uinc k.cons.r } }
          (dst ++ [rd k.cons.buf (k.cons.r % INPUT_BUF_SIZE)]) := by
      rw [show n + (m + 1) = (n + m) + 1 from rfl, readLoop]
      simp [hw0, h40, h100, hc]
    rw [hstep, ih]
    · have e1 : (uinc k.cons.r + m) % UINT = (k.cons.r + (m + 1)) % UINT := by
        simp only [uinc_eq, UINT]; omega
      simp [window, e1]
    · show uinc k.cons.r < UINT
      simp only [uinc_eq, UINT]; omega
    · intro j hj
      have := hw (j + 1) (by omega)
      have e : (uinc k.cons.r + j) % UINT = (k.cons.r + (j + 1)) % UINT := by
        simp only [uinc_eq, UINT]; omega
      show (uinc k.cons.r + j) % UINT ≠ k.cons.w
      rw [e]; exact this
    · intro j hj
      have := h4 (j + 1) (by omega)
      have e : (uinc k.cons.r + j) % UINT = (k.cons.r + (j + 1)) % UINT := by
        simp only [uinc_eq, UINT]; omega
      show rd k.cons.buf ((uinc k.cons.r + j) % UINT % INPUT_BUF_SIZE) ≠ 4
      rw [e]; exact this
    · intro j hj
      have := h10 (j + 1) (by omega)
      have e : (uinc k.cons.r + j) % UINT = (k.cons.r + (j + 1)) % UINT := by
        simp only [uinc_eq, UINT]; omega
      show rd k.cons.buf ((uinc k.cons.r + j) % UINT % INPUT_BUF_SIZE) ≠ 10
      rw [e]; exact this


/-- One run of the read loop over committed bytes whose first newline is at
offset `kk`, with no end-of-file byte up to it. -/
theorem readLoop_line (target : Nat) (killed : Bool) (copyout : Nat → Bool)
    (hc : ∀ i, copyout i = true) (k : Kernel) (n kk : Nat) (dst : List Nat)
    (hr : k.cons.r < UINT)
    (hk : kk < usub k.cons.w k.cons.r)
    (hnl : rd k.cons.buf ((k.cons.r + kk) % UINT % INPUT_BUF_SIZE) = 10)
    (hfirst : ∀ j, j < kk → rd k.cons.buf ((k.cons.r + j) % UINT % INPUT_BUF_SIZE) ≠ 10)
    (h4 : ∀ j, j < kk → rd k.cons.buf ((k.cons.r + j) % UINT % INPUT_BUF_SIZE) ≠ 4) :
    (readLoop target killed copyout n k dst).ret
        = some ((target - (n - min n (kk + 1)) : Nat) : Int) ∧
    (readLoop target killed copyout n k dst).dst
        = dst ++ window k.cons.buf k.cons.r (min n (kk + 1)) ∧
    (readLoop target killed copyout n k dst).k
        = { k with cons := { k.cons with r := (k.cons.r + min n (kk + 1)) % UINT } } := by
  have hw : ∀ j, j < kk + 1 → (k.cons.r + j) % UINT ≠ k.cons.w := by
    intro j hj
    simp only [usub_eq, UINT] at hk
    simp only [UINT] at hr ⊢
    omega
  rcases Nat.lt_or_ge kk n with hlt | hge
  · -- the newline is reached
    have hmin : min n (kk + 1) = kk + 1 := by omega
    obtain ⟨n', rfl⟩ : ∃ n', n = (n' + 1) + kk := ⟨n - kk - 1, by omega⟩
    rw [hmin, readLoop_run target killed copyout hc kk (n' + 1) k dst hr
      (fun j hj => hw j (by omega)) h4 hfirst]
    rw [readLoop]
    have hne : (k.cons.r + kk) % UINT ≠ k.cons.w := hw kk (by omega)
    have e1 : uinc ((k.cons.r + kk) % UINT) = (k.cons.r + (kk + 1)) % UINT := by
      simp only [uinc_eq, UINT]; omega
    have e2 : n' + 1 + kk - (kk + 1) = n' := by omega
    simp [hne, hnl, hc, window_succ_last _ _ _ hr, e1, e2]
  · have hmin : min n (kk + 1) = n := by omega
    have := readLoop_run target killed copyout hc n 0 k dst hr
      (fun j hj => hw j (by omega)) (fun j hj => h4 j (by omega))
      (fun j hj => hfirst j (by omega))
    rw [Nat.zero_add] at this
    rw [hmin, this]
    simp [readLoop]


theorem length_wrs (s : List Nat) : ∀ (buf : List Nat) (e : Nat), (wrs buf e s).length = buf.length := by
  induction s with
  | nil => intro buf e; rfl
  | cons b s ih => intro buf e; simp [wrs, ih, length_wr]

theorem rd_wrs_out (s : List Nat) : ∀ (buf : List Nat) (e i : Nat), e < UINT →
    (∀ j, j < s.length → (e + j) % UINT % INPUT_BUF_SIZE ≠ i) →
    rd (wrs buf e s) i = rd buf i := by
  induction s with
  | nil => intro buf e i _ _; rfl
  | cons b s ih =>
    intro buf e i he h
    have h0 := h 0 (by simp)
    rw [Nat.add_zero, Nat.mod_eq_of_lt he] at h0
    rw [wrs, ih _ _ _ (by simp only [uinc_eq, UINT]; omega), rd_wr_ne _ _ _ _ h0]
    intro j hj
    have := h (j + 1) (by simp; omega)
    have e1 : (uinc e + j) % UINT = (e + (j + 1)) % UINT := by simp only [uinc_eq, UINT]; omega
    rw [e1]; exact this

theorem window_wrs (s : List Nat) : ∀ (buf : List Nat) (e : Nat), e < UINT →
    buf.length = INPUT_BUF_SIZE → s.length ≤ INPUT_BUF_SIZE →
    window (wrs buf e s) e s.length = s := by
  induction s with
  | nil => intro buf e _ _ _; rfl
  | cons b s ih =>
    intro buf e he hb hs
    have hs' : s.length + 1 ≤ INPUT_BUF_SIZE := by simpa using hs
    have hu : uinc e < UINT := by simp only [uinc_eq, UINT]; omega
    have h1 : rd (wrs (wr buf (e % INPUT_BUF_SIZE) b) (uinc e) s) (e % INPUT_BUF_SIZE) = b := by
      rw [rd_wrs_out _ _ _ _ hu, rd_wr_same]
      · rw [hb]; exact Nat.mod_lt _ (by decide)
      · intro j hj
        simp only [uinc_eq, UINT, INPUT_BUF_SIZE] at *
        omega
    simp only [List.length_cons, window, wrs]
    rw [h1, ih _ _ hu (by rw [length_wr]; exact hb) (by omega)]

theorem window_getD (buf : List Nat) (n : Nat) : ∀ (i j : Nat), i < UINT → j < n →
    (window buf i n).getD j 0 = rd buf ((i + j) % UINT % INPUT_BUF_SIZE) := by
  induction n with
  | zero => intro i j _ hj; omega
  | succ n ih =>
    intro i j hi hj
    cases j with
    | zero => simp [window, Nat.mod_eq_of_lt hi]
    | succ j =>
      have e1 : (uinc i + j) % UINT = (i + (j + 1)) % UINT := by simp only [uinc_eq, UINT]; omega
      simp only [window, List.getD_cons_succ]
      rw [ih (uinc i) j (by simp only [uinc_eq, UINT]; omega) (by omega), e1]

theorem window_congr (b1 b2 : List Nat) (n : Nat) : ∀ (i : Nat), i < UINT →
    (∀ j, j < n → rd b1 ((i + j) % UINT % INPUT_BUF_SIZE) = rd b2 ((i + j) % UINT % INPUT_BUF_SIZE)) →
    window b1 i n = window b2 i n := by
  induction n with
  | zero => intro i _ _; rfl
  | succ n ih =>
    intro i hi h
    have h0 := h 0 (by omega)
    rw [Nat.add_zero, Nat.mod_eq_of_lt hi] at h0
    simp only [window]
    rw [h0, ih (uinc i) (by simp only [uinc_eq, UINT]; omega)]
    intro j hj
    have e1 : (uinc i + j) % UINT = (i + (j + 1)) % UINT := by simp only [uinc_eq, UINT]; omega
    rw [e1]; exact h (j + 1) (by omega)

theorem wrs_append (s t : List Nat) : ∀ (buf : List Nat) (e : Nat), e < UINT →
    wrs buf e (s ++ t) = wrs (wrs buf e s) ((e + s.length) % UINT) t := by
  induction s with
  | nil => intro buf e he; simp [wrs, Nat.mod_eq_of_lt he]
  | cons b s ih =>
    intro buf e he
    have e1 : (uinc e + s.length) % UINT = (e + (s.length + 1)) % UINT := by
      simp only [uinc_eq, UINT]; omega
    have hu : uinc e < UINT := by simp only [uinc_eq, UINT]; omega
    show wrs (wr buf (e % INPUT_BUF_SIZE) b) (uinc e) (s ++ t) =
      wrs (wrs (wr buf (e % INPUT_BUF_SIZE) b) (uinc e) s) ((e + (s.length + 1)) % UINT) t
    rw [ih _ _ hu, e1]

theorem feed_append (d : Dev) (l1 l2 : List Int) : ∀ k, feed d k (l1 ++ l2) = feed d (feed d k l1) l2 := by
  induction l1 with
  | nil => intro k; rfl
  | cons c l1 ih => intro k; simp [feed, ih]

theorem toByte_ofNat (b : Nat) (h : b < 256) : toByte (b : Int) = b := by
  unfold toByte; omega

/-- An ordinary byte, with room left after it, is echoed and stored. -/
theorem consoleintr_ordinary (k : Kernel) (d : Dev) (b : Nat) (hb : Ordinary b)
    (hroom : usub k.cons.e k.cons.r + 1 < INPUT_BUF_SIZE) :
    consoleintr k (b : Int) d =
      { k with
        uart := k.uart ++ [b]
        cons := { k.cons with
                  buf := wr k.cons.buf (k.cons.e % INPUT_BUF_SIZE) b
                  e := uinc k.cons.e } } := by
  obtain ⟨h0, h256, h4, h8, h16, h21, h27, h127, h13, h10⟩ := hb
  have hfull : usub (uinc k.cons.e) k.cons.r ≠ INPUT_BUF_SIZE := by
    simp only [usub_eq, uinc_eq, UINT, INPUT_BUF_SIZE] at *; omega
  have hlt : usub k.cons.e k.cons.r < INPUT_BUF_SIZE := by omega
  have hbs : (b : Int) ≠ BACKSPACE := by unfold BACKSPACE; omega
  simp only [consoleintr, consoleintrDefault, consputc]
  have c16 : ¬ ((b : Int) = 16) := by omega
  have c21 : ¬ ((b : Int) = 21) := by omega
  have c8 : ¬ ((b : Int) = 8 ∨ (b : Int) = 127) := by omega
  have c27 : ¬ ((b : Int) = 27) := by omega
  have c13 : ¬ ((b : Int) = 13) := by omega
  have c0 : (b : Int) ≠ 0 := by omega
  have c10 : ¬ ((b : Int) = 10) := by omega
  have c4 : ¬ ((b : Int) = 4) := by omega
  simp [c16, c21, c8, c27, c13, c0, c10, c4, hlt, hfull, hbs, toByte_ofNat b h256]

theorem feed_ordinary (d : Dev) (s : List Nat) : ∀ (k : Kernel),
    (∀ b, b ∈ s → Ordinary b) → k.cons.e < UINT → k.cons.r < UINT →
    usub k.cons.e k.cons.r + s.length < INPUT_BUF_SIZE →
    feed d k (keys s) =
      { k with
        uart := k.uart ++ s
        cons := { k.cons with
                  buf := wrs k.cons.buf k.cons.e s
                  e := (k.cons.e + s.length) % UINT } } := by
  induction s with
  | nil => intro k _ he _ _; simp [feed, keys, wrs, Nat.mod_eq_of_lt he]
  | cons b s ih =>
    intro k hs he hr hroom
    have hroom' : usub k.cons.e k.cons.r + (s.length + 1) < INPUT_BUF_SIZE := by
      simpa using hroom
    have hstep := consoleintr_ordinary k d b (hs b (by simp)) (by omega)
    have hk : feed d k (keys (b :: s)) = feed d (consoleintr k (b : Int) d) (keys s) := rfl
    rw [hk, hstep, ih _ (fun b hb => hs b (by simp [hb]))]
    · have e1 : (uinc k.cons.e + s.length) % UINT = (k.cons.e + (s.length + 1)) % UINT := by
        simp only [uinc_eq, UINT]; omega
      simp [wrs, e1]
    · show uinc k.cons.e < UINT
      simp only [uinc_eq, UINT]; omega
    · exact hr
    · show usub (uinc k.cons.e) k.cons.r + s.length < INPUT_BUF_SIZE
      simp only [usub_eq, uinc_eq, UINT, INPUT_BUF_SIZE] at *; omega


theorem rd_wrs_in (s : List Nat) (buf : List Nat) (e j : Nat) (he : e < UINT)
    (hb : buf.length = INPUT_BUF_SIZE) (hs : s.length ≤ INPUT_BUF_SIZE) (hj : j < s.length) :
    rd (wrs buf e s) ((e + j) % UINT % INPUT_BUF_SIZE) = s.getD j 0 := by
  rw [← window_getD (wrs buf e s) s.length e j he hj, window_wrs s buf e he hb hs]

theorem getD_ordinary (s : List Nat) (hs : ∀ b, b ∈ s → Ordinary b) (j : Nat) (hj : j < s.length) :
    Ordinary (s.getD j 0) := by
  rw [List.getD_eq_getElem _ _ hj]
  exact hs _ (List.getElem_mem hj)

/-- A newline or an end-of-file byte, with room for it, is stored and commits
the line. -/
theorem consoleintr_commit (k : Kernel) (d : Dev) (t : Nat) (ht : t = 10 ∨ t = 4)
    (hroom : usub k.cons.e k.cons.r < INPUT_BUF_SIZE) :
    consoleintr k (t : Int) d =
      { k with
        uart := k.uart ++ [t, 1]
        historyBufferArray := record k.historyBufferArray
          (scratch { k.cons with
                     buf := wr k.cons.buf (k.cons.e % INPUT_BUF_SIZE) t
                     e := uinc k.cons.e } d.stack d.below)
        cons := { buf := wr k.cons.buf (k.cons.e % INPUT_BUF_SIZE) t
                  r := k.cons.r
                  w := uinc k.cons.e
                  e := uinc k.cons.e } } := by
  rcases ht with rfl | rfl <;>
    simp [consoleintr, consoleintrDefault, consputc, hroom, BACKSPACE, toByte]

/-- The state after the text `s` and a terminator have been typed into an
empty line. -/
theorem feed_line (d : Dev) (k : Kernel) (s : List Nat) (t : Nat) (ht : t = 10 ∨ t = 4)
    (hs : ∀ b, b ∈ s → Ordinary b) (he : k.cons.e < UINT) (hr : k.cons.r < UINT)
    (hroom : usub k.cons.e k.cons.r + s.length < INPUT_BUF_SIZE) :
    (feed d k (keys s ++ [(t : Int)])).cons =
      { buf := wrs k.cons.buf k.cons.e (s ++ [t])
        r := k.cons.r
        w := (k.cons.e + (s.length + 1)) % UINT
        e := (k.cons.e + (s.length + 1)) % UINT } := by
  have hroom2 : usub ((k.cons.e + s.length) % UINT) k.cons.r < INPUT_BUF_SIZE := by
    simp only [usub_eq, UINT, INPUT_BUF_SIZE] at *; omega
  have e1 : uinc ((k.cons.e + s.length) % UINT) = (k.cons.e + (s.length + 1)) % UINT := by
    simp only [uinc_eq, UINT]; omega
  rw [feed_append, feed_ordinary d s k hs he hr hroom]
  show (consoleintr _ (t : Int) d).cons = _
  rw [consoleintr_commit _ d t ht hroom2]
  simp [wrs_append _ _ _ _ he, wrs, e1]


/-- C2. Line round trip: from a console with `r = w = e`, after the ordinary
bytes `s` (with `length s + 1 ≤ 128`) and a newline have been fed to
`consoleintr`, a `consoleread` with `n ≥ length s + 1` whose copy-outs succeed
returns `length s + 1` and delivers exactly `s` followed by the newline. -/
theorem C2_line_round_trip (k : Kernel) (d : Dev) (s : List Nat) (killed : Bool)
    (copyout : Nat → Bool) (n : Int)
    (hbuf : k.cons.buf.length = INPUT_BUF_SIZE) (hr : k.cons.r < UINT)
    (hw : k.cons.w = k.cons.r) (he : k.cons.e = k.cons.r)
    (hs : ∀ b, b ∈ s → Ordinary b) (hlen : s.length + 1 ≤ INPUT_BUF_SIZE)
    (hn : (s.length : Int) + 1 ≤ n) (hc : ∀ i, copyout i = true) :
    (consoleread (feed d k (keys s ++ [10])) killed copyout n).ret
        = some ((s.length : Int) + 1) ∧
    (consoleread (feed d k (keys s ++ [10])) killed copyout n).dst = s ++ [10] := by
  have he' : k.cons.e < UINT := by rw [he]; exact hr
  have hroom : usub k.cons.e k.cons.r + s.length < INPUT_BUF_SIZE := by
    rw [he]; simp only [usub_eq, UINT, INPUT_BUF_SIZE] at *; omega
  have hcons := feed_line d k s 10 (Or.inl rfl) hs he' hr hroom
  have hlen2 : (s ++ [10]).length ≤ INPUT_BUF_SIZE := by simpa using hlen
  have hrd : ∀ j, j < s.length + 1 →
      rd (feed d k (keys s ++ [((10 : Nat) : Int)])).cons.buf
        (((feed d k (keys s ++ [((10 : Nat) : Int)])).cons.r + j) % UINT % INPUT_BUF_SIZE)
        = (s ++ [10]).getD j 0 := by
    intro j hj
    rw [hcons]
    show rd (wrs k.cons.buf k.cons.e (s ++ [10])) ((k.cons.r + j) % UINT % INPUT_BUF_SIZE) = _
    rw [← he]
    exact rd_wrs_in (s ++ [10]) k.cons.buf k.cons.e j he' hbuf hlen2 (by simpa using hj)
  have hline := readLoop_line n.toNat killed copyout hc
    (feed d k (keys s ++ [((10 : Nat) : Int)])) n.toNat s.length []
    (by rw [hcons]; exact hr)
    (by rw [hcons]; show s.length < usub ((k.cons.e + (s.length + 1)) % UINT) k.cons.r
        rw [he]; simp only [usub_eq, UINT, INPUT_BUF_SIZE] at *; omega)
    (by rw [hrd s.length (by omega)]; simp [List.getD_append_right])
    (by intro j hj
        rw [hrd j (by omega), List.getD_append _ _ _ _ hj]
        exact (getD_ordinary s hs j hj).2.2.2.2.2.2.2.2.2)
    (by intro j hj
        rw [hrd j (by omega), List.getD_append _ _ _ _ hj]
        exact (getD_ordinary s hs j hj).2.2.1)
  have hmin : min n.toNat (s.length + 1) = s.length + 1 := by omega
  rw [hmin] at hline
  obtain ⟨h1, h2, _⟩ := hline
  have hw2 : window (feed d k (keys s ++ [((10 : Nat) : Int)])).cons.buf
      (feed d k (keys s ++ [((10 : Nat) : Int)])).cons.r (s.length + 1) = s ++ [10] := by
    rw [hcons]
    show window (wrs k.cons.buf k.cons.e (s ++ [10])) k.cons.r (s.length + 1) = _
    rw [← he]
    have := window_wrs (s ++ [10]) k.cons.buf k.cons.e he' hbuf hlen2
    simpa using this
  constructor
  · show (readLoop n.toNat killed copyout n.toNat _ []).ret = _
    rw [show ((10 : Int)) = ((10 : Nat) : Int) from rfl, h1]
    congr 1
    omega
  · show (readLoop n.toNat killed copyout n.toNat _ []).dst = _
    rw [show ((10 : Int)) = ((10 : Nat) : Int) from rfl, h2, hw2]
    rfl

/-- Witness of C2: the line `ls` and `read(10)`. -/
theorem C2_line_round_trip_witness :
    (consoleread (feed quiet init (keys [108, 115] ++ [10])) false (fun _ => true) 10).ret
      = some 3 ∧
    (consoleread (feed quiet init (keys [108, 115] ++ [10])) false (fun _ => true) 10).dst
      = [108, 115, 10] :=
  C2_line_round_trip init quiet [108, 115] false (fun _ => true) 10
    (by simp [init, INPUT_BUF_SIZE]) (by decide) (by decide) (by decide) (by decide)
    (by decide) (by decide) (fun _ => rfl)


/-- C4. `consoleread` returns at most one line: in a state whose committed
unread bytes have their first newline at offset `kk` (so `r ≠ w`) and no
end-of-file byte up to it, a `consoleread` of `n ≥ 1` bytes whose copy-outs
succeed returns `min n (kk + 1)`, delivers exactly the first `min n (kk + 1)`
committed unread bytes in order, advances `r` by that count and changes nothing
else (not `w`, `e`, the buffer or the history). -/
theorem C4_read_one_line (k : Kernel) (killed : Bool) (copyout : Nat → Bool) (n : Int)
    (kk : Nat) (hr : k.cons.r < UINT)
    (hk : kk < usub k.cons.w k.cons.r)
    (hnl : rd k.cons.buf ((k.cons.r + kk) % UINT % INPUT_BUF_SIZE) = 10)
    (hfirst : ∀ j, j < kk → rd k.cons.buf ((k.cons.r + j) % UINT % INPUT_BUF_SIZE) ≠ 10)
    (h4 : ∀ j, j ≤ kk → rd k.cons.buf ((k.cons.r + j) % UINT % INPUT_BUF_SIZE) ≠ 4)
    (hn : 1 ≤ n) (hc : ∀ i, copyout i = true) :
    k.cons.r ≠ k.cons.w ∧
    (consoleread k killed copyout n).ret = some (min n ((kk : Int) + 1)) ∧
    (consoleread k killed copyout n).dst
      = window k.cons.buf k.cons.r (min n.toNat (kk + 1)) ∧
    (consoleread k killed copyout n).k
      = { k with cons := { k.cons with r := (k.cons.r + min n.toNat (kk + 1)) % UINT } } := by
  obtain ⟨h1, h2, h3⟩ := readLoop_line n.toNat killed copyout hc k n.toNat kk [] hr hk hnl
    hfirst (fun j hj => h4 j (by omega))
  refine ⟨?_, ?_, ?_, ?_⟩
  · simp only [usub_eq, UINT] at hk; simp only [UINT] at hr; omega
  · show (readLoop n.toNat killed copyout n.toNat k []).ret = _
    rw [h1]; congr 1; omega
  · show (readLoop n.toNat killed copyout n.toNat k []).dst = _
    rw [h2]; rfl
  · exact h3

/-- Witness of C4: after the line `ls`, a read of 2 bytes delivers `l`, `s`. -/
theorem C4_read_one_line_witness :
    (feed quiet init (keys [108, 115] ++ [10])).cons.r
      ≠ (feed quiet init (keys [108, 115] ++ [10])).cons.w ∧
    (consoleread (feed quiet init (keys [108, 115] ++ [10])) false (fun _ => true) 2).ret
      = some (min 2 (((2 : Nat) : Int) + 1)) ∧
    (consoleread (feed quiet init (keys [108, 115] ++ [10])) false (fun _ => true) 2).dst
      = window (feed quiet init (keys [108, 115] ++ [10])).cons.buf
          (feed quiet init (keys [108, 115] ++ [10])).cons.r (min (2 : Int).toNat (2 + 1)) ∧
    (consoleread (feed quiet init (keys [108, 115] ++ [10])) false (fun _ => true) 2).k
      = { feed quiet init (keys [108, 115] ++ [10]) with
          cons := { (feed quiet init (keys [108, 115] ++ [10])).cons with
                    r := ((feed quiet init (keys [108, 115] ++ [10])).cons.r
                           + min (2 : Int).toNat (2 + 1)) % UINT } } :=
  C4_read_one_line (feed quiet init (keys [108, 115] ++ [10])) false (fun _ => true) 2 2
    (by decide!) (by decide!) (by decide!) (by decide!) (by decide!) (by decide)
    (fun _ => rfl)

/-- A read that finds the end-of-file byte first consumes it and returns 0. -/
theorem readLoop_eof_first (killed : Bool) (copyout : Nat → Bool) (k : Kernel) (n : Nat)
    (hn : 1 ≤ n) (hne : k.cons.r ≠ k.cons.w)
    (h4 : rd k.cons.buf (k.cons.r % INPUT_BUF_SIZE) = 4) :
    (readLoop n killed copyout n k []).ret = some 0 ∧
    (readLoop n killed copyout n k []).dst = [] ∧
    (readLoop n killed copyout n k []).k
      = { k with cons := { k.cons with r := uinc k.cons.r } } := by
  obtain ⟨m, rfl⟩ : ∃ m, n = m + 1 := ⟨n - 1, by omega⟩
  simp [readLoop, hne, h4]

/-- A read that finds the end-of-file byte after `len ≥ 1` ordinary bytes
delivers those and leaves the end-of-file byte unread. -/
theorem readLoop_eof_later (killed : Bool) (copyout : Nat → Bool)
    (hc : ∀ i, copyout i = true) (k : Kernel) (n len : Nat)
    (hlen : 1 ≤ len) (hn : len ≤ n) (hr : k.cons.r < UINT)
    (hw : ∀ j, j < len + 1 → (k.cons.r + j) % UINT ≠ k.cons.w)
    (hb4 : ∀ j, j < len → rd k.cons.buf ((k.cons.r + j) % UINT % INPUT_BUF_SIZE) ≠ 4)
    (hb10 : ∀ j, j < len → rd k.cons.buf ((k.cons.r + j) % UINT % INPUT_BUF_SIZE) ≠ 10)
    (h4 : rd k.cons.buf ((k.cons.r + len) % UINT % INPUT_BUF_SIZE) = 4) :
    (readLoop n killed copyout n k []).ret = some (len : Int) ∧
    (readLoop n killed copyout n k []).dst = window k.cons.buf k.cons.r len ∧
    (readLoop n killed copyout n k []).k
      = { k with cons := { k.cons with r := (k.cons.r + len) % UINT } } := by
  obtain ⟨n', rfl⟩ : ∃ n', n = n' + len := ⟨n - len, by omega⟩
  rw [readLoop_run (n' + len) killed copyout hc len n' k [] hr
    (fun j hj => hw j (by omega)) hb4 hb10]
  cases n' with
  | zero => simp [readLoop]
  | succ m =>
    have hne := hw len (by omega)
    have hud : udec (uinc ((k.cons.r + len) % UINT)) = (k.cons.r + len) % UINT := by
      simp only [udec_eq, uinc_eq, UINT]; omega
    have hlt : m + 1 < m + 1 + len := by omega
    simp [readLoop, hne, h4, hud, hlt]


/-- C3. End-of-file: from a console with `r = w = e`, after the ordinary bytes
`p` (with `length p + 1 ≤ 128`) and `^D` have been fed to `consoleintr`: when
`p` is empty a `consoleread` of `n ≥ 1` bytes returns 0 and consumes the `^D`;
when `p` is not empty a `consoleread` of `n ≥ length p` bytes returns exactly
the bytes of `p`, and the next `consoleread` of `n' ≥ 1` bytes returns 0 with
nothing delivered, after which `r = w`. -/
theorem C3_end_of_file (k : Kernel) (d : Dev) (p : List Nat) (killed killed' : Bool)
    (copyout : Nat → Bool) (n n' : Int)
    (hbuf : k.cons.buf.length = INPUT_BUF_SIZE) (hr : k.cons.r < UINT)
    (hw : k.cons.w = k.cons.r) (he : k.cons.e = k.cons.r)
    (hp : ∀ b, b ∈ p → Ordinary b) (hlen : p.length + 1 ≤ INPUT_BUF_SIZE)
    (hc : ∀ i, copyout i = true) :
    (p = [] → 1 ≤ n →
      (consoleread (feed d k (keys p ++ [4])) killed copyout n).ret = some 0 ∧
      (consoleread (feed d k (keys p ++ [4])) killed copyout n).dst = [] ∧
      (consoleread (feed d k (keys p ++ [4])) killed copyout n).k.cons.r
        = (consoleread (feed d k (keys p ++ [4])) killed copyout n).k.cons.w) ∧
    (p ≠ [] → (p.length : Int) ≤ n → 1 ≤ n' →
      (consoleread (feed d k (keys p ++ [4])) killed copyout n).ret = some (p.length : Int) ∧
      (consoleread (feed d k (keys p ++ [4])) killed copyout n).dst = p ∧
      (consoleread (consoleread (feed d k (keys p ++ [4])) killed copyout n).k
          killed' copyout n').ret = some 0 ∧
      (consoleread (consoleread (feed d k (keys p ++ [4])) killed copyout n).k
          killed' copyout n').dst = [] ∧
      (consoleread (consoleread (feed d k (keys p ++ [4])) killed copyout n).k
          killed' copyout n').k.cons.r
        = (consoleread (consoleread (feed d k (keys p ++ [4])) killed copyout n).k
          killed' copyout n').k.cons.w) := by
  have he' : k.cons.e < UINT := by rw [he]; exact hr
  have hroom : usub k.cons.e k.cons.r + p.length < INPUT_BUF_SIZE := by
    rw [he]; simp only [usub_eq, UINT, INPUT_BUF_SIZE] at *; omega
  have hcons := feed_line d k p 4 (Or.inr rfl) hp he' hr hroom
  have h4eq : ((4 : Int)) = ((4 : Nat) : Int) := rfl
  rw [h4eq]
  generalize hk1 : feed d k (keys p ++ [((4 : Nat) : Int)]) = k1 at hcons ⊢
  have hlen2 : (p ++ [4]).length ≤ INPUT_BUF_SIZE := by simpa using hlen
  have hbuf1 : k1.cons.buf = wrs k.cons.buf k.cons.r (p ++ [4]) := by rw [hcons, he]
  have hr1 : k1.cons.r = k.cons.r := by rw [hcons]
  have hw1 : k1.cons.w = (k.cons.r + (p.length + 1)) % UINT := by rw [hcons, he]
  have hrd : ∀ j, j < p.length + 1 →
      rd k1.cons.buf ((k1.cons.r + j) % UINT % INPUT_BUF_SIZE) = (p ++ [4]).getD j 0 := by
    intro j hj
    rw [hbuf1, hr1]
    exact rd_wrs_in (p ++ [4]) k.cons.buf k.cons.r j hr hbuf hlen2 (by simpa using hj)
  constructor
  · intro hnil hn
    subst hnil
    have hne : k1.cons.r ≠ k1.cons.w := by
      rw [hr1, hw1]; simp only [UINT] at *; simp; omega
    have hb : rd k1.cons.buf (k1.cons.r % INPUT_BUF_SIZE) = 4 := by
      have := hrd 0 (by simp)
      have e0 : (k1.cons.r + 0) % UINT = k1.cons.r := by
        rw [Nat.add_zero, hr1]; exact Nat.mod_eq_of_lt hr
      rw [e0] at this
      simpa using this
    obtain ⟨a1, a2, a3⟩ := readLoop_eof_first killed copyout k1 n.toNat (by omega) hne hb
    refine ⟨a1, a2, ?_⟩
    show (readLoop n.toNat killed copyout n.toNat k1 []).k.cons.r
      = (readLoop n.toNat killed copyout n.toNat k1 []).k.cons.w
    rw [a3]
    show uinc k1.cons.r = k1.cons.w
    rw [hr1, hw1]; simp only [uinc_eq, UINT]; simp
  · intro hnonempty hn hn'
    have hpos : 1 ≤ p.length := by
      cases p with
      | nil => exact absurd rfl hnonempty
      | cons b p => simp
    obtain ⟨a1, a2, a3⟩ := readLoop_eof_later killed copyout hc k1 n.toNat p.length hpos
      (by omega) (by rw [hr1]; exact hr)
      (by intro j hj; rw [hr1, hw1]; simp only [UINT, INPUT_BUF_SIZE] at *; omega)
      (by intro j hj
          rw [hrd j (by omega), List.getD_append _ _ _ _ hj]
          exact (getD_ordinary p hp j hj).2.2.1)
      (by intro j hj
          rw [hrd j (by omega), List.getD_append _ _ _ _ hj]
          exact (getD_ordinary p hp j hj).2.2.2.2.2.2.2.2.2)
      (by rw [hrd p.length (by omega)]; simp [List.getD_append_right])
    have hwin : window k1.cons.buf k1.cons.r p.length = p := by
      rw [hbuf1, hr1]
      have h1 := window_wrs p k.cons.buf k.cons.r hr hbuf (by omega)
      refine (window_congr _ _ _ _ hr ?_).trans h1
      intro j hj
      rw [rd_wrs_in (p ++ [4]) k.cons.buf k.cons.r j hr hbuf hlen2 (by simp; omega),
        rd_wrs_in p k.cons.buf k.cons.r j hr hbuf (by omega) hj,
        List.getD_append _ _ _ _ hj]
    have hres : (consoleread k1 killed copyout n).k
        = { k1 with cons := { k1.cons with r := (k1.cons.r + p.length) % UINT } } := a3
    rw [hres]
    generalize hk2 : ({ k1 with cons := { k1.cons with r := (k1.cons.r + p.length) % UINT } }
      : Kernel) = k2
    have hr2 : k2.cons.r = (k.cons.r + p.length) % UINT := by rw [← hk2, ← hr1]
    have hw2 : k2.cons.w = (k.cons.r + (p.length + 1)) % UINT := by rw [← hk2, ← hw1]
    have hb2 : k2.cons.buf = k1.cons.buf := by rw [← hk2]
    have hne2 : k2.cons.r ≠ k2.cons.w := by
      rw [hr2, hw2]; simp only [UINT] at *; omega
    have hbyte : rd k2.cons.buf (k2.cons.r % INPUT_BUF_SIZE) = 4 := by
      have := hrd p.length (by omega)
      rw [hb2, hr2, ← hr1, this]
      simp [List.getD_append_right]
    obtain ⟨c1, c2, c3⟩ := readLoop_eof_first killed' copyout k2 n'.toNat (by omega) hne2 hbyte
    refine ⟨a1, ?_, c1, c2, ?_⟩
    · show (readLoop n.toNat killed copyout n.toNat k1 []).dst = p
      rw [a2, hwin]
    · show (readLoop n'.toNat killed' copyout n'.toNat k2 []).k.cons.r
        = (readLoop n'.toNat killed' copyout n'.toNat k2 []).k.cons.w
      rw [c3]
      show uinc k2.cons.r = k2.cons.w
      rw [hr2, hw2]; simp only [uinc_eq, UINT]; omega

/-- Witness of C3: `ab` then `^D`, read with `read(10)` twice. -/
theorem C3_end_of_file_witness :
    (consoleread (feed quiet init (keys [97, 98] ++ [4])) false (fun _ => true) 10).ret
        = some 2 ∧
    (consoleread (feed quiet init (keys [97, 98] ++ [4])) false (fun _ => true) 10).dst
        = [97, 98] ∧
    (consoleread (consoleread (feed quiet init (keys [97, 98] ++ [4])) false
        (fun _ => true) 10).k false (fun _ => true) 10).ret = some 0 :=
  have h := (C3_end_of_file init quiet [97, 98] false false (fun _ => true) 10 10
    (by simp [init, INPUT_BUF_SIZE]) (by decide) (by decide) (by decide) (by decide)
    (by decide) (fun _ => rfl)).2 (by decide) (by decide) (by decide)
  ⟨h.1, h.2.1, h.2.2.1⟩

/-! ## The string routines -/

theorem strncpy_length (n : Nat) : ∀ t, (strncpy t n).length = n := by
  induction n with
  | zero => intro t; cases t <;> rfl
  | succ n ih =>
    intro t
    cases t with
    | nil => simp [strncpy, ih]
    | cons c t =>
      by_cases hc : c = 0 <;> simp [strncpy, hc, ih]

theorem strlen_text (t rest : List Nat) (ht : ∀ b, b ∈ t → b ≠ 0) :
    strlen (t ++ 0 :: rest) = t.length := by
  induction t with
  | nil => simp [strlen]
  | cons b t ih =>
    have hb : b ≠ 0 := ht b (by simp)
    simp [strlen, hb, ih (fun b hb => ht b (by simp [hb]))]

theorem strncpy_nil (n : Nat) : strncpy [] n = List.replicate n 0 := by
  induction n with
  | zero => rfl
  | succ n ih => simp [strncpy, ih, List.replicate_succ]

theorem strncpy_text (t rest : List Nat) (ht : ∀ b, b ∈ t → b ≠ 0) :
    ∀ n, t.length ≤ n → strncpy (t ++ 0 :: rest) n = t ++ List.replicate (n - t.length) 0 := by
  induction t with
  | nil =>
    intro n _
    cases n with
    | zero => rfl
    | succ n => simp [strncpy]
  | cons b t ih =>
    intro n hn
    have hb : b ≠ 0 := ht b (by simp)
    obtain ⟨m, rfl⟩ : ∃ m, n = m + 1 := ⟨n - 1, by simp at hn; omega⟩
    have hm : t.length ≤ m := by simpa using hn
    simp [strncpy, hb, ih (fun b hb => ht b (by simp [hb])) m hm]

theorem strncpy_pad (t : List Nat) (ht : ∀ b, b ∈ t → b ≠ 0) (hl : t.length < INPUT_BUF_SIZE) :
    strncpy (pad t) INPUT_BUF_SIZE = pad t := by
  have h : pad t = t ++ 0 :: List.replicate (INPUT_BUF_SIZE - t.length - 1) 0 := by
    unfold pad
    obtain ⟨m, hm⟩ : ∃ m, INPUT_BUF_SIZE - t.length = m + 1 := ⟨INPUT_BUF_SIZE - t.length - 1, by omega⟩
    rw [hm, List.replicate_succ]; simp
  rw [h, strncpy_text t _ ht _ (by omega), ← h]
  rfl

theorem cstr_strncpy_take (q : List Nat) : ∀ (cmd : List Nat) (n : Nat),
    cstr (strncpy cmd n) = q → cmd.take q.length = q := by
  induction q with
  | nil => intro cmd n _; rfl
  | cons a q ih =>
    intro cmd n h
    cases n with
    | zero => cases cmd <;> simp [strncpy, cstr] at h
    | succ n =>
      cases cmd with
      | nil => simp [strncpy, cstr] at h
      | cons c t =>
        by_cases hc : c = 0
        · simp [strncpy, cstr, hc, List.replicate_succ] at h
        · simp only [strncpy, cstr, ne_eq, hc, not_false_eq_true, ite_true] at h
          rw [List.takeWhile_cons_of_pos (by simpa using hc)] at h
          injection h with h1 h2
          simp [h1, ih t n h2]

theorem strncmp_of_take (q : List Nat) (hq : ∀ c, c ∈ q → c ≠ 0) :
    ∀ (cmd qrest : List Nat), cmd.take q.length = q →
      strncmp cmd (q ++ qrest) q.length = 0 := by
  induction q with
  | nil => intro cmd qrest _; rfl
  | cons a q ih =>
    intro cmd qrest h
    cases cmd with
    | nil => simp at h
    | cons c t =>
      simp only [List.length_cons, List.take_succ_cons, List.cons.injEq] at h
      obtain ⟨rfl, h2⟩ := h
      have hc : c ≠ 0 := hq c (by simp)
      simp [strncmp, hc, ih (fun c hc => hq c (by simp [hc])) t qrest h2]

theorem strncmp_text (q : List Nat) (hq : ∀ c, c ∈ q → c ≠ 0) :
    ∀ (t rest qrest : List Nat), (∀ b, b ∈ t → b ≠ 0) →
      (strncmp (t ++ 0 :: rest) (q ++ qrest) q.length = 0 ↔ t.take q.length = q) := by
  induction q with
  | nil => intro t rest qrest _; simp [strncmp]
  | cons a q ih =>
    intro t rest qrest ht
    have ha : a ≠ 0 := hq a (by simp)
    cases t with
    | nil => simp [strncmp]; omega
    | cons b t =>
      have hb : b ≠ 0 := ht b (by simp)
      by_cases hab : b = a
      · subst hab
        simp [strncmp, hb, ih (fun c hc => hq c (by simp [hc])) t rest qrest
          (fun b hb => ht b (by simp [hb]))]
      · simp [strncmp, hb, hab]; omega

/-- On a NUL-free text followed by a NUL, `strncmp(command, "history", 7)` is 0
exactly when the text begins with `history`. -/
theorem strncmp_history (t rest : List Nat) (ht : ∀ b, b ∈ t → b ≠ 0) :
    strncmp (t ++ 0 :: rest) historyLit 7 = 0 ↔ t.take 7 = historyStr :=
  strncmp_text historyStr (by decide) t rest [0] ht

/-! ## The scratch array of the commit block -/

theorem length_copyLoop (buf : List Nat) (below : Nat → Nat) (cnt : Nat) :
    ∀ (i j : Nat) (command : List Nat),
    (copyLoop buf below cnt i j command).length = command.length := by
  induction cnt with
  | zero => intro i j command; rfl
  | succ cnt ih => intro i j command; simp [copyLoop, ih, length_wr]

theorem rd_copyLoop (buf : List Nat) (below : Nat → Nat) (cnt : Nat) :
    ∀ (i j : Nat) (command : List Nat) (x : Nat),
    j + cnt ≤ command.length →
    rd (copyLoop buf below cnt i j command) x
      = if j ≤ x ∧ x < j + cnt then rdAt buf below (crem (toInt (i + (x - j))))
        else rd command x := by
  induction cnt with
  | zero =>
    intro i j command x _
    have : ¬ (j ≤ x ∧ x < j + 0) := by omega
    rw [if_neg this]; rfl
  | succ cnt ih =>
    intro i j command x h
    rw [copyLoop, ih _ _ _ _ (by rw [length_wr]; omega)]
    by_cases hx : x = j
    · subst hx
      have h1 : ¬ (x + 1 ≤ x ∧ x < x + 1 + cnt) := by omega
      have h2 : x ≤ x ∧ x < x + (cnt + 1) := by omega
      simp only [h1, h2, if_false, if_true, and_self]
      rw [rd_wr_same _ _ _ (by omega)]
      simp
    · by_cases hin : j + 1 ≤ x ∧ x < j + 1 + cnt
      · have h2 : j ≤ x ∧ x < j + (cnt + 1) := by omega
        have e : i + 1 + (x - (j + 1)) = i + (x - j) := by omega
        simp only [hin, h2, if_true, and_self, e]
      · have h2 : ¬ (j ≤ x ∧ x < j + (cnt + 1)) := by omega
        simp only [hin, h2, if_false]
        exact rd_wr_ne _ _ _ _ (fun h => hx h.symm)

theorem eq_append_of_rd (t : List Nat) : ∀ (l : List Nat), t.length ≤ l.length →
    (∀ j, j < t.length → rd l j = t.getD j 0) → l = t ++ l.drop t.length := by
  induction t with
  | nil => intro l _ _; simp
  | cons b t ih =>
    intro l hl h
    cases l with
    | nil => simp at hl
    | cons a l =>
      have h0 := h 0 (by simp)
      simp [rd] at h0
      subst h0
      have := ih l (by simpa using hl) (fun j hj => by
        have := h (j + 1) (by simpa using hj)
        simpa [rd] using this)
      simp
      exact this

/-- The scratch array holds the uncommitted text (without the byte just
stored) followed by a NUL, when `w ≤ e < 2^31` as numbers and the text has
fewer than 128 bytes. -/
theorem scratch_text (cons : Cons) (stack below : Nat → Nat)
    (hh : cons.e < HALF) (hwe : cons.w ≤ cons.e) (hlen : cons.e - cons.w < INPUT_BUF_SIZE) :
    ∃ rest, scratch { cons with e := uinc cons.e } stack below
      = window cons.buf cons.w (cons.e - cons.w) ++ 0 :: rest := by
  have he : cons.e < UINT := by simp only [HALF, UINT] at *; omega
  have e1 : usub (uinc cons.e) 1 = cons.e := by simp only [usub_eq, uinc_eq, UINT] at *; omega
  have e2 : usub cons.e cons.w % INPUT_BUF_SIZE = cons.e - cons.w := by
    simp only [usub_eq, UINT, INPUT_BUF_SIZE] at *; omega
  have hlen0 : ((List.range INPUT_BUF_SIZE).map stack).length = INPUT_BUF_SIZE := by simp
  have hsl : (scratch { cons with e := uinc cons.e } stack below).length = INPUT_BUF_SIZE := by
    simp [scratch, length_wr, length_copyLoop]
  have hp := eq_append_of_rd (window cons.buf cons.w (cons.e - cons.w) ++ [0])
    (scratch { cons with e := uinc cons.e } stack below)
    (by rw [hsl]; simp [window_length]; omega)
    (by
      intro j hj
      simp [window_length] at hj
      show rd (wr (copyLoop cons.buf below (usub (uinc cons.e) 1 - cons.w) cons.w 0 _)
        (usub (usub (uinc cons.e) 1) cons.w % INPUT_BUF_SIZE) 0) j = _
      rw [e1, e2]
      by_cases hj2 : j = cons.e - cons.w
      · subst hj2
        rw [rd_wr_same _ _ _ (by rw [length_copyLoop, hlen0]; exact hlen)]
        rw [List.getD_append_right _ _ _ _ (by simp [window_length])]
        simp [window_length]
      · have hj3 : j < cons.e - cons.w := by omega
        rw [rd_wr_ne _ _ _ _ (fun h => hj2 h.symm),
          rd_copyLoop _ _ _ _ _ _ _ (by rw [hlen0]; simp only [INPUT_BUF_SIZE] at *; omega)]
        rw [List.getD_append _ _ _ _ (by simpa [window_length] using hj3)]
        rw [window_getD _ _ _ _ (by omega) hj3]
        have e3 : (cons.w + j) % UINT = cons.w + j := Nat.mod_eq_of_lt (by omega)
        have h2 : 0 ≤ j ∧ j < 0 + (cons.e - cons.w) := by omega
        rw [if_pos h2, e3, Nat.sub_zero, rdAt_low _ _ _ (by omega)])
  refine ⟨(scratch { cons with e := uinc cons.e } stack below).drop
    (window cons.buf cons.w (cons.e - cons.w) ++ [0]).length, ?_⟩
  rw [List.append_assoc] at hp
  exact hp

/-! ## Recording a command -/

theorem getD_set_same {α : Type} (l : List α) (i : Nat) (v d : α) (h : i < l.length) :
    (l.set i v).getD i d = v := by
  simp [List.getD_eq_getElem?_getD, h]

theorem getD_set_ne {α : Type} (l : List α) (i j : Nat) (v d : α) (h : i ≠ j) :
    (l.set i v).getD j d = l.getD j d := by
  simp [List.getD_eq_getElem?_getD, List.getElem?_set_ne h]

theorem length_shiftLoop (cnt : Nat) : ∀ (i : Nat) (arr : List (List Nat)),
    (shiftLoop cnt i arr).length = arr.length := by
  induction cnt with
  | zero => intro i arr; rfl
  | succ cnt ih => intro i arr; simp [shiftLoop, ih]

theorem getD_shiftLoop (cnt : Nat) : ∀ (i : Nat) (arr : List (List Nat)) (x : Nat),
    1 ≤ i → i + cnt ≤ arr.length →
    (shiftLoop cnt i arr).getD x []
      = if i - 1 ≤ x ∧ x < i - 1 + cnt then strncpy (arr.getD (x + 1) []) INPUT_BUF_SIZE
        else arr.getD x [] := by
  induction cnt with
  | zero =>
    intro i arr x _ _
    have : ¬ (i - 1 ≤ x ∧ x < i - 1 + 0) := by omega
    rw [if_neg this]; rfl
  | succ cnt ih =>
    intro i arr x hi h
    rw [shiftLoop, ih _ _ _ (by omega) (by rw [List.length_set]; omega)]
    by_cases hx : x = i - 1
    · subst hx
      have h1 : ¬ (i + 1 - 1 ≤ i - 1 ∧ i - 1 < i + 1 - 1 + cnt) := by omega
      have h2 : i - 1 ≤ i - 1 ∧ i - 1 < i - 1 + (cnt + 1) := by omega
      rw [if_neg h1, if_pos h2, getD_set_same _ _ _ _ (by omega)]
      have : i - 1 + 1 = i := by omega
      rw [this]
    · by_cases hin : i + 1 - 1 ≤ x ∧ x < i + 1 - 1 + cnt
      · have h2 : i - 1 ≤ x ∧ x < i - 1 + (cnt + 1) := by omega
        rw [if_pos hin, if_pos h2, getD_set_ne _ _ _ _ _ (by omega)]
      · have h2 : ¬ (i - 1 ≤ x ∧ x < i - 1 + (cnt + 1)) := by omega
        rw [if_neg hin, if_neg h2, getD_set_ne _ _ _ _ _ (fun h => hx h.symm)]

/-- A byte of the `default:` case that commits the line: the state after it. -/
theorem consoleintr_default_commit (k : Kernel) (d : Dev) (c : Int)
    (hc : c ≠ 0 ∧ c ≠ 16 ∧ c ≠ 21 ∧ c ≠ 8 ∧ c ≠ 127 ∧ c ≠ 27)
    (hroom : usub k.cons.e k.cons.r < INPUT_BUF_SIZE)
    (hcommit : c = 10 ∨ c = 13 ∨ c = 4 ∨ usub (uinc k.cons.e) k.cons.r = INPUT_BUF_SIZE) :
    consoleintr k c d =
      { k with
        uart := consputc (consputc k.uart (if c = 13 then 10 else c)) 1
        historyBufferArray := record k.historyBufferArray
          (scratch { k.cons with
                     buf := wr k.cons.buf (k.cons.e % INPUT_BUF_SIZE)
                              (toByte (if c = 13 then 10 else c))
                     e := uinc k.cons.e } d.stack d.below)
        cons := { buf := wr k.cons.buf (k.cons.e % INPUT_BUF_SIZE)
                           (toByte (if c = 13 then 10 else c))
                  r := k.cons.r
                  w := uinc k.cons.e
                  e := uinc k.cons.e } } := by
  obtain ⟨h0, h16, h21, h8, h127, h27⟩ := hc
  have hcond : (if c = 13 then (10 : Int) else c) = 10 ∨ (if c = 13 then (10 : Int) else c) = 4
      ∨ usub (uinc k.cons.e) k.cons.r = INPUT_BUF_SIZE := by
    rcases hcommit with h | h | h | h
    · left; simp [h]
    · left; simp [h]
    · right; left; simp [h]
    · right; right; exact h
  simp only [consoleintr, consoleintrDefault, h16, h21, h8, h127, h27, or_self, if_false]
  rw [if_pos ⟨h0, hroom⟩, if_pos hcond]

/-- The text handed to the history by a commit. -/
theorem scratch_commit (k : Kernel) (stack below : Nat → Nat) (v : Nat)
    (hh : k.cons.e < HALF) (hwe : k.cons.w ≤ k.cons.e)
    (hlen : k.cons.e - k.cons.w < INPUT_BUF_SIZE) :
    ∃ rest, scratch { k.cons with
                      buf := wr k.cons.buf (k.cons.e % INPUT_BUF_SIZE) v
                      e := uinc k.cons.e } stack below
      = uncommitted k ++ 0 :: rest := by
  have he : k.cons.e < UINT := by simp only [HALF, UINT] at *; omega
  obtain ⟨rest, h⟩ := scratch_text
    { k.cons with buf := wr k.cons.buf (k.cons.e % INPUT_BUF_SIZE) v } stack below hh hwe hlen
  refine ⟨rest, ?_⟩
  have hu : usub k.cons.e k.cons.w = k.cons.e - k.cons.w := by
    simp only [usub_eq, UINT] at *; omega
  rw [uncommitted, hu, ← window_congr (wr k.cons.buf (k.cons.e % INPUT_BUF_SIZE) v) k.cons.buf
    (k.cons.e - k.cons.w) k.cons.w (by omega)]
  · exact h
  · intro j hj
    apply rd_wr_ne
    simp only [UINT, INPUT_BUF_SIZE] at *
    omega

theorem record_skip (h : HistoryBufferArray) (t rest : List Nat) (ht : ∀ b, b ∈ t → b ≠ 0)
    (hpre : t.take 7 = historyStr) : record h (t ++ 0 :: rest) = h := by
  have := (strncmp_history t rest ht).2 hpre
  simp [record, this]

theorem record_append (h : HistoryBufferArray) (t rest : List Nat) (ht : ∀ b, b ∈ t → b ≠ 0)
    (hlen : t.length < INPUT_BUF_SIZE) (hpre : t.take 7 ≠ historyStr)
    (hlt : h.lastCommandIndex < MAX_HISTORY) :
    record h (t ++ 0 :: rest) =
      { bufferArr := h.bufferArr.set h.lastCommandIndex (pad t)
        lengthsArr := h.lengthsArr.set h.lastCommandIndex t.length
        currentHistory := (h.lastCommandIndex : Int)
        lastCommandIndex := h.lastCommandIndex + 1
        numOfCommandsInMem :=
          if h.numOfCommandsInMem < 16 then h.numOfCommandsInMem + 1
          else h.numOfCommandsInMem } := by
  have h1 : strncmp (t ++ 0 :: rest) historyLit 7 ≠ 0 :=
    fun h0 => hpre ((strncmp_history t rest ht).1 h0)
  have h2 : h.lastCommandIndex ≠ MAX_HISTORY := by omega
  have h3 : uinc h.lastCommandIndex = h.lastCommandIndex + 1 := by
    simp only [uinc_eq, UINT]; simp only [MAX_HISTORY] at hlt; omega
  simp only [record, h1, h2, ne_eq, not_false_eq_true, if_true, if_false,
    strncpy_text t rest ht INPUT_BUF_SIZE (by omega), strlen_text t rest ht, h3]
  rfl

theorem record_shift (h : HistoryBufferArray) (t rest : List Nat) (ht : ∀ b, b ∈ t → b ≠ 0)
    (hlen : t.length < INPUT_BUF_SIZE) (hpre : t.take 7 ≠ historyStr)
    (hfull : h.lastCommandIndex = MAX_HISTORY) :
    record h (t ++ 0 :: rest) =
      { h with
        bufferArr := (shiftLoop 15 1 h.bufferArr).set 15 (pad t)
        lengthsArr := h.lengthsArr.set 15 t.length
        currentHistory := 16 } := by
  have h1 : strncmp (t ++ 0 :: rest) historyLit 7 ≠ 0 :=
    fun h0 => hpre ((strncmp_history t rest ht).1 h0)
  simp only [record, shiftAndAdd, h1, hfull, ne_eq, not_false_eq_true, if_true,
    strncpy_text t rest ht INPUT_BUF_SIZE (by omega), strlen_text t rest ht]
  rfl

/-- C9 (amended). While the ring indices are in order and below `2^31`
(`r ≤ w ≤ e < 2^31` as numbers: none has wrapped and the `int` index of the
copy loop is not negative), a committed line whose text is NUL-free is recorded
exactly when it does not begin with the seven bytes `history`. If it does not: when
fewer than 16 entries are stored the text (padded with NULs) is written to slot
`lastCommandIndex`, its length to the same index of `lengthsArr`, and
`lastCommandIndex` increases by 1; with 16 entries stored every slot `i < 15`
receives the string of slot `i + 1` and the text becomes slot 15. If it does
begin with `history` (as `history 3` does) the history store is unchanged. The
line is committed by any byte of the `default:` case that is a newline, a
carriage return, `^D`, or fills the ring. -/
theorem C9_records_unless_begins_with_history (k : Kernel) (d : Dev) (c : Int)
    (hrows : k.historyBufferArray.bufferArr.length = MAX_HISTORY)
    (hh : k.cons.e < HALF) (hrw : k.cons.r ≤ k.cons.w) (hwe : k.cons.w ≤ k.cons.e)
    (hroom : usub k.cons.e k.cons.r < INPUT_BUF_SIZE)
    (hc : c ≠ 0 ∧ c ≠ 16 ∧ c ≠ 21 ∧ c ≠ 8 ∧ c ≠ 127 ∧ c ≠ 27)
    (hcommit : c = 10 ∨ c = 13 ∨ c = 4 ∨ usub (uinc k.cons.e) k.cons.r = INPUT_BUF_SIZE)
    (hnul : ∀ b, b ∈ uncommitted k → b ≠ 0) :
    ((uncommitted k).take 7 ≠ historyStr →
      k.historyBufferArray.lastCommandIndex < MAX_HISTORY →
      (consoleintr k c d).historyBufferArray.bufferArr
        = k.historyBufferArray.bufferArr.set k.historyBufferArray.lastCommandIndex
            (pad (uncommitted k)) ∧
      (consoleintr k c d).historyBufferArray.lengthsArr
        = k.historyBufferArray.lengthsArr.set k.historyBufferArray.lastCommandIndex
            (uncommitted k).length ∧
      (consoleintr k c d).historyBufferArray.lastCommandIndex
        = k.historyBufferArray.lastCommandIndex + 1 ∧
      (consoleintr k c d).historyBufferArray.bufferArr.getD
          k.historyBufferArray.lastCommandIndex [] = pad (uncommitted k)) ∧
    ((uncommitted k).take 7 ≠ historyStr →
      k.historyBufferArray.lastCommandIndex = MAX_HISTORY →
      (consoleintr k c d).historyBufferArray.bufferArr.getD 15 [] = pad (uncommitted k) ∧
      (∀ i, i < 15 → (consoleintr k c d).historyBufferArray.bufferArr.getD i []
        = strncpy (k.historyBufferArray.bufferArr.getD (i + 1) []) INPUT_BUF_SIZE) ∧
      (consoleintr k c d).historyBufferArray.lengthsArr
        = k.historyBufferArray.lengthsArr.set 15 (uncommitted k).length ∧
      (consoleintr k c d).historyBufferArray.lastCommandIndex = MAX_HISTORY) ∧
    ((uncommitted k).take 7 = historyStr →
      (consoleintr k c d).historyBufferArray = k.historyBufferArray) := by
  have he : k.cons.e < UINT := by simp only [HALF, UINT] at *; omega
  have hlen : k.cons.e - k.cons.w < INPUT_BUF_SIZE := by
    simp only [usub_eq, UINT, INPUT_BUF_SIZE] at *; omega
  have hulen : (uncommitted k).length < INPUT_BUF_SIZE := by
    rw [uncommitted, window_length]; simp only [usub_eq, UINT, INPUT_BUF_SIZE] at *; omega
  obtain ⟨rest, hs⟩ := scratch_commit k d.stack d.below (toByte (if c = 13 then 10 else c))
    hh hwe hlen
  rw [consoleintr_default_commit k d c hc hroom hcommit]
  simp only [hs]
  refine ⟨?_, ?_, ?_⟩
  · intro hpre hlt
    rw [record_append _ _ rest hnul hulen hpre hlt]
    dsimp only
    refine ⟨rfl, rfl, rfl, ?_⟩
    exact getD_set_same _ _ _ _ (by rw [hrows]; exact hlt)
  · intro hpre hfull
    rw [record_shift _ _ rest hnul hulen hpre hfull]
    dsimp only
    refine ⟨?_, ?_, rfl, hfull⟩
    · exact getD_set_same _ _ _ _ (by rw [length_shiftLoop, hrows]; decide)
    · intro i hi
      rw [getD_set_ne _ _ _ _ _ (by omega),
        getD_shiftLoop 15 1 _ i (by omega) (by rw [hrows]; decide)]
      have : 1 - 1 ≤ i ∧ i < 1 - 1 + 15 := by omega
      rw [if_pos this]
  · intro hpre
    exact record_skip _ _ rest hnul hpre

/-- Counterexample to C9 as stated: the line `history 3` is not the string
`history`, yet committing it leaves the history store as it was. -/
theorem C9_counterexample :
    uncommitted (feed quiet init (keys [104, 105, 115, 116, 111, 114, 121, 32, 51]))
      = [104, 105, 115, 116, 111, 114, 121, 32, 51] ∧
    [104, 105, 115, 116, 111, 114, 121, 32, 51] ≠ historyStr ∧
    (consoleintr (feed quiet init (keys [104, 105, 115, 116, 111, 114, 121, 32, 51])) 10
      quiet).historyBufferArray = init.historyBufferArray ∧
    (consoleintr (feed quiet init (keys [104, 105, 115, 116, 111, 114, 121, 32, 51])) 10
      quiet).historyBufferArray.lastCommandIndex = 0 := by
  decide!

/-- Witness of C9 (amended): the line `ls` typed into the initial console. -/
theorem C9_records_unless_begins_with_history_witness :
    (consoleintr (feed quiet init (keys [108, 115])) 10 quiet).historyBufferArray.lastCommandIndex
      = (feed quiet init (keys [108, 115])).historyBufferArray.lastCommandIndex + 1 ∧
    (consoleintr (feed quiet init (keys [108, 115])) 10 quiet).historyBufferArray.bufferArr.getD
      (feed quiet init (keys [108, 115])).historyBufferArray.lastCommandIndex []
      = pad (uncommitted (feed quiet init (keys [108, 115]))) :=
  have h := (C9_records_unless_begins_with_history (feed quiet init (keys [108, 115])) quiet 10
    (by decide!) (by decide!) (by decide!) (by decide!) (by decide!)
    (by decide) (by decide) (by decide!)).1 (by decide!) (by decide!)
  ⟨h.2.2.1, h.2.2.2⟩

/-! ## Reachable states -/

theorem reachable_feed (d : Dev) (cs : List Int) : ∀ k, Reachable k → Reachable (feed d k cs) := by
  induction cs with
  | nil => intro k h; exact h
  | cons c cs ih => intro k h; exact ih _ (Reachable.intr k c d h)

theorem reachable_submit (d : Dev) (k : Kernel) (t : List Nat) (h : Reachable k) :
    Reachable (submit d k t) :=
  Reachable.read _ _ _ _ _ _ (reachable_feed d _ k h)

theorem reachable_session (d : Dev) (ts : List (List Nat)) :
    ∀ k, Reachable k → Reachable (session d k ts) := by
  induction ts with
  | nil => intro k h; exact h
  | cons t ts ih => intro k h; exact ih _ (reachable_submit d k t h)

/-! ## Where the code departs from the claims -/

/-- C1 fails on the code: after a line of 127 bytes is committed and not yet
read, history-up (ESC `[` `A`) resets `e` to `w` and appends the stored entry
without the capacity check of the `default:` case; the reachable state has
`r = 0`, `w = 128`, `e = 255`, so `e - r > 128`. -/
theorem C1_index_invariant_broken_by_history_up :
    Reachable (consoleintr (feed quiet init (keys (List.replicate 127 97) ++ [10])) 27 arrowUp) ∧
    (consoleintr (feed quiet init (keys (List.replicate 127 97) ++ [10])) 27 arrowUp).cons.r = 0 ∧
    (consoleintr (feed quiet init (keys (List.replicate 127 97) ++ [10])) 27 arrowUp).cons.w = 128 ∧
    (consoleintr (feed quiet init (keys (List.replicate 127 97) ++ [10])) 27 arrowUp).cons.e = 255 ∧
    ¬ (usub (consoleintr (feed quiet init (keys (List.replicate 127 97) ++ [10])) 27 arrowUp).cons.e
        (consoleintr (feed quiet init (keys (List.replicate 127 97) ++ [10])) 27 arrowUp).cons.r
        ≤ INPUT_BUF_SIZE) :=
  ⟨Reachable.intr _ _ _ (reachable_feed _ _ _ Reachable.start), by decide!, by decide!,
    by decide!, by decide!⟩

/-- C6 fails on the code: `shiftAndAdd` moves the texts of the slots but not
their stored lengths. After the seventeen lines and two history-up presses the
cursor is 14, a valid index; slot 14 holds the text `c` with stored length 2
(the length of `ab`, which it held before the shift), and the next history-up
makes the uncommitted line the two bytes `c`, NUL. -/
theorem C6_history_up_uses_stale_length :
    Reachable (feed arrowUp (session quiet init seventeen) [27, 27]) ∧
    (feed arrowUp (session quiet init seventeen) [27, 27]).historyBufferArray.currentHistory
      = 14 ∧
    (feed arrowUp (session quiet init seventeen) [27, 27]).historyBufferArray.lastCommandIndex
      = 16 ∧
    cstr ((feed arrowUp (session quiet init seventeen)
      [27, 27]).historyBufferArray.bufferArr.getD 14 []) = [99] ∧
    rd (feed arrowUp (session quiet init seventeen) [27, 27]).historyBufferArray.lengthsArr 14
      = 2 ∧
    uncommitted (consoleintr (feed arrowUp (session quiet init seventeen) [27, 27]) 27 arrowUp)
      = [99, 0] :=
  ⟨reachable_feed _ _ _ (reachable_session _ _ _ Reachable.start), by decide!, by decide!,
    by decide!, by decide!, by decide!⟩

/-- C7 fails on the code: after seventeen lines (the last one, `d`, recorded by
`shiftAndAdd`) the cursor is 16, one past the newest slot, so the first
history-up shows nothing: the uncommitted line stays empty although slot 15
holds the newest command `d`. -/
theorem C7_first_history_up_after_eviction_shows_nothing :
    Reachable (session quiet init seventeen) ∧
    uncommitted (session quiet init seventeen) = [] ∧
    cstr ((session quiet init seventeen).historyBufferArray.bufferArr.getD 15 []) = [100] ∧
    uncommitted (consoleintr (session quiet init seventeen) 27 arrowUp) = [] ∧
    uncommitted (feed arrowUp (session quiet init seventeen) [27, 27]) = [100] :=
  ⟨reachable_session _ _ _ Reachable.start, by decide!, by decide!, by decide!, by decide!⟩

/-- C8 fails on the code: after seventeen lines `lastCommandIndex` is 16 and
`shiftAndAdd` has set `currentHistory` to 16, above `min 16 16 - 1 = 15`; a
history-down then moves it to 17. -/
theorem C8_cursor_out_of_range_after_eviction :
    Reachable (session quiet init seventeen) ∧
    (session quiet init seventeen).historyBufferArray.lastCommandIndex = 16 ∧
    (session quiet init seventeen).historyBufferArray.currentHistory = 16 ∧
    (consoleintr (session quiet init seventeen) 27 arrowDown).historyBufferArray.currentHistory
      = 17 :=
  ⟨reachable_session _ _ _ Reachable.start, by decide!, by decide!, by decide!⟩

/-! ## The history store in reachable states -/

theorem readLoop_hist (target : Nat) (killed : Bool) (copyout : Nat → Bool) (n : Nat) :
    ∀ (k : Kernel) (dst : List Nat),
      (readLoop target killed copyout n k dst).k.historyBufferArray = k.historyBufferArray := by
  induction n with
  | zero => intro k dst; rfl
  | succ n ih =>
    intro k dst
    rw [readLoop]
    by_cases h1 : k.cons.r = k.cons.w
    · rw [if_pos h1]; cases killed <;> rfl
    rewrite [if_neg h1]
    generalize rd k.cons.buf (k.cons.r % INPUT_BUF_SIZE) = c
    simp only []
    split_ifs
    · rfl
    · rfl
    · rfl
    · rfl
    · exact ih _ _

theorem killLoop_hist (fuel : Nat) : ∀ (k : Kernel),
    (killLoop fuel k).historyBufferArray = k.historyBufferArray := by
  induction fuel with
  | zero => intro k; rfl
  | succ fuel ih =>
    intro k
    rw [killLoop]
    split_ifs
    · rw [ih]
    · rfl

theorem spliceLoop_hist (slot : List Nat) (cnt : Nat) : ∀ (i : Nat) (k : Kernel),
    (spliceLoop slot cnt i k).historyBufferArray = k.historyBufferArray := by
  induction cnt with
  | zero => intro i k; rfl
  | succ cnt ih => intro i k; rw [spliceLoop, ih]

theorem replaceHistoryCommand_hist (k : Kernel) (index : Nat) :
    (replaceHistoryCommand k index).historyBufferArray = k.historyBufferArray := by
  unfold replaceHistoryCommand
  split_ifs
  · rfl
  · rw [spliceLoop_hist]; rfl

theorem historyUp_hist (k : Kernel) :
    (historyUp k).historyBufferArray.bufferArr = k.historyBufferArray.bufferArr ∧
    (historyUp k).historyBufferArray.lengthsArr = k.historyBufferArray.lengthsArr ∧
    (historyUp k).historyBufferArray.lastCommandIndex = k.historyBufferArray.lastCommandIndex := by
  unfold historyUp
  simp only []
  split_ifs <;> simp only [replaceHistoryCommand_hist, and_self]

theorem historyDown_hist (k : Kernel) :
    (historyDown k).historyBufferArray.bufferArr = k.historyBufferArray.bufferArr ∧
    (historyDown k).historyBufferArray.lengthsArr = k.historyBufferArray.lengthsArr ∧
    (historyDown k).historyBufferArray.lastCommandIndex = k.historyBufferArray.lastCommandIndex := by
  unfold historyDown
  simp only []
  split_ifs <;> simp only [replaceHistoryCommand_hist, and_self]

/-- What `consoleintr` can do to the history store: at most move the cursor,
or record one command. -/
theorem consoleintr_hist (k : Kernel) (c : Int) (d : Dev) :
    ((consoleintr k c d).historyBufferArray.bufferArr = k.historyBufferArray.bufferArr ∧
      (consoleintr k c d).historyBufferArray.lengthsArr = k.historyBufferArray.lengthsArr ∧
      (consoleintr k c d).historyBufferArray.lastCommandIndex
        = k.historyBufferArray.lastCommandIndex) ∨
    (∃ cmd, (consoleintr k c d).historyBufferArray = record k.historyBufferArray cmd) := by
  unfold consoleintr
  split_ifs
  · exact Or.inl ⟨rfl, rfl, rfl⟩
  · left; simp only [killLoop_hist, and_self]
  · exact Or.inl ⟨rfl, rfl, rfl⟩
  · exact Or.inl ⟨rfl, rfl, rfl⟩
  · exact Or.inl (historyUp_hist k)
  · exact Or.inl (historyDown_hist k)
  · exact Or.inl ⟨rfl, rfl, rfl⟩
  · exact Or.inl ⟨rfl, rfl, rfl⟩
  · unfold consoleintrDefault
    by_cases hg : c ≠ 0 ∧ usub k.cons.e k.cons.r < INPUT_BUF_SIZE
    · rw [if_pos hg]
      simp only []
      split_ifs <;> first | exact Or.inr ⟨_, rfl⟩ | exact Or.inl ⟨rfl, rfl, rfl⟩
    · rw [if_neg hg]
      exact Or.inl ⟨rfl, rfl, rfl⟩

theorem cstr_replicate_zero (n : Nat) : cstr (List.replicate n 0) = [] := by
  cases n with
  | zero => rfl
  | succ n => simp [cstr, List.replicate_succ]

theorem cstr_strncpy (row : List Nat) : ∀ n, row.length ≤ n → cstr (strncpy row n) = cstr row := by
  induction row with
  | nil => intro n _; rw [strncpy_nil, cstr_replicate_zero]; rfl
  | cons c t ih =>
    intro n hn
    obtain ⟨m, rfl⟩ : ∃ m, n = m + 1 := ⟨n - 1, by simp at hn; omega⟩
    by_cases hc : c = 0
    · subst hc
      simp [strncpy, cstr, List.replicate_succ]
    · have h1 := ih m (by simpa using hn)
      simp only [strncpy, ne_eq, hc, not_false_eq_true, if_true]
      unfold cstr at *
      rw [List.takeWhile_cons_of_pos (by simpa using hc),
        List.takeWhile_cons_of_pos (by simpa using hc), h1]

theorem slotOK_strncpy_row (row : List Nat) (h : SlotOK row) : SlotOK (strncpy row INPUT_BUF_SIZE) :=
  ⟨strncpy_length _ _, by rw [cstr_strncpy row _ (by rw [h.1])]; exact h.2⟩

theorem slotOK_strncpy_command (cmd : List Nat) (h : strncmp cmd historyLit 7 ≠ 0) :
    SlotOK (strncpy cmd INPUT_BUF_SIZE) := by
  refine ⟨strncpy_length _ _, fun hc => h ?_⟩
  have := cstr_strncpy_take historyStr cmd INPUT_BUF_SIZE hc
  exact strncmp_of_take historyStr (by decide) cmd [0] this

theorem slotOK_set (arr : List (List Nat)) (i : Nat) (v : List Nat)
    (h : ∀ row, row ∈ arr → SlotOK row) (hv : SlotOK v) :
    ∀ row, row ∈ arr.set i v → SlotOK row := by
  intro row hrow
  rcases List.mem_or_eq_of_mem_set hrow with h1 | h1
  · exact h row h1
  · rw [h1]; exact hv

theorem slotOK_shiftLoop (cnt : Nat) : ∀ (i : Nat) (arr : List (List Nat)),
    i + cnt ≤ arr.length → (∀ row, row ∈ arr → SlotOK row) →
    ∀ row, row ∈ shiftLoop cnt i arr → SlotOK row := by
  induction cnt with
  | zero => intro i arr _ h; exact h
  | succ cnt ih =>
    intro i arr hlen h
    rw [shiftLoop]
    apply ih
    · rw [List.length_set]; omega
    · apply slotOK_set _ _ _ h
      apply slotOK_strncpy_row
      rw [List.getD_eq_getElem _ _ (show i < arr.length by omega)]
      exact h _ (List.getElem_mem _)

theorem hinv_record (h : HistoryBufferArray) (cmd : List Nat) (hh : HInv h) :
    HInv (record h cmd) := by
  obtain ⟨h1, h2, h3⟩ := hh
  unfold record
  by_cases hs : strncmp cmd historyLit 7 ≠ 0
  · rw [if_pos hs]
    by_cases hfull : h.lastCommandIndex = MAX_HISTORY
    · rw [if_pos hfull]
      refine ⟨?_, h2, ?_⟩
      · simp [shiftAndAdd, length_shiftLoop, h1]
      · apply slotOK_set _ _ _ _ (slotOK_strncpy_command cmd hs)
        exact slotOK_shiftLoop _ _ _ (by rw [h1]; decide) h3
    · rw [if_neg hfull]
      refine ⟨?_, ?_, ?_⟩
      · simp [h1]
      · show uinc h.lastCommandIndex ≤ MAX_HISTORY
        simp only [uinc_eq, UINT, MAX_HISTORY] at *; omega
      · exact slotOK_set _ _ _ h3 (slotOK_strncpy_command cmd hs)
  · rw [if_neg hs]
    exact ⟨h1, h2, h3⟩

theorem hinv_init : HInv init.historyBufferArray := by
  refine ⟨by decide, by decide, ?_⟩
  intro row hrow
  have : row = List.replicate 128 0 := List.eq_of_mem_replicate hrow
  subst this
  exact ⟨by simp [INPUT_BUF_SIZE], by rw [cstr_replicate_zero]; decide⟩

theorem hinv_reachable (k : Kernel) (h : Reachable k) : HInv k.historyBufferArray := by
  induction h with
  | start => exact hinv_init
  | intr k c d _ ih =>
    rcases consoleintr_hist k c d with ⟨h1, _, h2⟩ | ⟨cmd, h1⟩
    · unfold HInv; rw [h1, h2]; exact ih
    · rw [h1]; exact hinv_record _ _ ih
  | read k target n killed copyout dst _ ih =>
    rw [readLoop_hist]; exact ih

/-! ## Submitting a whole line -/

theorem ordinary_ne_zero (s : List Nat) (hs : ∀ b, b ∈ s → Ordinary b) :
    ∀ b, b ∈ s → b ≠ 0 := fun b hb => (hs b hb).1

/-- The history store after the text `s` and a newline or `^D` have been typed
into an empty line: the text has been handed to `record`. -/
theorem feed_line_hist (d : Dev) (k : Kernel) (s : List Nat) (t : Nat) (ht : t = 10 ∨ t = 4)
    (hs : ∀ b, b ∈ s → Ordinary b) (hbuf : k.cons.buf.length = INPUT_BUF_SIZE)
    (hw : k.cons.w = k.cons.e) (hnh : k.cons.e + s.length < HALF) (hr : k.cons.r < UINT)
    (hroom : usub k.cons.e k.cons.r + s.length < INPUT_BUF_SIZE) :
    ∃ rest, (feed d k (keys s ++ [(t : Int)])).historyBufferArray
      = record k.historyBufferArray (s ++ 0 :: rest) := by
  have hnw : k.cons.e + s.length < UINT := by simp only [HALF, UINT] at *; omega
  have he : k.cons.e < UINT := by omega
  have hroom2 : usub ((k.cons.e + s.length) % UINT) k.cons.r < INPUT_BUF_SIZE := by
    simp only [usub_eq, UINT, INPUT_BUF_SIZE] at *; omega
  rw [feed_append, feed_ordinary d s k hs he hr hroom]
  generalize hk1 : ({ k with
        uart := k.uart ++ s
        cons := { k.cons with
                  buf := wrs k.cons.buf k.cons.e s
                  e := (k.cons.e + s.length) % UINT } } : Kernel) = k1
  have hb1 : k1.cons.buf = wrs k.cons.buf k.cons.e s := by rw [← hk1]
  have he1 : k1.cons.e = k.cons.e + s.length := by
    rw [← hk1]; exact Nat.mod_eq_of_lt hnw
  have hw1 : k1.cons.w = k.cons.e := by rw [← hk1]; exact hw
  have hr1 : k1.cons.r = k.cons.r := by rw [← hk1]
  have hh1 : k1.historyBufferArray = k.historyBufferArray := by rw [← hk1]
  have hlen : s.length < INPUT_BUF_SIZE := by omega
  have hun : uncommitted k1 = s := by
    have hu : usub k1.cons.e k1.cons.w = s.length := by
      rw [he1, hw1]; simp only [usub_eq, UINT] at *; omega
    rw [uncommitted, hu, hw1, hb1]
    exact window_wrs s k.cons.buf k.cons.e he hbuf (by omega)
  obtain ⟨rest, hsc⟩ := scratch_commit k1 d.stack d.below t (by omega) (by omega)
    (by rw [he1, hw1]; omega)
  refine ⟨rest, ?_⟩
  show (consoleintr k1 (t : Int) d).historyBufferArray = _
  have hroom3 : usub k1.cons.e k1.cons.r < INPUT_BUF_SIZE := by
    rw [he1, hr1, ← Nat.mod_eq_of_lt hnw]; exact hroom2
  rw [consoleintr_commit k1 d t ht hroom3]
  simp only [hsc, hun, hh1]

/-- Below `2^31`, typing `history` and a newline into an empty line that has
room for the eight bytes leaves the whole history store unchanged. -/
theorem history_line_skipped (k : Kernel) (d : Dev) (hbuf : k.cons.buf.length = INPUT_BUF_SIZE)
    (hw : k.cons.w = k.cons.e) (hnh : k.cons.e + 7 < HALF) (hr : k.cons.r < UINT)
    (hroom : usub k.cons.e k.cons.r + 7 < INPUT_BUF_SIZE) :
    (feed d k (keys historyStr ++ [10])).historyBufferArray = k.historyBufferArray := by
  obtain ⟨rest, h⟩ := feed_line_hist d k historyStr 10 (Or.inl rfl) (by decide) hbuf hw
    hnh hr hroom
  have h10 : ((10 : Int)) = ((10 : Nat) : Int) := rfl
  rw [h10, h]
  exact record_skip _ historyStr rest (by decide) (by decide)

/-- In every reachable state no slot with index below `lastCommandIndex` holds
the string `history`. -/
theorem no_slot_holds_history (k : Kernel) (hk : Reachable k) (i : Nat)
    (hi : i < k.historyBufferArray.lastCommandIndex) :
    cstr (k.historyBufferArray.bufferArr.getD i []) ≠ historyStr := by
  obtain ⟨h1, h2, h3⟩ := hinv_reachable k hk
  have hlt : i < k.historyBufferArray.bufferArr.length := by rw [h1]; omega
  rw [List.getD_eq_getElem _ _ hlt]
  exact (h3 _ (List.getElem_mem _)).2

/-- Reading out a line that was typed into an empty, fully read console. -/
theorem read_after_line (d : Dev) (k : Kernel) (s : List Nat) (killed : Bool)
    (copyout : Nat → Bool) (hc : ∀ i, copyout i = true) (n : Nat)
    (hbuf : k.cons.buf.length = INPUT_BUF_SIZE) (hr : k.cons.r < UINT)
    (hw : k.cons.w = k.cons.r) (he : k.cons.e = k.cons.r)
    (hs : ∀ b, b ∈ s → Ordinary b) (hlen : s.length + 1 ≤ INPUT_BUF_SIZE)
    (hn : s.length + 1 ≤ n) :
    (readLoop n killed copyout n (feed d k (keys s ++ [10])) []).k.cons
      = { buf := wrs k.cons.buf k.cons.r (s ++ [10])
          r := (k.cons.r + (s.length + 1)) % UINT
          w := (k.cons.r + (s.length + 1)) % UINT
          e := (k.cons.r + (s.length + 1)) % UINT } := by
  have he' : k.cons.e < UINT := by rw [he]; exact hr
  have hroom : usub k.cons.e k.cons.r + s.length < INPUT_BUF_SIZE := by
    rw [he]; simp only [usub_eq, UINT, INPUT_BUF_SIZE] at *; omega
  have hcons := feed_line d k s 10 (Or.inl rfl) hs he' hr hroom
  have h10 : ((10 : Int)) = ((10 : Nat) : Int) := rfl
  rw [h10]
  generalize feed d k (keys s ++ [((10 : Nat) : Int)]) = k1 at hcons ⊢
  have hlen2 : (s ++ [10]).length ≤ INPUT_BUF_SIZE := by simpa using hlen
  have hbuf1 : k1.cons.buf = wrs k.cons.buf k.cons.r (s ++ [10]) := by rw [hcons, he]
  have hr1 : k1.cons.r = k.cons.r := by rw [hcons]
  have hw1 : k1.cons.w = (k.cons.r + (s.length + 1)) % UINT := by rw [hcons, he]
  have he1 : k1.cons.e = (k.cons.r + (s.length + 1)) % UINT := by rw [hcons, he]
  have hrd : ∀ j, j < s.length + 1 →
      rd k1.cons.buf ((k1.cons.r + j) % UINT % INPUT_BUF_SIZE) = (s ++ [10]).getD j 0 := by
    intro j hj
    rw [hbuf1, hr1]
    exact rd_wrs_in (s ++ [10]) k.cons.buf k.cons.r j hr hbuf hlen2 (by simpa using hj)
  obtain ⟨_, _, h3⟩ := readLoop_line n killed copyout hc k1 n s.length []
    (by rw [hr1]; exact hr)
    (by rw [hw1, hr1]; simp only [usub_eq, UINT, INPUT_BUF_SIZE] at *; omega)
    (by rw [hrd s.length (by omega)]; simp [List.getD_append_right])
    (by intro j hj
        rw [hrd j (by omega), List.getD_append _ _ _ _ hj]
        exact (getD_ordinary s hs j hj).2.2.2.2.2.2.2.2.2)
    (by intro j hj
        rw [hrd j (by omega), List.getD_append _ _ _ _ hj]
        exact (getD_ordinary s hs j hj).2.2.1)
  have hmin : min n (s.length + 1) = s.length + 1 := by omega
  rw [h3, hmin]
  simp only [hbuf1, hr1, hw1, he1]

/-- One step of a session: the console and the history store after a line
has been typed and read out. -/
theorem submit_step (d : Dev) (k : Kernel) (t : List Nat)
    (hbuf : k.cons.buf.length = INPUT_BUF_SIZE)
    (hw : k.cons.w = k.cons.r) (he : k.cons.e = k.cons.r)
    (hnh : k.cons.r + (t.length + 1) < HALF) (ht : CommandLine t) :
    (submit d k t).cons.r = k.cons.r + (t.length + 1) ∧
    (submit d k t).cons.w = k.cons.r + (t.length + 1) ∧
    (submit d k t).cons.e = k.cons.r + (t.length + 1) ∧
    (submit d k t).cons.buf.length = INPUT_BUF_SIZE ∧
    ∃ rest, (submit d k t).historyBufferArray = record k.historyBufferArray (t ++ 0 :: rest) := by
  obtain ⟨ht1, ht2, _⟩ := ht
  have hnw : k.cons.r + (t.length + 1) < UINT := by simp only [HALF, UINT] at *; omega
  have hr : k.cons.r < UINT := by omega
  have hcons := read_after_line d k t false (fun _ => true) (fun _ => rfl) 128 hbuf hr hw he
    ht1 (by simp only [INPUT_BUF_SIZE] at *; omega) (by simp only [INPUT_BUF_SIZE] at *; omega)
  have hsub : (submit d k t).cons = (readLoop 128 false (fun _ => true) 128
      (feed d k (keys t ++ [10])) []).k.cons := rfl
  have hmod : (k.cons.r + (t.length + 1)) % UINT = k.cons.r + (t.length + 1) :=
    Nat.mod_eq_of_lt hnw
  rw [hsub, hcons, hmod]
  refine ⟨rfl, rfl, rfl, ?_, ?_⟩
  · show (wrs k.cons.buf k.cons.r (t ++ [10])).length = INPUT_BUF_SIZE
    rw [length_wrs, hbuf]
  · have hh : (submit d k t).historyBufferArray
        = (feed d k (keys t ++ [10])).historyBufferArray := readLoop_hist _ _ _ _ _ _
    rw [hh]
    have h10 : ((10 : Int)) = ((10 : Nat) : Int) := rfl
    rw [h10]
    exact feed_line_hist d k t 10 (Or.inl rfl) ht1 hbuf (by rw [hw, he]) (by rw [he]; omega) hr
      (by rw [he]; simp only [usub_eq, UINT, INPUT_BUF_SIZE] at *; omega)

theorem typedBytes_append (ls : List (List Nat)) (t : List Nat) :
    typedBytes (ls ++ [t]) = typedBytes ls + (t.length + 1) := by
  simp [typedBytes]

theorem session_append (d : Dev) (k : Kernel) (ls : List (List Nat)) (t : List Nat) :
    session d k (ls ++ [t]) = submit d (session d k ls) t := by
  simp [session, List.foldl_append]

theorem getD_commandLine (ls : List (List Nat)) (h : ∀ t, t ∈ ls → CommandLine t) (j : Nat)
    (hj : j < ls.length) : CommandLine (ls.getD j []) := by
  rw [List.getD_eq_getElem _ _ hj]
  exact h _ (List.getElem_mem hj)

/-- The console and the history store after a session of command lines that
starts with an empty history and an empty, fully read ring. -/
theorem session_inv (d : Dev) (k : Kernel)
    (hbuf : k.cons.buf.length = INPUT_BUF_SIZE)
    (hrows : k.historyBufferArray.bufferArr.length = MAX_HISTORY)
    (hr : k.cons.r = k.cons.e) (hw : k.cons.w = k.cons.e)
    (h0 : k.historyBufferArray.lastCommandIndex = 0) :
    ∀ (ls : List (List Nat)), (∀ t, t ∈ ls → CommandLine t) →
      k.cons.e + typedBytes ls < HALF →
      (session d k ls).cons.r = k.cons.e + typedBytes ls ∧
      (session d k ls).cons.w = k.cons.e + typedBytes ls ∧
      (session d k ls).cons.e = k.cons.e + typedBytes ls ∧
      (session d k ls).cons.buf.length = INPUT_BUF_SIZE ∧
      (session d k ls).historyBufferArray.bufferArr.length = MAX_HISTORY ∧
      (session d k ls).historyBufferArray.lastCommandIndex = min ls.length MAX_HISTORY ∧
      ∀ i, i < min ls.length MAX_HISTORY →
        (session d k ls).historyBufferArray.bufferArr.getD i []
          = pad (ls.getD (ls.length - min ls.length MAX_HISTORY + i) []) := by
  intro ls
  induction ls using List.reverseRecOn with
  | nil =>
    intro _ _
    refine ⟨by simp [session, typedBytes, hr], by simp [session, typedBytes, hw],
      by simp [session, typedBytes], hbuf, hrows, by simp [session, h0], ?_⟩
    intro i hi
    simp at hi
  | append_singleton ls t ih =>
    intro hls htot
    rw [typedBytes_append] at htot ⊢
    have hls' : ∀ t, t ∈ ls → CommandLine t := fun x hx => hls x (by simp [hx])
    have ht : CommandLine t := hls t (by simp)
    obtain ⟨i1, i2, i3, i4, i5, i6, i7⟩ := ih hls' (by omega)
    rw [session_append]
    generalize session d k ls = s at i1 i2 i3 i4 i5 i6 i7
    obtain ⟨s1, s2, s3, s4, rest, s5⟩ := submit_step d s t i4 (by rw [i2, i1]) (by rw [i3, i1])
      (by rw [i1]; omega) ht
    obtain ⟨ht1, ht2, ht3⟩ := ht
    have hnul := ordinary_ne_zero t ht1
    refine ⟨by rw [s1, i1]; omega, by rw [s2, i1]; omega, by rw [s3, i1]; omega, s4, ?_⟩
    rw [s5]
    by_cases hn : ls.length < MAX_HISTORY
    · -- a free slot is left
      have hlt : s.historyBufferArray.lastCommandIndex < MAX_HISTORY := by rw [i6]; omega
      have hmin : min ls.length MAX_HISTORY = ls.length := by omega
      have hmin' : min (ls ++ [t]).length MAX_HISTORY = ls.length + 1 := by
        simp only [List.length_append, List.length_singleton]; omega
      rw [record_append _ t rest hnul ht2 ht3 hlt, hmin']
      dsimp only
      refine ⟨by rw [List.length_set]; exact i5, by rw [i6, hmin], ?_⟩
      intro i hi
      have e0 : (ls ++ [t]).length - (ls.length + 1) + i = i := by simp
      rw [e0, i6, hmin]
      by_cases hi2 : i = ls.length
      · subst hi2
        rw [getD_set_same _ _ _ _ (by rw [i5]; exact hn),
          List.getD_append_right _ _ _ _ (le_refl _)]
        simp
      · have hi3 : i < ls.length := by omega
        rw [getD_set_ne _ _ _ _ _ (fun h => hi2 h.symm), i7 i (by omega), hmin,
          List.getD_append _ _ _ _ hi3]
        simp
    · -- the store is full
      have hM : MAX_HISTORY = 16 := rfl
      have hfull : s.historyBufferArray.lastCommandIndex = MAX_HISTORY := by rw [i6]; omega
      have hmin : min ls.length MAX_HISTORY = MAX_HISTORY := by omega
      have hmin' : min (ls ++ [t]).length MAX_HISTORY = MAX_HISTORY := by
        simp only [List.length_append, List.length_singleton]; omega
      rw [record_shift _ t rest hnul ht2 ht3 hfull, hmin']
      dsimp only
      refine ⟨by rw [List.length_set, length_shiftLoop]; exact i5, hfull, ?_⟩
      intro i hi
      have hlen16 : MAX_HISTORY ≤ ls.length := by omega
      have hlen' : (ls ++ [t]).length = ls.length + 1 := by simp
      by_cases hi2 : i = 15
      · subst hi2
        rw [getD_set_same _ _ _ _ (by rw [length_shiftLoop, i5]; decide)]
        have e0 : (ls ++ [t]).length - MAX_HISTORY + 15 = ls.length := by omega
        rw [e0, List.getD_append_right _ _ _ _ (le_refl _)]
        simp
      · have hi3 : i < 15 := by omega
        have e0 : (ls ++ [t]).length - MAX_HISTORY + i
            = ls.length - MAX_HISTORY + (i + 1) := by omega
        have hidx : ls.length - MAX_HISTORY + (i + 1) < ls.length := by omega
        rw [getD_set_ne _ _ _ _ _ (fun h => hi2 h.symm),
          getD_shiftLoop 15 1 _ i (by omega) (by rw [i5]; decide),
          if_pos (by omega), i7 (i + 1) (by omega), hmin, e0,
          List.getD_append _ _ _ _ hidx]
        have hcl := getD_commandLine ls hls' _ hidx
        exact strncpy_pad _ (ordinary_ne_zero _ hcl.1) hcl.2.1

theorem toUint_ofNat (i : Nat) (h : i < UINT) : toUint (i : Int) = i := by
  unfold toUint; simp only [UINT] at h; omega

/-- Below `2^31`: after `16 + m` command lines have been submitted from an
empty history, each read out before the next, `sys_history` with index `i < 16`
returns 0 and copies out the text of line `m + i`, padded with NULs to 128
bytes. -/
theorem lookup_after_session (k : Kernel) (d : Dev) (ls : List (List Nat)) (m i : Nat)
    (hbuf : k.cons.buf.length = INPUT_BUF_SIZE)
    (hrows : k.historyBufferArray.bufferArr.length = MAX_HISTORY)
    (hr : k.cons.r = k.cons.e) (hw : k.cons.w = k.cons.e)
    (h0 : k.historyBufferArray.lastCommandIndex = 0)
    (hls : ∀ t, t ∈ ls → CommandLine t) (htot : k.cons.e + typedBytes ls < HALF)
    (hlen : ls.length = MAX_HISTORY + m) (hi : i < MAX_HISTORY) :
    sys_history (session d k ls) (i : Int) = (0, some (pad (ls.getD (m + i) []))) := by
  have hM : MAX_HISTORY = 16 := rfl
  obtain ⟨_, _, _, _, _, i6, i7⟩ := session_inv d k hbuf hrows hr hw h0 ls hls htot
  have hmin : min ls.length MAX_HISTORY = MAX_HISTORY := by omega
  rw [hmin] at i6 i7
  have hrow := i7 i hi
  have e0 : ls.length - MAX_HISTORY + i = m + i := by omega
  rw [e0] at hrow
  have hu : toUint (i : Int) = i := toUint_ofNat i (by simp only [UINT]; omega)
  have hck : checkIndex (session d k ls) (i : Int) = 1 := by
    unfold checkIndex
    rw [hu, i6, if_neg (by omega)]
  unfold sys_history
  rw [hck, if_neg (by decide), Int.toNat_ofNat, hrow]

/-! ## Backspace and unrecognised escape sequences -/

/-- C14. Backspace at the commit point is a no-op: with `e == w`, `consoleintr`
with `^H` (8) or DEL (127) leaves the whole state, output included, as it was;
with `e != w` it decrements `e` by one, sends the one erase sequence
backspace, space, backspace, and changes nothing else. -/
theorem C14_backspace (k : Kernel) (d : Dev) (c : Int) (hc : c = 8 ∨ c = 127) :
    (k.cons.e = k.cons.w → consoleintr k c d = k) ∧
    (k.cons.e ≠ k.cons.w →
      consoleintr k c d =
        { k with
          cons := { k.cons with e := udec k.cons.e }
          uart := k.uart ++ [8, 32, 8] }) := by
  constructor
  · intro h
    rcases hc with rfl | rfl <;> simp [consoleintr, h]
  · intro h
    rcases hc with rfl | rfl <;> simp [consoleintr, h, consputc]

/-- Witness of C14: backspace on the initial console, and after `ls`. -/
theorem C14_backspace_witness :
    consoleintr init 8 quiet = init ∧
    consoleintr (feed quiet init (keys [108, 115])) 127 quiet =
      { feed quiet init (keys [108, 115]) with
        cons := { (feed quiet init (keys [108, 115])).cons with
                  e := udec (feed quiet init (keys [108, 115])).cons.e }
        uart := (feed quiet init (keys [108, 115])).uart ++ [8, 32, 8] } :=
  ⟨(C14_backspace init quiet 8 (Or.inl rfl)).1 (by decide!),
    (C14_backspace (feed quiet init (keys [108, 115])) quiet 127 (Or.inr rfl)).2 (by decide!)⟩

/-- C17. Unrecognised escape sequences have no effect: `consoleintr` with ESC,
when the first byte the device returns is not `[`, or the second is neither
`A` nor `B` (a device with no byte returns `-1`), leaves the whole state as it
was: indices, buffer, history slots, cursor and output. -/
theorem C17_unrecognised_escape (k : Kernel) (d : Dev)
    (h : d.g1 ≠ 91 ∨ (d.g2 ≠ 65 ∧ d.g2 ≠ 66)) : consoleintr k 27 d = k := by
  rcases h with h | ⟨h1, h2⟩
  · simp [consoleintr, h]
  · simp [consoleintr, h1, h2]

/-- Witness of C17: ESC followed by `[` and `C` on the console holding `ls`. -/
theorem C17_unrecognised_escape_witness :
    consoleintr (feed quiet init (keys [108, 115])) 27
        { g1 := 91, g2 := 67, stack := fun _ => 0, below := fun _ => 0 }
      = feed quiet init (keys [108, 115]) :=
  C17_unrecognised_escape _ { g1 := 91, g2 := 67, stack := fun _ => 0, below := fun _ => 0 }
    (Or.inr ⟨by decide, by decide⟩)

/-! ## A cancelled read -/

theorem readLoop_step (target : Nat) (killed : Bool) (copyout : Nat → Bool) (n : Nat)
    (k : Kernel) (dst : List Nat) (h1 : k.cons.r ≠ k.cons.w)
    (h2 : rd k.cons.buf (k.cons.r % INPUT_BUF_SIZE) ≠ 4)
    (h3 : copyout dst.length = true)
    (h4 : rd k.cons.buf (k.cons.r % INPUT_BUF_SIZE) ≠ 10) :
    readLoop target killed copyout (n + 1) k dst =
      readLoop target killed copyout n
        { k with cons := { k.cons with r := uinc k.cons.r } }
        (dst ++ [rd k.cons.buf (k.cons.r % INPUT_BUF_SIZE)]) := by
  rw [readLoop]
  simp [h1, h2, h3, h4]

/-- A run of the read loop that returns `-1` was cancelled while it had to
wait: it has copied out the bytes from `r` up to `w` and has changed nothing
but `r`, which it has advanced to `w`. -/
theorem readLoop_killed (target : Nat) (killed : Bool) (copyout : Nat → Bool) (n : Nat) :
    ∀ (k : Kernel) (dst : List Nat), k.cons.r < UINT →
      (readLoop target killed copyout n k dst).ret = some (-1) →
      ∃ m, (readLoop target killed copyout n k dst).dst
            = dst ++ window k.cons.buf k.cons.r m ∧
        (readLoop target killed copyout n k dst).k
          = { k with cons := { k.cons with r := (k.cons.r + m) % UINT } } ∧
        (k.cons.r + m) % UINT = k.cons.w := by
  induction n with
  | zero =>
    intro k dst _ h
    simp [readLoop] at h
  | succ n ih =>
    intro k dst hr h
    by_cases h1 : k.cons.r = k.cons.w
    · cases killed with
      | false => simp [readLoop, h1] at h
      | true =>
        refine ⟨0, ?_, ?_, ?_⟩
        · simp [readLoop, h1, window]
        · have e0 : (k.cons.r + 0) % UINT = k.cons.w := by
            rw [Nat.add_zero, Nat.mod_eq_of_lt hr, h1]
          rw [e0]
          simp [readLoop, h1]
          cases k with
          | mk cons hist uart pd =>
            cases cons with
            | mk buf r w e =>
              simp at h1
              simp [h1]
        · rw [Nat.add_zero, Nat.mod_eq_of_lt hr, h1]
    · by_cases h2 : rd k.cons.buf (k.cons.r % INPUT_BUF_SIZE) = 4
      · rw [readLoop] at h
        simp only [h1, h2, if_true, if_false] at h
        split_ifs at h <;> simp at h
      by_cases h3 : copyout dst.length = true
      · by_cases h4 : rd k.cons.buf (k.cons.r % INPUT_BUF_SIZE) = 10
        · rw [readLoop] at h
          simp [h1, h3, h4] at h
        · rw [readLoop_step target killed copyout n k dst h1 h2 h3 h4] at h ⊢
          have hu : uinc k.cons.r < UINT := by simp only [uinc_eq, UINT]; omega
          obtain ⟨m, a1, a2, a3⟩ := ih _ _ hu h
          have e1 : (uinc k.cons.r + m) % UINT = (k.cons.r + (m + 1)) % UINT := by
            simp only [uinc_eq, UINT]; omega
          refine ⟨m + 1, ?_, ?_, ?_⟩
          · rw [a1]; simp [window]
          · rw [a2]; simp only [e1]
          · rw [← e1]; exact a3
      · rw [readLoop] at h
        simp [h1, h2, h3] at h

theorem readLoop_wait_at_once (target : Nat) (killed : Bool) (copyout : Nat → Bool) (n : Nat)
    (k : Kernel) (dst : List Nat) (h : k.cons.r = k.cons.w) :
    (readLoop target killed copyout n k dst).k = k := by
  cases n with
  | zero => rfl
  | succ n => cases killed <;> simp [readLoop, h]

/-- C12 (amended). A `consoleread` that returns `-1` (the caller was marked
killed when the read had to wait) leaves `w`, `e`, the buffer, the history
store and the output as they were, and has advanced `r` to `w`, past exactly
the committed bytes it had already copied out; when the read has to wait at
once (`r == w` at entry) the whole state is as before the call. -/
theorem C12_cancelled_read (k : Kernel) (killed : Bool) (copyout : Nat → Bool) (n : Int)
    (hr : k.cons.r < UINT) (h : (consoleread k killed copyout n).ret = some (-1)) :
    (k.cons.r = k.cons.w → (consoleread k killed copyout n).k = k) ∧
    ∃ m, (consoleread k killed copyout n).dst = window k.cons.buf k.cons.r m ∧
      (consoleread k killed copyout n).k
        = { k with cons := { k.cons with r := (k.cons.r + m) % UINT } } ∧
      (k.cons.r + m) % UINT = k.cons.w := by
  constructor
  · intro h0
    exact readLoop_wait_at_once _ _ _ _ _ _ h0
  · obtain ⟨m, a1, a2, a3⟩ := readLoop_killed n.toNat killed copyout n.toNat k [] hr h
    exact ⟨m, by rw [consoleread, a1]; rfl, a2, a3⟩

/-- Counterexample to C12 as stated: after 128 bytes `a` (a line committed by
buffer-full), a `consoleread` of 200 bytes by a killed caller copies out the
128 bytes, then has to wait and returns `-1`, with `r` moved from 0 to 128. -/
theorem C12_counterexample :
    (feed quiet init (keys (List.replicate 128 97))).cons.r = 0 ∧
    (feed quiet init (keys (List.replicate 128 97))).cons.w = 128 ∧
    (consoleread (feed quiet init (keys (List.replicate 128 97))) true (fun _ => true) 200).ret
      = some (-1) ∧
    (consoleread (feed quiet init (keys (List.replicate 128 97))) true
      (fun _ => true) 200).k.cons.r = 128 := by
  decide!

/-- Witness of C12 (amended): the cancelled read of the counterexample. -/
theorem C12_cancelled_read_witness :
    ∃ m, (consoleread (feed quiet init (keys (List.replicate 128 97))) true
          (fun _ => true) 200).dst
        = window (feed quiet init (keys (List.replicate 128 97))).cons.buf
            (feed quiet init (keys (List.replicate 128 97))).cons.r m ∧
      (consoleread (feed quiet init (keys (List.replicate 128 97))) true (fun _ => true) 200).k
        = { feed quiet init (keys (List.replicate 128 97)) with
            cons := { (feed quiet init (keys (List.replicate 128 97))).cons with
                      r := ((feed quiet init (keys (List.replicate 128 97))).cons.r + m)
                             % UINT } } ∧
      ((feed quiet init (keys (List.replicate 128 97))).cons.r + m) % UINT
        = (feed quiet init (keys (List.replicate 128 97))).cons.w :=
  (C12_cancelled_read (feed quiet init (keys (List.replicate 128 97))) true (fun _ => true) 200
    (by decide!) (by decide!)).2

/-! ## Overflow of the ring -/

theorem keys_append (a b : List Nat) : keys (a ++ b) = keys a ++ keys b := by
  simp [keys]

/-- A byte of the `default:` case that arrives when the ring is full is
dropped: nothing changes. -/
theorem consoleintr_dropped (k : Kernel) (d : Dev) (b : Nat) (hb : Ordinary b ∨ b = 10)
    (hfull : ¬ usub k.cons.e k.cons.r < INPUT_BUF_SIZE) : consoleintr k (b : Int) d = k := by
  have h16 : ¬ ((b : Int) = 16) := by
    rcases hb with h | h
    · have := h.2.2.2.2.1; omega
    · omega
  have h21 : ¬ ((b : Int) = 21) := by
    rcases hb with h | h
    · have := h.2.2.2.2.2.1; omega
    · omega
  have h8 : ¬ ((b : Int) = 8 ∨ (b : Int) = 127) := by
    rcases hb with h | h
    · have := h.2.2.2.1; have := h.2.2.2.2.2.2.2.1; omega
    · omega
  have h27 : ¬ ((b : Int) = 27) := by
    rcases hb with h | h
    · have := h.2.2.2.2.2.2.1; omega
    · omega
  simp only [consoleintr, consoleintrDefault, h16, h21, h8, h27, if_false]
  rw [if_neg (fun h => hfull h.2)]

theorem feed_dropped (d : Dev) (later : List Nat) :
    ∀ (k : Kernel), (∀ b, b ∈ later → Ordinary b ∨ b = 10) →
      ¬ usub k.cons.e k.cons.r < INPUT_BUF_SIZE → feed d k (keys later) = k := by
  induction later with
  | nil => intro k _ _; rfl
  | cons b later ih =>
    intro k hl hfull
    have hstep := consoleintr_dropped k d b (hl b (by simp)) hfull
    have hk : feed d k (keys (b :: later)) = feed d (consoleintr k (b : Int) d) (keys later) := rfl
    rw [hk, hstep]
    exact ih k (fun x hx => hl x (by simp [hx])) hfull

/-- The console after 128 ordinary bytes have been typed into an empty, fully
read ring: the 128th byte commits them. -/
theorem feed_fill (d : Dev) (k : Kernel) (a : List Nat) (b : Nat)
    (hr : k.cons.r < UINT) (hw : k.cons.w = k.cons.r) (he : k.cons.e = k.cons.r)
    (ha : ∀ x, x ∈ a → Ordinary x) (hlen : a.length = 127) (hb : Ordinary b) :
    (feed d k (keys a)).cons.w = k.cons.r ∧
    (feed d k (keys (a ++ [b]))).cons =
      { buf := wrs k.cons.buf k.cons.r (a ++ [b])
        r := k.cons.r
        w := (k.cons.r + 128) % UINT
        e := (k.cons.r + 128) % UINT } := by
  have he' : k.cons.e < UINT := by rw [he]; exact hr
  have hroom : usub k.cons.e k.cons.r + a.length < INPUT_BUF_SIZE := by
    rw [he, hlen]; simp only [usub_eq, UINT, INPUT_BUF_SIZE] at *; omega
  have h1 := feed_ordinary d a k ha he' hr hroom
  constructor
  · rw [h1]; exact hw
  · rw [keys_append, feed_append, h1]
    show (consoleintr _ (b : Int) d).cons = _
    have hc : (b : Int) ≠ 0 ∧ (b : Int) ≠ 16 ∧ (b : Int) ≠ 21 ∧ (b : Int) ≠ 8 ∧ (b : Int) ≠ 127
        ∧ (b : Int) ≠ 27 := by
      obtain ⟨h0, _, _, h8, h16, h21, h27, h127, _, _⟩ := hb
      omega
    have h13 : ¬ ((b : Int) = 13) := by have := hb.2.2.2.2.2.2.2.2.1; omega
    rw [consoleintr_default_commit _ d (b : Int) hc
      (by show usub ((k.cons.e + a.length) % UINT) k.cons.r < INPUT_BUF_SIZE
          rw [he, hlen]; simp only [usub_eq, UINT, INPUT_BUF_SIZE] at *; omega)
      (by right; right; right
          show usub (uinc ((k.cons.e + a.length) % UINT)) k.cons.r = INPUT_BUF_SIZE
          rw [he, hlen]; simp only [usub_eq, uinc_eq, UINT, INPUT_BUF_SIZE] at *; omega)]
    have e1 : uinc ((k.cons.e + a.length) % UINT) = (k.cons.r + 128) % UINT := by
      rw [he, hlen]; simp only [uinc_eq, UINT]; omega
    simp only [if_neg h13, toByte_ofNat b hb.2.1, e1]
    rw [wrs_append _ _ _ _ hr, ← he]
    rfl

theorem readLoop_wait_dst (target : Nat) (killed : Bool) (copyout : Nat → Bool) (n : Nat)
    (k : Kernel) (dst : List Nat) (h : k.cons.r = k.cons.w) :
    (readLoop target killed copyout n k dst).dst = dst := by
  cases n with
  | zero => rfl
  | succ n => cases killed <;> simp [readLoop, h]

theorem take_split (a : List Nat) (b : Nat) (rest : List Nat) (n : Nat) (h : a.length = n) :
    (a ++ b :: rest).take n = a ∧ (a ++ b :: rest).take (n + 1) = a ++ [b] := by
  subst h
  constructor
  · simp
  · simp [List.take_append_eq_append_take]

/-- C13. Overflow is lossy but consistent. From a console with `r = w = e`,
with no read in between, when more than 128 ordinary bytes `s` are fed to
`consoleintr`: nothing is committed by the first 127; the 128th commits the
first 128 bytes as one line (`w = e = r + 128`); every later byte, ordinary or
newline, leaves the whole state unchanged; and a following `consoleread` of
`n ≥ 128` bytes whose copy-outs succeed delivers exactly the first 128 bytes
in order and leaves `r = w` (with `n = 128` it returns 128). -/
theorem C13_overflow (k : Kernel) (d : Dev) (s later : List Nat) (killed : Bool)
    (copyout : Nat → Bool) (n : Int)
    (hbuf : k.cons.buf.length = INPUT_BUF_SIZE) (hr : k.cons.r < UINT)
    (hw : k.cons.w = k.cons.r) (he : k.cons.e = k.cons.r)
    (hs : ∀ b, b ∈ s → Ordinary b) (hm : 128 < s.length)
    (hlater : ∀ b, b ∈ later → Ordinary b ∨ b = 10)
    (hn : 128 ≤ n) (hc : ∀ i, copyout i = true) :
    (feed d k (keys (s.take 127))).cons.w = k.cons.r ∧
    (feed d k (keys (s.take 128))).cons =
      { buf := wrs k.cons.buf k.cons.r (s.take 128)
        r := k.cons.r
        w := (k.cons.r + 128) % UINT
        e := (k.cons.r + 128) % UINT } ∧
    feed d k (keys (s ++ later)) = feed d k (keys (s.take 128)) ∧
    (consoleread (feed d k (keys (s ++ later))) killed copyout n).dst = s.take 128 ∧
    (consoleread (feed d k (keys (s ++ later))) killed copyout n).k.cons.r
      = (k.cons.r + 128) % UINT ∧
    (n = 128 → (consoleread (feed d k (keys (s ++ later))) killed copyout n).ret = some 128) := by
  -- split `s` at its 128th byte
  have hsplit : s = s.take 127 ++ s.drop 127 := (List.take_append_drop 127 s).symm
  have hlen127 : (s.take 127).length = 127 := by rw [List.length_take]; omega
  obtain ⟨b, rest, hdrop⟩ : ∃ b rest, s.drop 127 = b :: rest := by
    cases hd : s.drop 127 with
    | nil =>
      have := congrArg List.length hd
      rw [List.length_drop] at this
      simp at this; omega
    | cons b rest => exact ⟨b, rest, rfl⟩
  generalize ha : s.take 127 = a at hsplit hlen127
  rw [hdrop] at hsplit
  have hao : ∀ x, x ∈ a → Ordinary x := fun x hx => hs x (by rw [hsplit]; simp [hx])
  have hbo : Ordinary b := hs b (by rw [hsplit]; simp)
  have hresto : ∀ x, x ∈ rest ++ later → Ordinary x ∨ x = 10 := by
    intro x hx
    rcases List.mem_append.1 hx with h | h
    · exact Or.inl (hs x (by rw [hsplit]; simp [h]))
    · exact hlater x h
  obtain ⟨t1, t2⟩ := take_split a b rest 127 hlen127
  have ht128 : s.take 128 = a ++ [b] := by rw [hsplit]; exact t2
  obtain ⟨f1, f2⟩ := feed_fill d k a b hr hw he hao hlen127 hbo
  rw [ht128]
  have hall : s ++ later = (a ++ [b]) ++ (rest ++ later) := by rw [hsplit]; simp
  have hk2full : ¬ usub (feed d k (keys (a ++ [b]))).cons.e (feed d k (keys (a ++ [b]))).cons.r
      < INPUT_BUF_SIZE := by
    rw [f2]
    show ¬ usub ((k.cons.r + 128) % UINT) k.cons.r < INPUT_BUF_SIZE
    simp only [usub_eq, UINT, INPUT_BUF_SIZE] at *; omega
  have hfeed : feed d k (keys (s ++ later)) = feed d k (keys (a ++ [b])) := by
    rw [hall, keys_append, feed_append]
    exact feed_dropped d (rest ++ later) _ hresto hk2full
  rw [hfeed]
  generalize feed d k (keys (a ++ [b])) = k2 at f2 hk2full ⊢
  have hb2 : k2.cons.buf = wrs k.cons.buf k.cons.r (a ++ [b]) := by rw [f2]
  have hr2 : k2.cons.r = k.cons.r := by rw [f2]
  have hw2 : k2.cons.w = (k.cons.r + 128) % UINT := by rw [f2]
  have hlen128 : (a ++ [b]).length = 128 := by simp [hlen127]
  have hrd : ∀ j, j < 128 →
      rd k2.cons.buf ((k2.cons.r + j) % UINT % INPUT_BUF_SIZE) = (a ++ [b]).getD j 0 := by
    intro j hj
    rw [hb2, hr2]
    exact rd_wrs_in (a ++ [b]) k.cons.buf k.cons.r j hr hbuf (by rw [hlen128]; decide)
      (by rw [hlen128]; exact hj)
  have habo : ∀ x, x ∈ a ++ [b] → Ordinary x := by
    intro x hx
    rcases List.mem_append.1 hx with h | h
    · exact hao x h
    · simp at h; rw [h]; exact hbo
  obtain ⟨n', hn'⟩ : ∃ n', n.toNat = n' + 128 := ⟨n.toNat - 128, by omega⟩
  have hrun := readLoop_run n.toNat killed copyout hc 128 n' k2 [] (by rw [hr2]; exact hr)
    (by intro j hj; rw [hr2, hw2]; simp only [UINT] at *; omega)
    (by intro j hj; rw [hrd j hj]
        exact (getD_ordinary _ habo j (by rw [hlen128]; exact hj)).2.2.1)
    (by intro j hj; rw [hrd j hj]
        exact (getD_ordinary _ habo j (by rw [hlen128]; exact hj)).2.2.2.2.2.2.2.2.2)
  have hwin : window k2.cons.buf k2.cons.r 128 = a ++ [b] := by
    rw [hb2, hr2]
    have := window_wrs (a ++ [b]) k.cons.buf k.cons.r hr hbuf (by rw [hlen128]; decide)
    rw [hlen128] at this
    exact this
  have hcr : consoleread k2 killed copyout n
      = readLoop n.toNat killed copyout n'
          { k2 with cons := { k2.cons with r := (k2.cons.r + 128) % UINT } } (a ++ [b]) := by
    rw [consoleread]
    rw [show n.toNat = n' + 128 from hn'] at hrun ⊢
    rw [hrun, hwin]
    rfl
  generalize hk3 : ({ k2 with cons := { k2.cons with r := (k2.cons.r + 128) % UINT } } : Kernel)
    = k3 at hcr
  have hr3 : k3.cons.r = (k.cons.r + 128) % UINT := by rw [← hk3, ← hr2]
  have hw3 : k3.cons.w = (k.cons.r + 128) % UINT := by rw [← hk3, ← hw2]
  have heq3 : k3.cons.r = k3.cons.w := by rw [hr3, hw3]
  refine ⟨by rw [← ha] at f1 ⊢; exact f1, f2, rfl, ?_, ?_, ?_⟩
  · rw [hcr, readLoop_wait_dst _ _ _ _ _ _ heq3]
  · rw [hcr, readLoop_wait_at_once _ _ _ _ _ _ heq3, hr3]
  · intro h128
    have hn0 : n' = 0 := by omega
    rw [hcr, hn0]
    show some ((n.toNat - 0 : Nat) : Int) = some 128
    rw [h128]; rfl

/-- Witness of C13: 129 bytes `a` and a newline typed into the initial
console, then `read(128)`. -/
theorem C13_overflow_witness :
    feed quiet init (keys (List.replicate 129 97 ++ [10]))
      = feed quiet init (keys ((List.replicate 129 97).take 128)) ∧
    (consoleread (feed quiet init (keys (List.replicate 129 97 ++ [10]))) false
      (fun _ => true) 128).dst = (List.replicate 129 97).take 128 ∧
    (consoleread (feed quiet init (keys (List.replicate 129 97 ++ [10]))) false
      (fun _ => true) 128).ret = some 128 :=
  have h := C13_overflow init quiet (List.replicate 129 97) [10] false (fun _ => true) 128
    (by simp [init, INPUT_BUF_SIZE]) (by decide) (by decide) (by decide)
    (fun b hb => by rw [List.eq_of_mem_replicate hb]; decide) (by simp)
    (by decide) (by decide) (fun _ => rfl)
  ⟨h.2.2.1, h.2.2.2.1, h.2.2.2.2.2 rfl⟩

/-- C18 fails on the code: with the two lines `x` and 125 times `a` committed
and not yet read (`r = 0`, `w = 128`), history-up splices the stored 125 bytes
from index 128 on, that is over ring cells 0 .. 124, without the capacity
check of the `default:` case: `r` and `w` are unchanged, but the first unread
committed byte was `x` and is `a` afterwards, so the committed bytes before the
step are not a prefix of those after it. -/
theorem C18_history_up_overwrites_unread_bytes :
    Reachable (feed quiet init twoLines) ∧
    (feed quiet init twoLines).cons.r = 0 ∧
    (feed quiet init twoLines).cons.w = 128 ∧
    (consoleintr (feed quiet init twoLines) 27 arrowUp).cons.r = 0 ∧
    (consoleintr (feed quiet init twoLines) 27 arrowUp).cons.w = 128 ∧
    (committed (feed quiet init twoLines)).take 2 = [120, 10] ∧
    (committed (consoleintr (feed quiet init twoLines) 27 arrowUp)).take 2 = [97, 97] ∧
    ¬ (committed (feed quiet init twoLines)
        <+: committed (consoleintr (feed quiet init twoLines) 27 arrowUp)) := by
  have h1 : (committed (feed quiet init twoLines)).take 2 = [120, 10] := by decide!
  have h2 : (committed (consoleintr (feed quiet init twoLines) 27 arrowUp)).take 2
      = [97, 97] := by decide!
  refine ⟨reachable_feed _ _ _ Reachable.start, by decide!, by decide!, by decide!, by decide!,
    h1, h2, ?_⟩
  intro hp
  have := List.IsPrefix.take hp 2
  rw [h1, h2] at this
  have hl := List.IsPrefix.eq_of_length this (by simp)
  simp at hl

/-! ## Shape of the history slots -/

theorem strlen_eq_cstr (l : List Nat) : strlen l = (cstr l).length := by
  induction l with
  | nil => rfl
  | cons c t ih =>
    by_cases hc : c = 0
    · simp [strlen, cstr, hc]
    · have : cstr (c :: t) = c :: cstr t := by
        unfold cstr; exact List.takeWhile_cons_of_pos (by simpa using hc)
      simp [strlen, hc, this, ih]

theorem strlen_le_of_nul (l : List Nat) : ∀ (j : Nat), j < l.length → rd l j = 0 →
    strlen l ≤ j := by
  induction l with
  | nil => intro j hj _; simp at hj
  | cons c t ih =>
    intro j hj h0
    by_cases hc : c = 0
    · simp [strlen, hc]
    · cases j with
      | zero => simp [rd] at h0; exact absurd h0 hc
      | succ j =>
        have := ih j (by simpa using hj) (by simpa [rd] using h0)
        simp [strlen, hc]; omega

theorem cstr_ne_zero (l : List Nat) : ∀ b, b ∈ cstr l → b ≠ 0 := by
  intro b hb
  have := List.mem_takeWhile_imp hb
  simpa using this

theorem strncpy_cstr (cmd : List Nat) : ∀ (n : Nat), (cstr cmd).length ≤ n →
    strncpy cmd n = cstr cmd ++ List.replicate (n - (cstr cmd).length) 0 := by
  induction cmd with
  | nil => intro n _; rw [strncpy_nil]; simp [cstr]
  | cons c t ih =>
    intro n hn
    by_cases hc : c = 0
    · subst hc
      cases n with
      | zero => simp [strncpy, cstr]
      | succ m => simp [strncpy, cstr]
    · have e1 : cstr (c :: t) = c :: cstr t := by
        unfold cstr; exact List.takeWhile_cons_of_pos (by simpa using hc)
      rw [e1] at hn ⊢
      cases n with
      | zero => simp at hn
      | succ m =>
        have := ih m (by simpa using hn)
        simp [strncpy, hc, this]

theorem cstr_append_zeros (t : List Nat) (ht : ∀ b, b ∈ t → b ≠ 0) (j : Nat) (hj : 1 ≤ j) :
    cstr (t ++ List.replicate j 0) = t := by
  induction t with
  | nil =>
    obtain ⟨m, rfl⟩ : ∃ m, j = m + 1 := ⟨j - 1, by omega⟩
    simp [cstr, List.replicate_succ]
  | cons b t ih =>
    have hb : b ≠ 0 := ht b (by simp)
    have := ih (fun x hx => ht x (by simp [hx]))
    unfold cstr at *
    rw [List.cons_append, List.takeWhile_cons_of_pos (by simpa using hb), this]

/-- The string routine `strncpy(dst, src, 128)` leaves a well-shaped slot when
the source holds a NUL within its first 128 bytes (or ends before). -/
theorem rowOK_strncpy (cmd : List Nat) (h : (cstr cmd).length < INPUT_BUF_SIZE) :
    RowOK (strncpy cmd INPUT_BUF_SIZE) ∧ cstr (strncpy cmd INPUT_BUF_SIZE) = cstr cmd := by
  have h1 := strncpy_cstr cmd INPUT_BUF_SIZE (by omega)
  have h2 : cstr (strncpy cmd INPUT_BUF_SIZE) = cstr cmd := by
    rw [h1]; exact cstr_append_zeros _ (cstr_ne_zero cmd) _ (by omega)
  refine ⟨⟨?_, by rw [h2]; exact h⟩, h2⟩
  rw [h2]; exact h1

theorem rowOK_nil_strncpy : RowOK (strncpy [] INPUT_BUF_SIZE) :=
  (rowOK_strncpy [] (by simp [cstr, INPUT_BUF_SIZE])).1

theorem rowOK_length (row : List Nat) (h : RowOK row) : row.length = INPUT_BUF_SIZE := by
  obtain ⟨h1, h2⟩ := h
  rw [h1]; unfold pad; simp; omega

theorem rowOK_set (arr : List (List Nat)) (i : Nat) (v : List Nat)
    (h : ∀ row, row ∈ arr → RowOK row) (hv : RowOK v) :
    ∀ row, row ∈ arr.set i v → RowOK row := by
  intro row hrow
  rcases List.mem_or_eq_of_mem_set hrow with h1 | h1
  · exact h row h1
  · rw [h1]; exact hv

theorem rowOK_shiftLoop (cnt : Nat) : ∀ (i : Nat) (arr : List (List Nat)),
    (∀ row, row ∈ arr → RowOK row) → ∀ row, row ∈ shiftLoop cnt i arr → RowOK row := by
  induction cnt with
  | zero => intro i arr h; exact h
  | succ cnt ih =>
    intro i arr h
    rw [shiftLoop]
    apply ih
    apply rowOK_set _ _ _ h
    by_cases hi : i < arr.length
    · rw [List.getD_eq_getElem _ _ hi]
      exact (rowOK_strncpy _ (h _ (List.getElem_mem _)).2).1
    · rw [List.getD_eq_default _ _ (by omega)]
      exact rowOK_nil_strncpy

/-- The scratch array always holds a NUL among its 128 bytes. -/
theorem scratch_strlen (cons : Cons) (stack below : Nat → Nat) :
    strlen (scratch cons stack below) ≤ 127 := by
  have hlen : (copyLoop cons.buf below (usub cons.e 1 - cons.w) cons.w 0
      ((List.range INPUT_BUF_SIZE).map stack)).length = INPUT_BUF_SIZE := by
    simp [length_copyLoop]
  have hidx : usub (usub cons.e 1) cons.w % INPUT_BUF_SIZE < INPUT_BUF_SIZE :=
    Nat.mod_lt _ (by decide)
  have := strlen_le_of_nul (scratch cons stack below) (usub (usub cons.e 1) cons.w % INPUT_BUF_SIZE)
    (by simp only [scratch, length_wr, hlen]; exact hidx)
    (by simp only [scratch]; exact rd_wr_same _ _ _ (by rw [hlen]; exact hidx))
  simp only [INPUT_BUF_SIZE] at *
  omega

/-- What `consoleintr` can do to the history store, with the command it
records: at most move the cursor, or record the scratch array. -/
theorem consoleintr_hist_scratch (k : Kernel) (c : Int) (d : Dev) :
    ((consoleintr k c d).historyBufferArray.bufferArr = k.historyBufferArray.bufferArr ∧
      (consoleintr k c d).historyBufferArray.lengthsArr = k.historyBufferArray.lengthsArr ∧
      (consoleintr k c d).historyBufferArray.lastCommandIndex
        = k.historyBufferArray.lastCommandIndex) ∨
    (∃ cons, (consoleintr k c d).historyBufferArray
      = record k.historyBufferArray (scratch cons d.stack d.below)) := by
  unfold consoleintr
  split_ifs
  · exact Or.inl ⟨rfl, rfl, rfl⟩
  · left; simp only [killLoop_hist, and_self]
  · exact Or.inl ⟨rfl, rfl, rfl⟩
  · exact Or.inl ⟨rfl, rfl, rfl⟩
  · exact Or.inl (historyUp_hist k)
  · exact Or.inl (historyDown_hist k)
  · exact Or.inl ⟨rfl, rfl, rfl⟩
  · exact Or.inl ⟨rfl, rfl, rfl⟩
  · unfold consoleintrDefault
    by_cases hg : c ≠ 0 ∧ usub k.cons.e k.cons.r < INPUT_BUF_SIZE
    · rw [if_pos hg]
      simp only []
      split_ifs <;> first | exact Or.inr ⟨_, rfl⟩ | exact Or.inl ⟨rfl, rfl, rfl⟩
    · rw [if_neg hg]
      exact Or.inl ⟨rfl, rfl, rfl⟩

theorem rd_set_le (l : List Nat) (idx v : Nat) (hv : v ≤ 127) (h : ∀ i, rd l i ≤ 127) :
    ∀ i, rd (l.set idx v) i ≤ 127 := by
  intro i
  by_cases hi : idx = i
  · subst hi
    by_cases hl : idx < l.length
    · have := rd_wr_same l idx v hl
      unfold wr at this; rw [this]; exact hv
    · have : l.set idx v = l := List.set_eq_of_length_le (by omega)
      rw [this]; exact h idx
  · have := rd_wr_ne l idx i v hi
    unfold wr at this; rw [this]; exact h i

theorem hshape_record (h : HistoryBufferArray) (cmd : List Nat) (hh : HShape h)
    (hcmd : strlen cmd ≤ 127) : HShape (record h cmd) := by
  obtain ⟨h1, h2⟩ := hh
  have hc : (cstr cmd).length < INPUT_BUF_SIZE := by
    rw [← strlen_eq_cstr]; simp only [INPUT_BUF_SIZE]; omega
  unfold record
  by_cases hs : strncmp cmd historyLit 7 ≠ 0
  · rw [if_pos hs]
    by_cases hfull : h.lastCommandIndex = MAX_HISTORY
    · rw [if_pos hfull]
      refine ⟨?_, ?_⟩
      · exact rowOK_set _ _ _ (rowOK_shiftLoop _ _ _ h1) (rowOK_strncpy cmd hc).1
      · exact rd_set_le _ _ _ hcmd h2
    · rw [if_neg hfull]
      refine ⟨?_, ?_⟩
      · exact rowOK_set _ _ _ h1 (rowOK_strncpy cmd hc).1
      · exact rd_set_le _ _ _ hcmd h2
  · rw [if_neg hs]
    exact ⟨h1, h2⟩

theorem rd_replicate_zero (n i : Nat) : rd (List.replicate n 0) i = 0 := by
  unfold rd
  rw [List.getD_eq_getElem?_getD, List.getElem?_replicate]
  split_ifs <;> rfl

theorem hshape_init : HShape init.historyBufferArray := by
  refine ⟨?_, ?_⟩
  · intro row hrow
    have : row = List.replicate 128 0 := List.eq_of_mem_replicate hrow
    subst this
    have hc : cstr (List.replicate 128 0) = [] := cstr_replicate_zero 128
    refine ⟨?_, by rw [hc]; decide⟩
    rw [hc]; rfl
  · intro i
    show rd (List.replicate 16 0) i ≤ 127
    rw [rd_replicate_zero]; omega

theorem hshape_reachable (k : Kernel) (h : Reachable k) : HShape k.historyBufferArray := by
  induction h with
  | start => exact hshape_init
  | intr k c d _ ih =>
    rcases consoleintr_hist_scratch k c d with ⟨h1, h2, _⟩ | ⟨cons, h1⟩
    · unfold HShape; rw [h1, h2]; exact ih
    · rw [h1]; exact hshape_record _ _ ih (scratch_strlen cons d.stack d.below)
  | read k target n killed copyout dst _ ih =>
    rw [readLoop_hist]; exact ih

theorem toUint_nonneg (i : Int) (h0 : 0 ≤ i) (h1 : i < 2147483648) : toUint i = i.toNat := by
  unfold toUint; omega

theorem checkIndex_eq_zero (k : Kernel) (i : Int) (h1 : i < 2147483648) :
    checkIndex k i = 0 ↔ (i < 0 ∨ (k.historyBufferArray.lastCommandIndex : Int) ≤ i) := by
  unfold checkIndex
  by_cases hneg : i < 0
  · simp [hneg]
  · have hu := toUint_nonneg i (by omega) h1
    rw [hu]
    by_cases hge : i.toNat ≥ k.historyBufferArray.lastCommandIndex
    · have : (k.historyBufferArray.lastCommandIndex : Int) ≤ i := by omega
      simp [hge, this]
    · have : ¬ ((k.historyBufferArray.lastCommandIndex : Int) ≤ i) := by omega
      simp [hneg, hge, this]

/-- C11. History lookup validity. For an `int` index `i`, `sys_history` returns
`-1` if and only if `i < 0` or `i ≥ lastCommandIndex`; otherwise it returns 0
and hands slot `i` to `copyout`. In every reachable state the slot of a valid
index is 128 bytes: a text without NUL, of fewer than 128 bytes, followed only
by zero bytes. -/
theorem C11_history_lookup :
    (∀ (k : Kernel) (i : Int), -2147483648 ≤ i → i < 2147483648 →
      ((sys_history k i).1 = -1 ↔
        (i < 0 ∨ (k.historyBufferArray.lastCommandIndex : Int) ≤ i)) ∧
      (¬ (i < 0 ∨ (k.historyBufferArray.lastCommandIndex : Int) ≤ i) →
        sys_history k i = (0, some (k.historyBufferArray.bufferArr.getD i.toNat [])))) ∧
    (∀ (k : Kernel), Reachable k → ∀ (i : Nat), i < k.historyBufferArray.lastCommandIndex →
      ∃ text, (∀ b, b ∈ text → b ≠ 0) ∧ text.length < INPUT_BUF_SIZE ∧
        sys_history k (i : Int)
          = (0, some (text ++ List.replicate (INPUT_BUF_SIZE - text.length) 0))) := by
  have key : ∀ (k : Kernel) (i : Int), i < 2147483648 →
      ((sys_history k i).1 = -1 ↔
        (i < 0 ∨ (k.historyBufferArray.lastCommandIndex : Int) ≤ i)) ∧
      (¬ (i < 0 ∨ (k.historyBufferArray.lastCommandIndex : Int) ≤ i) →
        sys_history k i = (0, some (k.historyBufferArray.bufferArr.getD i.toNat []))) := by
    intro k i h1
    have hc := checkIndex_eq_zero k i h1
    unfold sys_history
    by_cases h0 : checkIndex k i = 0
    · rw [if_pos h0]
      exact ⟨⟨fun _ => hc.1 h0, fun _ => rfl⟩, fun hn => absurd (hc.1 h0) hn⟩
    · rw [if_neg h0]
      refine ⟨⟨fun h => by simp at h, fun h => absurd (hc.2 h) h0⟩, fun _ => rfl⟩
  constructor
  · intro k i _ h1
    exact key k i h1
  · intro k hk i hi
    obtain ⟨h1, h2, _⟩ := hinv_reachable k hk
    obtain ⟨h3, _⟩ := hshape_reachable k hk
    have hlt : i < k.historyBufferArray.bufferArr.length := by rw [h1]; omega
    have hrow : RowOK (k.historyBufferArray.bufferArr.getD i []) := by
      rw [List.getD_eq_getElem _ _ hlt]
      exact h3 _ (List.getElem_mem _)
    have hM : MAX_HISTORY = 16 := rfl
    refine ⟨cstr (k.historyBufferArray.bufferArr.getD i []), cstr_ne_zero _, hrow.2, ?_⟩
    rw [(key k (i : Int) (by omega)).2 (by omega), Int.toNat_ofNat]
    have := hrow.1
    unfold pad at this
    rw [← this]

/-- Witness of C11: lookups with index `-1` and 0 after the line `ls`. -/
theorem C11_history_lookup_witness :
    ((sys_history (feed quiet init (keys [108, 115] ++ [10])) (-1)).1 = -1 ↔
      ((-1 : Int) < 0 ∨
        ((feed quiet init (keys [108, 115] ++ [10])).historyBufferArray.lastCommandIndex : Int)
          ≤ -1)) ∧
    (∃ text, (∀ b, b ∈ text → b ≠ 0) ∧ text.length < INPUT_BUF_SIZE ∧
      sys_history (feed quiet init (keys [108, 115] ++ [10])) ((0 : Nat) : Int)
        = (0, some (text ++ List.replicate (INPUT_BUF_SIZE - text.length) 0))) :=
  ⟨(C11_history_lookup.1 (feed quiet init (keys [108, 115] ++ [10])) (-1)
      (by decide) (by decide)).1,
    C11_history_lookup.2 (feed quiet init (keys [108, 115] ++ [10]))
      (reachable_feed _ _ _ Reachable.start) 0 (by decide!)⟩

/-! ## The three indices in reachable states -/

theorem killLoop_idx (fuel : Nat) : ∀ (k : Kernel), IdxInv k.cons →
    IdxInv (killLoop fuel k).cons ∧ (killLoop fuel k).cons.r = k.cons.r ∧
      (killLoop fuel k).cons.w = k.cons.w ∧ (killLoop fuel k).cons.buf = k.cons.buf := by
  induction fuel with
  | zero => intro k h; exact ⟨h, rfl, rfl, rfl⟩
  | succ fuel ih =>
    intro k h
    rw [killLoop]
    split_ifs with hc
    · have hstep : IdxInv ({ k with
          cons := { k.cons with e := udec k.cons.e }
          uart := consputc k.uart BACKSPACE } : Kernel).cons := by
        obtain ⟨h1, h2, h3, h4, h5⟩ := h
        have hne := hc.1
        refine ⟨h1, h2, ?_, h4, ?_⟩
        · show udec k.cons.e < UINT
          simp only [udec_eq, UINT]; omega
        · show usub (udec k.cons.e) k.cons.w ≤ 127
          simp only [usub_eq, udec_eq, UINT] at *; omega
      obtain ⟨a1, a2, a3, a4⟩ := ih _ hstep
      exact ⟨a1, a2, a3, a4⟩
    · exact ⟨h, rfl, rfl, rfl⟩

/-- The ring after the splice loop: the bytes of the slot have been stored
from `e` on. -/
theorem spliceLoop_cons (slot : List Nat) (cnt : Nat) : ∀ (i : Nat) (k : Kernel),
    k.cons.e < UINT →
    (spliceLoop slot cnt i k).cons =
      { k.cons with
        buf := wrs k.cons.buf k.cons.e (slotBytes slot cnt i)
        e := (k.cons.e + cnt) % UINT } := by
  induction cnt with
  | zero =>
    intro i k he
    simp [spliceLoop, slotBytes, wrs, Nat.mod_eq_of_lt he]
  | succ cnt ih =>
    intro i k he
    have hu : uinc k.cons.e < UINT := by simp only [uinc_eq, UINT]; omega
    have e1 : (uinc k.cons.e + cnt) % UINT = (k.cons.e + (cnt + 1)) % UINT := by
      simp only [uinc_eq, UINT]; omega
    rw [spliceLoop, ih _ _ hu]
    simp only [slotBytes, wrs, e1]

theorem replaceHistoryCommand_cons (k : Kernel) (index : Nat) (hw : k.cons.w < UINT) :
    (replaceHistoryCommand k index).cons = k.cons ∨
    (index < k.historyBufferArray.lastCommandIndex ∧
      (replaceHistoryCommand k index).cons =
        { k.cons with
          buf := wrs k.cons.buf k.cons.w
            (slotBytes (k.historyBufferArray.bufferArr.getD index [])
              (rd k.historyBufferArray.lengthsArr index) 0)
          e := (k.cons.w + rd k.historyBufferArray.lengthsArr index) % UINT }) := by
  unfold replaceHistoryCommand
  split_ifs with h
  · exact Or.inl rfl
  · right
    refine ⟨by omega, ?_⟩
    rw [spliceLoop_cons _ _ _ _ (by exact hw)]
    rfl

theorem idx_replaceHistoryCommand (k : Kernel) (index : Nat) (h : IdxInv k.cons)
    (hl : ∀ i, rd k.historyBufferArray.lengthsArr i ≤ 127) :
    IdxInv (replaceHistoryCommand k index).cons := by
  obtain ⟨h1, h2, h3, h4, h5⟩ := h
  rcases replaceHistoryCommand_cons k index h2 with e | ⟨_, e⟩
  · rw [e]; exact ⟨h1, h2, h3, h4, h5⟩
  · rw [e]
    have := hl index
    refine ⟨h1, h2, ?_, h4, ?_⟩
    · show (k.cons.w + rd k.historyBufferArray.lengthsArr index) % UINT < UINT
      exact Nat.mod_lt _ (by decide)
    · show usub ((k.cons.w + rd k.historyBufferArray.lengthsArr index) % UINT) k.cons.w ≤ 127
      simp only [usub_eq, UINT] at *; omega

theorem idx_historyUp (k : Kernel) (h : IdxInv k.cons)
    (hl : ∀ i, rd k.historyBufferArray.lengthsArr i ≤ 127) : IdxInv (historyUp k).cons := by
  unfold historyUp
  simp only []
  split_ifs <;> exact idx_replaceHistoryCommand k _ h hl

theorem idx_historyDown (k : Kernel) (h : IdxInv k.cons)
    (hl : ∀ i, rd k.historyBufferArray.lengthsArr i ≤ 127) : IdxInv (historyDown k).cons := by
  unfold historyDown
  simp only []
  split_ifs <;> exact idx_replaceHistoryCommand k _ h hl

theorem idx_default (k : Kernel) (c : Int) (d : Dev) (h : IdxInv k.cons) :
    IdxInv (consoleintrDefault k c d).cons := by
  obtain ⟨h1, h2, h3, h4, h5⟩ := h
  unfold consoleintrDefault
  by_cases hg : c ≠ 0 ∧ usub k.cons.e k.cons.r < INPUT_BUF_SIZE
  · rw [if_pos hg]
    have hroom := hg.2
    simp only []
    split_ifs with h13 hcm hcm
    all_goals first
      | (refine ⟨h1, ?_, ?_, ?_, ?_⟩
         · show uinc k.cons.e < UINT
           simp only [uinc_eq, UINT]; omega
         · show uinc k.cons.e < UINT
           simp only [uinc_eq, UINT]; omega
         · show usub (uinc k.cons.e) k.cons.r ≤ 128
           simp only [usub_eq, uinc_eq, UINT, INPUT_BUF_SIZE] at *; omega
         · show usub (uinc k.cons.e) (uinc k.cons.e) ≤ 127
           simp only [usub_eq, uinc_eq, UINT, INPUT_BUF_SIZE] at *; omega)
      | (have hnf : usub (uinc k.cons.e) k.cons.r ≠ INPUT_BUF_SIZE := fun hf =>
           hcm (Or.inr (Or.inr hf))
         refine ⟨h1, h2, ?_, h4, ?_⟩
         · show uinc k.cons.e < UINT
           simp only [uinc_eq, UINT]; omega
         · show usub (uinc k.cons.e) k.cons.w ≤ 127
           simp only [usub_eq, uinc_eq, UINT, INPUT_BUF_SIZE] at *; omega)
  · rw [if_neg hg]
    exact ⟨h1, h2, h3, h4, h5⟩

theorem idx_consoleintr (k : Kernel) (c : Int) (d : Dev) (h : IdxInv k.cons)
    (hl : ∀ i, rd k.historyBufferArray.lengthsArr i ≤ 127) :
    IdxInv (consoleintr k c d).cons := by
  unfold consoleintr
  split_ifs with c16 c21 c8 hne c27 g1 g2 g2b
  · exact h
  · exact (killLoop_idx _ k h).1
  · obtain ⟨h1, h2, h3, h4, h5⟩ := h
    refine ⟨h1, h2, ?_, h4, ?_⟩
    · show udec k.cons.e < UINT
      simp only [udec_eq, UINT]; omega
    · show usub (udec k.cons.e) k.cons.w ≤ 127
      simp only [usub_eq, udec_eq, UINT] at *; omega
  · exact h
  · exact idx_historyUp k h hl
  · exact idx_historyDown k h hl
  · exact h
  · exact h
  · exact idx_default k c d h

theorem idx_read_step (c : Cons) (h : IdxInv c) (hne : c.r ≠ c.w) :
    IdxInv { c with r := uinc c.r } ∧ IdxInv { c with r := udec (uinc c.r) } := by
  obtain ⟨h1, h2, h3, h4, h5⟩ := h
  refine ⟨⟨?_, h2, h3, ?_, h5⟩, ⟨?_, h2, h3, ?_, h5⟩⟩
  · show uinc c.r < UINT
    simp only [uinc_eq, UINT]; omega
  · show usub c.w (uinc c.r) ≤ 128
    simp only [usub_eq, uinc_eq, UINT] at *; omega
  · show udec (uinc c.r) < UINT
    simp only [udec_eq, uinc_eq, UINT]; omega
  · show usub c.w (udec (uinc c.r)) ≤ 128
    simp only [usub_eq, udec_eq, uinc_eq, UINT] at *; omega

theorem idx_readLoop (target : Nat) (killed : Bool) (copyout : Nat → Bool) (n : Nat) :
    ∀ (k : Kernel) (dst : List Nat), IdxInv k.cons →
      IdxInv (readLoop target killed copyout n k dst).k.cons := by
  induction n with
  | zero => intro k dst h; exact h
  | succ n ih =>
    intro k dst h
    rw [readLoop]
    by_cases h1 : k.cons.r = k.cons.w
    · rw [if_pos h1]; cases killed <;> exact h
    rewrite [if_neg h1]
    obtain ⟨s1, s2⟩ := idx_read_step k.cons h h1
    generalize rd k.cons.buf (k.cons.r % INPUT_BUF_SIZE) = c
    simp only []
    split_ifs
    · exact s2
    · exact s1
    · exact s1
    · exact s1
    · exact ih _ _ s1

/-- The index invariant holds in every reachable state. -/
theorem idx_reachable (k : Kernel) (h : Reachable k) : IdxInv k.cons := by
  induction h with
  | start => exact ⟨by decide, by decide, by decide, by decide!, by decide!⟩
  | intr k c d hk ih => exact idx_consoleintr k c d ih (hshape_reachable k hk).2
  | read k target n killed copyout dst _ ih => exact idx_readLoop _ _ _ _ _ _ ih

/-- C16. Stored text fits a slot. In every reachable state the scratch line
length `e - 1 - w` that a commit computes (with `e` already incremented) is at
most 127, and so is the number of bytes the copy loop writes, so every write
into the 128-byte scratch array, the terminating NUL included, is in bounds;
the scratch array holds a string of at most 127 bytes; and every recorded
entry has a stored length of at most 127 and a slot of 128 bytes whose text is
at most 127 bytes long and is followed by a NUL inside the slot. -/
theorem C16_stored_text_fits :
    ∀ (k : Kernel), Reachable k →
      (usub (usub (uinc k.cons.e) 1) k.cons.w ≤ 127 ∧
        usub (uinc k.cons.e) 1 - k.cons.w ≤ 127 ∧
        ∀ (v : Nat) (stack below : Nat → Nat),
          strlen (scratch { k.cons with
                            buf := wr k.cons.buf (k.cons.e % INPUT_BUF_SIZE) v
                            e := uinc k.cons.e } stack below) ≤ 127) ∧
      (∀ i, i < k.historyBufferArray.lastCommandIndex →
        rd k.historyBufferArray.lengthsArr i ≤ 127 ∧
        (k.historyBufferArray.bufferArr.getD i []).length = INPUT_BUF_SIZE ∧
        (cstr (k.historyBufferArray.bufferArr.getD i [])).length ≤ 127 ∧
        rd (k.historyBufferArray.bufferArr.getD i [])
          (cstr (k.historyBufferArray.bufferArr.getD i [])).length = 0) := by
  intro k hk
  obtain ⟨h1, h2, h3, h4, h5⟩ := idx_reachable k hk
  obtain ⟨s1, s2⟩ := hshape_reachable k hk
  obtain ⟨i1, i2, _⟩ := hinv_reachable k hk
  refine ⟨⟨?_, ?_, fun v stack below => scratch_strlen _ _ _⟩, ?_⟩
  · simp only [usub_eq, uinc_eq, UINT] at *; omega
  · simp only [usub_eq, uinc_eq, UINT] at *; omega
  · intro i hi
    have hM : MAX_HISTORY = 16 := rfl
    have hlt : i < k.historyBufferArray.bufferArr.length := by rw [i1]; omega
    have hrow : RowOK (k.historyBufferArray.bufferArr.getD i []) := by
      rw [List.getD_eq_getElem _ _ hlt]
      exact s1 _ (List.getElem_mem _)
    have hI : INPUT_BUF_SIZE = 128 := rfl
    refine ⟨s2 i, rowOK_length _ hrow, by have := hrow.2; omega, ?_⟩
    generalize k.historyBufferArray.bufferArr.getD i [] = row at hrow
    obtain ⟨r1, r2⟩ := hrow
    generalize hct : cstr row = t at r1 r2
    rw [r1]
    unfold pad rd
    rw [List.getD_append_right _ _ _ _ (le_refl _)]
    simp

/-- Witness of C16: the state after the line `ls`. -/
theorem C16_stored_text_fits_witness :
    rd (feed quiet init (keys [108, 115] ++ [10])).historyBufferArray.lengthsArr 0 ≤ 127 ∧
    ((feed quiet init (keys [108, 115] ++ [10])).historyBufferArray.bufferArr.getD 0 []).length
      = INPUT_BUF_SIZE ∧
    (cstr ((feed quiet init (keys [108, 115] ++ [10])).historyBufferArray.bufferArr.getD 0
      [])).length ≤ 127 ∧
    rd ((feed quiet init (keys [108, 115] ++ [10])).historyBufferArray.bufferArr.getD 0 [])
      (cstr ((feed quiet init (keys [108, 115] ++ [10])).historyBufferArray.bufferArr.getD 0
        [])).length = 0 :=
  (C16_stored_text_fits (feed quiet init (keys [108, 115] ++ [10]))
    (reachable_feed _ _ _ Reachable.start)).2 0 (by decide!)

/-! ## History navigation below capacity -/

theorem histBelow_record (ls : List (List Nat)) (h : HistoryBufferArray) (t rest : List Nat)
    (hh : HistBelow ls h) (hlt : ls.length < MAX_HISTORY) (ht : CommandLine t) :
    HistBelow (ls ++ [t]) (record h (t ++ 0 :: rest)) := by
  obtain ⟨_, b1, b2, b3, _, b5⟩ := hh
  obtain ⟨ht1, ht2, ht3⟩ := ht
  have hlast : h.lastCommandIndex < MAX_HISTORY := by rw [b3]; exact hlt
  rw [record_append h t rest (ordinary_ne_zero t ht1) ht2 ht3 hlast]
  have hlen : (ls ++ [t]).length = ls.length + 1 := by simp
  refine ⟨by rw [hlen]; omega, by simp [b1], by simp [b2], by rw [hlen, b3], ?_, ?_⟩
  · intro _
    show ((h.lastCommandIndex : Nat) : Int) = (((ls ++ [t]).length - 1 : Nat) : Int)
    rw [hlen, b3]; simp
  · intro i hi
    rw [hlen] at hi
    show (h.bufferArr.set h.lastCommandIndex (pad t)).getD i [] = pad ((ls ++ [t]).getD i [])
      ∧ rd (h.lengthsArr.set h.lastCommandIndex t.length) i = ((ls ++ [t]).getD i []).length
    rw [b3]
    by_cases hi2 : i = ls.length
    · subst hi2
      have e1 : (ls ++ [t]).getD ls.length [] = t := by
        rw [List.getD_append_right _ _ _ _ (le_refl _)]; simp
      rw [e1, getD_set_same _ _ _ _ (by rw [b1]; exact hlt)]
      refine ⟨rfl, ?_⟩
      exact rd_wr_same h.lengthsArr ls.length t.length (by rw [b2]; exact hlt)
    · have hi3 : i < ls.length := by omega
      have e1 : (ls ++ [t]).getD i [] = ls.getD i [] := List.getD_append _ _ _ _ hi3
      rw [e1, getD_set_ne _ _ _ _ _ (fun h => hi2 h.symm)]
      refine ⟨(b5 i hi3).1, ?_⟩
      have := rd_wr_ne h.lengthsArr ls.length i t.length (fun h => hi2 h.symm)
      unfold wr at this
      rw [this]
      exact (b5 i hi3).2

theorem typeLines_append (d : Dev) (k : Kernel) (ls : List (List Nat)) (t : List Nat) :
    typeLines d k (ls ++ [t]) = feed d (typeLines d k ls) (keys t ++ [10]) := by
  simp [typeLines, List.foldl_append]

/-- One line typed into an empty line of a ring with room for it. -/
theorem type_step (d : Dev) (k : Kernel) (t : List Nat)
    (hbuf : k.cons.buf.length = INPUT_BUF_SIZE) (hw : k.cons.w = k.cons.e)
    (hr : k.cons.r < UINT) (hnh : k.cons.e + (t.length + 1) < HALF)
    (hroom : usub k.cons.e k.cons.r + (t.length + 1) ≤ INPUT_BUF_SIZE) (ht : CommandLine t) :
    (feed d k (keys t ++ [10])).cons.r = k.cons.r ∧
    (feed d k (keys t ++ [10])).cons.w = k.cons.e + (t.length + 1) ∧
    (feed d k (keys t ++ [10])).cons.e = k.cons.e + (t.length + 1) ∧
    (feed d k (keys t ++ [10])).cons.buf.length = INPUT_BUF_SIZE ∧
    ∃ rest, (feed d k (keys t ++ [10])).historyBufferArray
      = record k.historyBufferArray (t ++ 0 :: rest) := by
  obtain ⟨ht1, _, _⟩ := ht
  have hI : INPUT_BUF_SIZE = 128 := rfl
  have hnw : k.cons.e + (t.length + 1) < UINT := by simp only [HALF, UINT] at *; omega
  have he : k.cons.e < UINT := by omega
  have h10 : ((10 : Int)) = ((10 : Nat) : Int) := rfl
  rw [h10]
  have hcons := feed_line d k t 10 (Or.inl rfl) ht1 he hr (by omega)
  have hmod : (k.cons.e + (t.length + 1)) % UINT = k.cons.e + (t.length + 1) :=
    Nat.mod_eq_of_lt hnw
  rw [hmod] at hcons
  refine ⟨by rw [hcons], by rw [hcons], by rw [hcons], ?_, ?_⟩
  · rw [hcons]
    show (wrs k.cons.buf k.cons.e (t ++ [10])).length = INPUT_BUF_SIZE
    rw [length_wrs, hbuf]
  · exact feed_line_hist d k t 10 (Or.inl rfl) ht1 hbuf hw (by omega) hr (by omega)

theorem histBelow_nil (h : HistoryBufferArray) (h1 : h.bufferArr.length = MAX_HISTORY)
    (h2 : h.lengthsArr.length = MAX_HISTORY) (h0 : h.lastCommandIndex = 0) : HistBelow [] h :=
  ⟨by simp, h1, h2, by simp [h0], fun hne => absurd rfl hne, fun i hi => by simp at hi⟩

/-- The console after at most 16 command lines, each read out, from an empty
history. -/
theorem session_below (d : Dev) (k : Kernel)
    (hbuf : k.cons.buf.length = INPUT_BUF_SIZE)
    (hrows : k.historyBufferArray.bufferArr.length = MAX_HISTORY)
    (hlens : k.historyBufferArray.lengthsArr.length = MAX_HISTORY)
    (hr : k.cons.r = k.cons.e) (hw : k.cons.w = k.cons.e)
    (h0 : k.historyBufferArray.lastCommandIndex = 0) :
    ∀ (ls : List (List Nat)), (∀ t, t ∈ ls → CommandLine t) → ls.length ≤ MAX_HISTORY →
      k.cons.e + typedBytes ls < HALF →
      (session d k ls).cons.w = k.cons.e + typedBytes ls ∧
      (session d k ls).cons.e = k.cons.e + typedBytes ls ∧
      (session d k ls).cons.buf.length = INPUT_BUF_SIZE ∧
      HistBelow ls (session d k ls).historyBufferArray := by
  intro ls
  have hHU : HALF < UINT := by unfold HALF UINT; omega
  induction ls using List.reverseRecOn with
  | nil =>
    intro _ _ _
    exact ⟨by simp [session, typedBytes, hw], by simp [session, typedBytes], hbuf,
      histBelow_nil _ hrows hlens h0⟩
  | append_singleton ls t ih =>
    intro hls hlen htot
    rw [typedBytes_append] at htot ⊢
    have hlen' : ls.length + 1 ≤ MAX_HISTORY := by simpa using hlen
    have hls' : ∀ t, t ∈ ls → CommandLine t := fun x hx => hls x (by simp [hx])
    have ht : CommandLine t := hls t (by simp)
    obtain ⟨i1, i2, i3, i4, _, _, _⟩ := session_inv d k hbuf hrows hr hw h0 ls hls' (by omega)
    obtain ⟨_, _, _, j4⟩ := ih hls' (by omega) (by omega)
    rw [session_append]
    generalize session d k ls = s at i1 i2 i3 i4 j4
    obtain ⟨s1, s2, s3, s4, rest, s5⟩ := submit_step d s t i4 (by rw [i2, i1]) (by rw [i3, i1])
      (by rw [i1]; omega) ht
    refine ⟨by rw [s2, i1]; omega, by rw [s3, i1]; omega, s4, ?_⟩
    rw [s5]
    exact histBelow_record ls _ t rest j4 (by omega) ht

/-- The console after at most 16 command lines that fit the ring together,
typed with nothing read, from an empty history. -/
theorem typeLines_below (d : Dev) (k : Kernel)
    (hbuf : k.cons.buf.length = INPUT_BUF_SIZE)
    (hrows : k.historyBufferArray.bufferArr.length = MAX_HISTORY)
    (hlens : k.historyBufferArray.lengthsArr.length = MAX_HISTORY)
    (hr : k.cons.r = k.cons.e) (hw : k.cons.w = k.cons.e)
    (h0 : k.historyBufferArray.lastCommandIndex = 0) :
    ∀ (ls : List (List Nat)), (∀ t, t ∈ ls → CommandLine t) → ls.length ≤ MAX_HISTORY →
      k.cons.e + typedBytes ls < HALF → typedBytes ls ≤ INPUT_BUF_SIZE →
      (typeLines d k ls).cons.r = k.cons.e ∧
      (typeLines d k ls).cons.w = k.cons.e + typedBytes ls ∧
      (typeLines d k ls).cons.e = k.cons.e + typedBytes ls ∧
      (typeLines d k ls).cons.buf.length = INPUT_BUF_SIZE ∧
      HistBelow ls (typeLines d k ls).historyBufferArray := by
  intro ls
  have hHU : HALF < UINT := by unfold HALF UINT; omega
  induction ls using List.reverseRecOn with
  | nil =>
    intro _ _ _ _
    exact ⟨by simp [typeLines, hr], by simp [typeLines, typedBytes, hw],
      by simp [typeLines, typedBytes], hbuf, histBelow_nil _ hrows hlens h0⟩
  | append_singleton ls t ih =>
    intro hls hlen htot hfit
    rw [typedBytes_append] at htot hfit ⊢
    have hlen' : ls.length + 1 ≤ MAX_HISTORY := by simpa using hlen
    have hls' : ∀ t, t ∈ ls → CommandLine t := fun x hx => hls x (by simp [hx])
    have ht : CommandLine t := hls t (by simp)
    obtain ⟨i1, i2, i3, i4, j4⟩ := ih hls' (by omega) (by omega) (by omega)
    rw [typeLines_append]
    generalize typeLines d k ls = s at i1 i2 i3 i4 j4
    obtain ⟨s1, s2, s3, s4, rest, s5⟩ := type_step d s t i4 (by rw [i2, i3]) (by rw [i1]; omega)
      (by rw [i3]; omega)
      (by rw [i3, i1]; simp only [usub_eq, UINT, INPUT_BUF_SIZE] at *; omega) ht
    refine ⟨by rw [s1, i1], by rw [s2, i3]; omega, by rw [s3, i3]; omega, s4, ?_⟩
    rw [s5]
    exact histBelow_record ls _ t rest j4 (by omega) ht

theorem slotBytes_middle (t : List Nat) : ∀ (pre rest : List Nat),
    slotBytes (pre ++ t ++ rest) t.length pre.length = t := by
  induction t with
  | nil => intro pre rest; rfl
  | cons b t ih =>
    intro pre rest
    have h1 : rd (pre ++ b :: t ++ rest) pre.length = b := by
      unfold rd
      rw [List.append_assoc, List.getD_append_right _ _ _ _ (le_refl _)]
      simp
    have h2 := ih (pre ++ [b]) rest
    have e1 : pre ++ [b] ++ t ++ rest = pre ++ b :: t ++ rest := by simp
    have e2 : (pre ++ [b]).length = pre.length + 1 := by simp
    rw [e1, e2] at h2
    simp only [List.length_cons, slotBytes, h1, h2]

theorem slotBytes_pad (t : List Nat) : slotBytes (pad t) t.length 0 = t := by
  have := slotBytes_middle t [] (List.replicate (INPUT_BUF_SIZE - t.length) 0)
  simpa [pad] using this

/-- History-up on a valid cursor whose slot holds the text `t` with its
length: the uncommitted line becomes `t` and the cursor moves down, stopping
at 0. -/
theorem historyUp_shows (k : Kernel) (du : Dev) (hg1 : du.g1 = 91) (hg2 : du.g2 = 65)
    (c : Nat) (t : List Nat)
    (hcur : k.historyBufferArray.currentHistory = (c : Int))
    (hc : c < k.historyBufferArray.lastCommandIndex)
    (hlast : k.historyBufferArray.lastCommandIndex ≤ MAX_HISTORY)
    (hrow : k.historyBufferArray.bufferArr.getD c [] = pad t)
    (hlen : rd k.historyBufferArray.lengthsArr c = t.length)
    (ht : t.length < INPUT_BUF_SIZE)
    (hbuf : k.cons.buf.length = INPUT_BUF_SIZE) (hw : k.cons.w < UINT) :
    (consoleintr k 27 du).cons =
      { buf := wrs k.cons.buf k.cons.w t
        r := k.cons.r
        w := k.cons.w
        e := (k.cons.w + t.length) % UINT } ∧
    (consoleintr k 27 du).historyBufferArray.bufferArr = k.historyBufferArray.bufferArr ∧
    (consoleintr k 27 du).historyBufferArray.lengthsArr = k.historyBufferArray.lengthsArr ∧
    (consoleintr k 27 du).historyBufferArray.lastCommandIndex
      = k.historyBufferArray.lastCommandIndex ∧
    (consoleintr k 27 du).historyBufferArray.currentHistory = ((c - 1 : Nat) : Int) ∧
    uncommitted (consoleintr k 27 du) = t := by
  have hM : MAX_HISTORY = 16 := rfl
  have hI : INPUT_BUF_SIZE = 128 := rfl
  have hci : consoleintr k 27 du = historyUp k := by simp [consoleintr, hg1, hg2]
  have hu : toUint k.historyBufferArray.currentHistory = c := by
    rw [hcur]; exact toUint_ofNat c (by simp only [UINT]; omega)
  have hrep : (replaceHistoryCommand k c).cons =
      { buf := wrs k.cons.buf k.cons.w t
        r := k.cons.r
        w := k.cons.w
        e := (k.cons.w + t.length) % UINT } := by
    unfold replaceHistoryCommand
    rw [if_neg (by omega), spliceLoop_cons _ _ _ _ (by exact hw), hrow, hlen, slotBytes_pad]
    rfl
  have hcons : (historyUp k).cons = (replaceHistoryCommand k c).cons := by
    unfold historyUp
    simp only [hu]
    split_ifs <;> rfl
  have hhist := historyUp_hist k
  have hk1 : (replaceHistoryCommand k c).historyBufferArray.currentHistory = (c : Int) := by
    rw [replaceHistoryCommand_hist, hcur]
  have hcur2 : (historyUp k).historyBufferArray.currentHistory = ((c - 1 : Nat) : Int) := by
    unfold historyUp
    simp only [hu]
    split_ifs with h0
    · show (replaceHistoryCommand k c).historyBufferArray.currentHistory - 1
        = ((c - 1 : Nat) : Int)
      rw [hk1] at h0 ⊢
      omega
    · rw [hk1] at h0 ⊢
      have : (c : Int) = 0 := by simpa using h0
      omega
  rw [hci]
  refine ⟨by rw [hcons, hrep], hhist.1, hhist.2.1, hhist.2.2, hcur2, ?_⟩
  unfold uncommitted
  rw [hcons, hrep]
  show window (wrs k.cons.buf k.cons.w t) k.cons.w (usub ((k.cons.w + t.length) % UINT) k.cons.w)
    = t
  have e1 : usub ((k.cons.w + t.length) % UINT) k.cons.w = t.length := by
    simp only [usub_eq, UINT] at *; omega
  rw [e1]
  exact window_wrs t k.cons.buf k.cons.w hw hbuf (by omega)

/-- Repeated history-up presses on a state whose store holds the lines `ls`
below capacity, with nothing typed: the cursor walks down from the newest
entry and stops at 0, and each press shows the entry the cursor was on. -/
theorem navigate_up (du : Dev) (hg1 : du.g1 = 91) (hg2 : du.g2 = 65)
    (ls : List (List Nat)) (s : Kernel) (hne : ls ≠ [])
    (hall : ∀ t, t ∈ ls → t.length < INPUT_BUF_SIZE)
    (hB : HistBelow ls s.historyBufferArray)
    (hbuf : s.cons.buf.length = INPUT_BUF_SIZE) (hw : s.cons.w < UINT) :
    ∀ j,
      (feed du s (List.replicate j 27)).cons.w = s.cons.w ∧
      (feed du s (List.replicate j 27)).cons.r = s.cons.r ∧
      (feed du s (List.replicate j 27)).cons.buf.length = INPUT_BUF_SIZE ∧
      (feed du s (List.replicate j 27)).historyBufferArray.bufferArr
        = s.historyBufferArray.bufferArr ∧
      (feed du s (List.replicate j 27)).historyBufferArray.lengthsArr
        = s.historyBufferArray.lengthsArr ∧
      (feed du s (List.replicate j 27)).historyBufferArray.lastCommandIndex
        = s.historyBufferArray.lastCommandIndex ∧
      (feed du s (List.replicate j 27)).historyBufferArray.currentHistory
        = ((ls.length - 1 - j : Nat) : Int) ∧
      (1 ≤ j → uncommitted (feed du s (List.replicate j 27)) = ls.getD (ls.length - j) []) := by
  obtain ⟨hn, _, _, hlast, hcur, hrows⟩ := hB
  have hpos : 0 < ls.length := List.length_pos.mpr hne
  intro j
  induction j with
  | zero =>
    refine ⟨rfl, rfl, hbuf, rfl, rfl, rfl, ?_, fun h => absurd h (by omega)⟩
    show s.historyBufferArray.currentHistory = _
    rw [hcur hne]; rfl
  | succ j ih =>
    obtain ⟨i1, i2, i3, i4, i5, i6, i7, _⟩ := ih
    have hsplit : feed du s (List.replicate (j + 1) 27)
        = consoleintr (feed du s (List.replicate j 27)) 27 du := by
      rw [List.replicate_succ', feed_append]; rfl
    have hc : ls.length - 1 - j < ls.length := by omega
    have hrow := hrows (ls.length - 1 - j) hc
    have hmem : ls.getD (ls.length - 1 - j) [] ∈ ls := by
      rw [List.getD_eq_getElem _ _ hc]; exact List.getElem_mem _
    obtain ⟨g1, g2, g3, g4, g5, g6⟩ := historyUp_shows (feed du s (List.replicate j 27)) du hg1 hg2
      (ls.length - 1 - j) (ls.getD (ls.length - 1 - j) []) i7
      (by rw [i6, hlast]; exact hc) (by rw [i6, hlast]; exact hn)
      (by rw [i4]; exact hrow.1) (by rw [i5]; exact hrow.2)
      (hall _ hmem) i3 (by rw [i1]; exact hw)
    rw [hsplit]
    refine ⟨?_, ?_, ?_, g2.trans i4, g3.trans i5, g4.trans i6, ?_, ?_⟩
    · rw [g1]; exact i1
    · rw [g1]; exact i2
    · rw [g1]; show (wrs _ _ _).length = _; rw [length_wrs]; exact i3
    · rw [g5]; congr 1
    · intro _
      rw [g6]; congr 1; omega

/-- Below `2^31`: from a state with an empty history and nothing pending,
after the command lines `ls` (between 1 and 16 of them) have been submitted
and nothing more is typed, `j ≥ 1` consecutive history-up presses leave line
`max (n - j + 1) 1` of the `n` lines (counted from 1) as the uncommitted line.
This holds when each line is read out before the next is typed, and when
nothing is read and the lines fit the ring. -/
theorem navigation_low (d du : Dev) (k : Kernel) (ls : List (List Nat)) (j : Nat)
    (hg1 : du.g1 = 91) (hg2 : du.g2 = 65)
    (hbuf : k.cons.buf.length = INPUT_BUF_SIZE)
    (hrows : k.historyBufferArray.bufferArr.length = MAX_HISTORY)
    (hlens : k.historyBufferArray.lengthsArr.length = MAX_HISTORY)
    (hr : k.cons.r = k.cons.e) (hw : k.cons.w = k.cons.e)
    (h0 : k.historyBufferArray.lastCommandIndex = 0)
    (hls : ∀ t, t ∈ ls → CommandLine t)
    (h1 : 1 ≤ ls.length) (hn : ls.length ≤ MAX_HISTORY)
    (htot : k.cons.e + typedBytes ls < HALF) (hj : 1 ≤ j) :
    uncommitted (feed du (session d k ls) (List.replicate j 27)) = ls.getD (ls.length - j) [] ∧
    (typedBytes ls ≤ INPUT_BUF_SIZE →
      uncommitted (feed du (typeLines d k ls) (List.replicate j 27))
        = ls.getD (ls.length - j) []) := by
  have hHU : HALF < UINT := by unfold HALF UINT; omega
  have hne : ls ≠ [] := by
    intro h; rw [h] at h1; simp at h1
  have hall : ∀ t, t ∈ ls → t.length < INPUT_BUF_SIZE := fun t ht => (hls t ht).2.1
  constructor
  · obtain ⟨a1, _, a3, a4⟩ := session_below d k hbuf hrows hlens hr hw h0 ls hls hn htot
    exact (navigate_up du hg1 hg2 ls _ hne hall a4 a3 (by rw [a1]; omega) j).2.2.2.2.2.2.2 hj
  · intro hfit
    obtain ⟨_, a1, _, a3, a4⟩ :=
      typeLines_below d k hbuf hrows hlens hr hw h0 ls hls hn htot hfit
    exact (navigate_up du hg1 hg2 ls _ hne hall a4 a3 (by rw [a1]; omega) j).2.2.2.2.2.2.2 hj

/-! ## Kill-line -/

theorem readLoop_bwe (target : Nat) (killed : Bool) (copyout : Nat → Bool) (n : Nat) :
    ∀ (k : Kernel) (dst : List Nat),
      (readLoop target killed copyout n k dst).k.cons.buf = k.cons.buf ∧
      (readLoop target killed copyout n k dst).k.cons.w = k.cons.w ∧
      (readLoop target killed copyout n k dst).k.cons.e = k.cons.e := by
  induction n with
  | zero => intro k dst; exact ⟨rfl, rfl, rfl⟩
  | succ n ih =>
    intro k dst
    rw [readLoop]
    by_cases h1 : k.cons.r = k.cons.w
    · rw [if_pos h1]; cases killed <;> exact ⟨rfl, rfl, rfl⟩
    rewrite [if_neg h1]
    generalize rd k.cons.buf (k.cons.r % INPUT_BUF_SIZE) = c
    simp only []
    split_ifs
    · exact ⟨rfl, rfl, rfl⟩
    · exact ⟨rfl, rfl, rfl⟩
    · exact ⟨rfl, rfl, rfl⟩
    · exact ⟨rfl, rfl, rfl⟩
    · exact ih _ _

theorem reachableByte_reachable (k : Kernel) (h : ReachableByte k) : Reachable k := by
  induction h with
  | start => exact Reachable.start
  | intr k c d _ _ _ ih => exact Reachable.intr k c d ih
  | read k target n killed copyout dst _ ih => exact Reachable.read k target n killed copyout dst ih

theorem eraseN_bytes (n : Nat) : ∀ (uart : List Nat), eraseN n uart = uart ++ eraseBytes n := by
  induction n with
  | zero => intro uart; simp [eraseN, eraseBytes]
  | succ n ih =>
    intro uart
    rw [eraseN, ih]
    simp [consputc, eraseBytes]

theorem mem_cstr_append (t rest : List Nat) (b : Nat) (h : b ∈ cstr (t ++ 0 :: rest)) : b ∈ t := by
  induction t with
  | nil => simp [cstr] at h
  | cons c t ih =>
    by_cases hc : c = 0
    · subst hc; simp [cstr] at h
    · have e1 : cstr (c :: t ++ 0 :: rest) = c :: cstr (t ++ 0 :: rest) := by
        unfold cstr; exact List.takeWhile_cons_of_pos (by simpa using hc)
      rw [e1] at h
      rcases List.mem_cons.mp h with h1 | h1
      · rw [h1]; exact List.mem_cons_self _ _
      · exact List.mem_cons_of_mem _ (ih h1)

theorem nonl_strncpy (cmd : List Nat) (h : (cstr cmd).length ≤ INPUT_BUF_SIZE)
    (h2 : 10 ∉ cstr cmd) : 10 ∉ strncpy cmd INPUT_BUF_SIZE := by
  rw [strncpy_cstr cmd INPUT_BUF_SIZE h]
  intro hm
  rcases List.mem_append.mp hm with h3 | h3
  · exact h2 h3
  · have := List.eq_of_mem_replicate h3
    omega

theorem nonl_cstr (row : List Nat) (h : 10 ∉ row) : 10 ∉ cstr row :=
  fun hm => h ((List.takeWhile_sublist _).subset hm)

theorem nonl_set (arr : List (List Nat)) (i : Nat) (v : List Nat)
    (h : ∀ row, row ∈ arr → 10 ∉ row) (hv : 10 ∉ v) :
    ∀ row, row ∈ arr.set i v → 10 ∉ row := by
  intro row hrow
  rcases List.mem_or_eq_of_mem_set hrow with h1 | h1
  · exact h row h1
  · rw [h1]; exact hv

theorem nonl_shiftLoop (cnt : Nat) : ∀ (i : Nat) (arr : List (List Nat)),
    (∀ row, row ∈ arr → RowOK row) → (∀ row, row ∈ arr → 10 ∉ row) →
    ∀ row, row ∈ shiftLoop cnt i arr → 10 ∉ row := by
  induction cnt with
  | zero => intro i arr _ h; exact h
  | succ cnt ih =>
    intro i arr hok h
    rw [shiftLoop]
    have hv : RowOK (strncpy (arr.getD i []) INPUT_BUF_SIZE) ∧
        10 ∉ strncpy (arr.getD i []) INPUT_BUF_SIZE := by
      by_cases hi : i < arr.length
      · rw [List.getD_eq_getElem _ _ hi]
        have hr := hok _ (List.getElem_mem (h := hi))
        exact ⟨(rowOK_strncpy _ hr.2).1,
          nonl_strncpy _ (by have := hr.2; omega) (nonl_cstr _ (h _ (List.getElem_mem _)))⟩
      · rw [List.getD_eq_default _ _ (by omega)]
        exact ⟨rowOK_nil_strncpy, nonl_strncpy _ (by simp [cstr]) (by simp [cstr])⟩
    exact ih _ _ (rowOK_set _ _ _ hok hv.1) (nonl_set _ _ _ h hv.2)

theorem nonl_record (h : HistoryBufferArray) (cmd : List Nat) (hh : HShape h)
    (hrows : ∀ row, row ∈ h.bufferArr → 10 ∉ row)
    (hcmd : strlen cmd ≤ 127) (hn : 10 ∉ cstr cmd) :
    ∀ row, row ∈ (record h cmd).bufferArr → 10 ∉ row := by
  have hc : (cstr cmd).length ≤ INPUT_BUF_SIZE := by
    rw [← strlen_eq_cstr]; simp only [INPUT_BUF_SIZE]; omega
  unfold record
  by_cases hs : strncmp cmd historyLit 7 ≠ 0
  · rw [if_pos hs]
    by_cases hfull : h.lastCommandIndex = MAX_HISTORY
    · rw [if_pos hfull]
      exact nonl_set _ _ _ (nonl_shiftLoop _ _ _ hh.1 hrows) (nonl_strncpy cmd hc hn)
    · rw [if_neg hfull]
      exact nonl_set _ _ _ hrows (nonl_strncpy cmd hc hn)
  · rw [if_neg hs]; exact hrows

theorem rd_ne_newline (row : List Nat) (h : 10 ∉ row) (j : Nat) : rd row j ≠ 10 := by
  unfold rd
  by_cases hj : j < row.length
  · rw [List.getD_eq_getElem _ _ hj]
    intro hm
    exact h (hm ▸ List.getElem_mem _)
  · rw [List.getD_eq_default _ _ (by omega)]
    decide

theorem length_slotBytes (slot : List Nat) (cnt : Nat) : ∀ i, (slotBytes slot cnt i).length = cnt := by
  induction cnt with
  | zero => intro i; rfl
  | succ cnt ih => intro i; simp [slotBytes, ih]

theorem nonl_slotBytes (slot : List Nat) (h : 10 ∉ slot) (cnt : Nat) :
    ∀ i, 10 ∉ slotBytes slot cnt i := by
  induction cnt with
  | zero => intro i; simp [slotBytes]
  | succ cnt ih =>
    intro i hm
    rw [slotBytes] at hm
    rcases List.mem_cons.mp hm with h1 | h1
    · exact rd_ne_newline slot h i h1.symm
    · exact ih _ h1

theorem nonl_window_init (buf : List Nat) (i n : Nat) (hi : i < UINT)
    (h : 10 ∉ window buf i (n + 1)) :
    10 ∉ window buf i n ∧ rd buf ((i + n) % UINT % INPUT_BUF_SIZE) ≠ 10 := by
  rw [window_succ_last buf n i hi] at h
  constructor
  · exact fun hm => h (List.mem_append_left _ hm)
  · exact fun hm => h (List.mem_append_right _ (by rw [hm]; exact List.mem_singleton_self _))

theorem window_store (buf : List Nat) (w e v : Nat) (hbuf : buf.length = INPUT_BUF_SIZE)
    (hwe : w ≤ e) (he : e + 1 < UINT) (hlen : e - w < INPUT_BUF_SIZE) :
    window (wr buf (e % INPUT_BUF_SIZE) v) w (usub (uinc e) w) = window buf w (usub e w) ++ [v] := by
  have e1 : usub (uinc e) w = (e - w) + 1 := by
    simp only [usub_eq, uinc_eq, UINT] at *; omega
  have e2 : usub e w = e - w := by
    simp only [usub_eq, UINT] at *; omega
  have e3 : (w + (e - w)) % UINT % INPUT_BUF_SIZE = e % INPUT_BUF_SIZE := by
    simp only [UINT, INPUT_BUF_SIZE] at *; omega
  rw [e1, e2, window_succ_last _ _ _ (by omega), e3,
    rd_wr_same _ _ _ (by rw [hbuf]; exact Nat.mod_lt _ (by decide))]
  congr 1
  apply window_congr _ _ _ _ (by omega)
  intro j hj
  apply rd_wr_ne
  simp only [UINT, INPUT_BUF_SIZE] at *
  omega

/-- With no newline in the uncommitted line, the kill loop runs down to the
write index. -/
theorem killLoop_all (n : Nat) : ∀ (k : Kernel), k.cons.e = k.cons.w + n → k.cons.e < UINT →
    10 ∉ window k.cons.buf k.cons.w n →
    killLoop n k =
      { k with cons := { k.cons with e := k.cons.w }, uart := eraseN n k.uart } := by
  induction n with
  | zero =>
    intro k he _ _
    obtain ⟨⟨buf, r, w, e⟩, hist, uart, pd⟩ := k
    simp only [Nat.add_zero] at he
    subst he
    rfl
  | succ n ih =>
    intro k he hlt hnl
    obtain ⟨h1, h2⟩ := nonl_window_init _ _ _ (by omega) hnl
    have e1 : usub k.cons.e 1 % INPUT_BUF_SIZE = (k.cons.w + n) % UINT % INPUT_BUF_SIZE := by
      simp only [usub_eq, UINT, INPUT_BUF_SIZE] at *; omega
    have e2 : udec k.cons.e = k.cons.w + n := by
      simp only [udec_eq, UINT] at *; omega
    rw [killLoop, if_pos ⟨by omega, by rw [e1]; exact h2⟩]
    rw [ih { k with cons := { k.cons with e := udec k.cons.e }, uart := consputc k.uart BACKSPACE }
      e2 (by show udec k.cons.e < UINT; omega) h1]
    rfl

theorem nonl_replace (k : Kernel) (index : Nat) (hI : IdxInv k.cons)
    (hS : HShape k.historyBufferArray) (hN : NoNewline k)
    (hg : k.cons.e + INPUT_BUF_SIZE < HALF) :
    (replaceHistoryCommand k index).cons.buf.length = INPUT_BUF_SIZE ∧
    (replaceHistoryCommand k index).cons.w ≤ (replaceHistoryCommand k index).cons.e ∧
    10 ∉ window (replaceHistoryCommand k index).cons.buf (replaceHistoryCommand k index).cons.w
      (usub (replaceHistoryCommand k index).cons.e (replaceHistoryCommand k index).cons.w) := by
  obtain ⟨_, h2, _, _, _⟩ := hI
  obtain ⟨n1, n2, n3, n4⟩ := hN
  rcases replaceHistoryCommand_cons k index h2 with e | ⟨_, e⟩
  · rw [e]; exact ⟨n1, n2, n3⟩
  · rw [e]
    have hl := hS.2 index
    have hrow : 10 ∉ k.historyBufferArray.bufferArr.getD index [] := by
      by_cases hi : index < k.historyBufferArray.bufferArr.length
      · rw [List.getD_eq_getElem _ _ hi]; exact n4 _ (List.getElem_mem _)
      · rw [List.getD_eq_default _ _ (by omega)]; simp
    have hlen := length_slotBytes (k.historyBufferArray.bufferArr.getD index [])
      (rd k.historyBufferArray.lengthsArr index) 0
    refine ⟨?_, ?_, ?_⟩
    · show (wrs _ _ _).length = _
      rw [length_wrs]; exact n1
    · show k.cons.w ≤ (k.cons.w + rd k.historyBufferArray.lengthsArr index) % UINT
      simp only [HALF, UINT, INPUT_BUF_SIZE] at *; omega
    · show 10 ∉ window (wrs k.cons.buf k.cons.w _) k.cons.w
        (usub ((k.cons.w + rd k.historyBufferArray.lengthsArr index) % UINT) k.cons.w)
      have e1 : usub ((k.cons.w + rd k.historyBufferArray.lengthsArr index) % UINT) k.cons.w
          = (slotBytes (k.historyBufferArray.bufferArr.getD index [])
              (rd k.historyBufferArray.lengthsArr index) 0).length := by
        rw [hlen]
        simp only [usub_eq, HALF, UINT, INPUT_BUF_SIZE] at *; omega
      rw [e1, window_wrs _ _ _ h2 n1 (by rw [hlen]; simp only [INPUT_BUF_SIZE]; omega)]
      exact nonl_slotBytes _ hrow _ _

theorem nonl_historyUp (k : Kernel) (hI : IdxInv k.cons)
    (hS : HShape k.historyBufferArray) (hN : NoNewline k)
    (hg : k.cons.e + INPUT_BUF_SIZE < HALF) : NoNewline (historyUp k) := by
  have hc : (historyUp k).cons
      = (replaceHistoryCommand k (toUint k.historyBufferArray.currentHistory)).cons := by
    unfold historyUp
    simp only []
    split_ifs <;> rfl
  obtain ⟨r1, r2, r3⟩ := nonl_replace k (toUint k.historyBufferArray.currentHistory) hI hS hN hg
  unfold NoNewline uncommitted
  rw [hc, (historyUp_hist k).1]
  exact ⟨r1, r2, r3, hN.2.2.2⟩

theorem nonl_historyDown (k : Kernel) (hI : IdxInv k.cons)
    (hS : HShape k.historyBufferArray) (hN : NoNewline k)
    (hg : k.cons.e + INPUT_BUF_SIZE < HALF) : NoNewline (historyDown k) := by
  have hc : (historyDown k).cons
      = (replaceHistoryCommand k (toUint k.historyBufferArray.currentHistory)).cons := by
    unfold historyDown
    simp only []
    split_ifs <;> rfl
  obtain ⟨r1, r2, r3⟩ := nonl_replace k (toUint k.historyBufferArray.currentHistory) hI hS hN hg
  unfold NoNewline uncommitted
  rw [hc, (historyDown_hist k).1]
  exact ⟨r1, r2, r3, hN.2.2.2⟩

theorem nonl_default (k : Kernel) (c : Int) (d : Dev) (hI : IdxInv k.cons)
    (hS : HShape k.historyBufferArray) (hN : NoNewline k)
    (hc0 : 0 ≤ c) (hc1 : c < 256) (hg : k.cons.e + INPUT_BUF_SIZE < HALF) :
    NoNewline (consoleintrDefault k c d) := by
  obtain ⟨_, h2, h3, _, h5⟩ := hI
  obtain ⟨n1, n2, n3, n4⟩ := hN
  have hlen : k.cons.e - k.cons.w < INPUT_BUF_SIZE := by
    simp only [usub_eq, HALF, UINT, INPUT_BUF_SIZE] at *; omega
  unfold consoleintrDefault
  by_cases hg0 : c ≠ 0 ∧ usub k.cons.e k.cons.r < INPUT_BUF_SIZE
  · rw [if_pos hg0]
    simp only []
    have hb : 0 ≤ (if c = 13 then (10 : Int) else c) ∧ (if c = 13 then (10 : Int) else c) < 256 := by
      split_ifs <;> omega
    generalize (if c = 13 then (10 : Int) else c) = c1 at hb ⊢
    split_ifs with hcm
    · refine ⟨?_, ?_, ?_, ?_⟩
      · show (wr _ _ _).length = _
        rw [length_wr]; exact n1
      · exact le_refl _
      · show 10 ∉ window (wr _ _ _) (uinc k.cons.e) (usub (uinc k.cons.e) (uinc k.cons.e))
        have e0 : usub (uinc k.cons.e) (uinc k.cons.e) = 0 := by
          simp only [usub_eq, UINT]; omega
        rw [e0]; simp [window]
      · show ∀ row, row ∈ (record k.historyBufferArray _).bufferArr → 10 ∉ row
        apply nonl_record _ _ hS n4 (scratch_strlen _ _ _)
        obtain ⟨rest, hr⟩ := scratch_commit k d.stack d.below (toByte c1)
          (by simp only [HALF, INPUT_BUF_SIZE] at *; omega) n2 hlen
        rw [hr]
        exact fun hm => n3 (mem_cstr_append _ _ _ hm)
    · have hne : c1 ≠ 10 := fun h => hcm (Or.inl h)
      refine ⟨?_, ?_, ?_, n4⟩
      · show (wr _ _ _).length = _
        rw [length_wr]; exact n1
      · show k.cons.w ≤ uinc k.cons.e
        simp only [uinc_eq, HALF, UINT, INPUT_BUF_SIZE] at *; omega
      · show 10 ∉ window (wr k.cons.buf (k.cons.e % INPUT_BUF_SIZE) (toByte c1)) k.cons.w
          (usub (uinc k.cons.e) k.cons.w)
        rw [window_store _ _ _ _ n1 n2 (by simp only [HALF, UINT, INPUT_BUF_SIZE] at *; omega) hlen]
        intro hm
        rcases List.mem_append.mp hm with h | h
        · exact n3 h
        · have := List.mem_singleton.mp h
          unfold toByte at this
          omega
  · rw [if_neg hg0]
    exact ⟨n1, n2, n3, n4⟩

/-- Kill-line on a state without a newline in the uncommitted line. -/
theorem kill_exact (k : Kernel) (d : Dev) (hI : IdxInv k.cons) (hN : NoNewline k) :
    consoleintr k 21 d =
      { k with
        cons := { k.cons with e := k.cons.w }
        uart := k.uart ++ eraseBytes (usub k.cons.e k.cons.w) } := by
  obtain ⟨_, h2, h3, _, h5⟩ := hI
  obtain ⟨n1, n2, n3, n4⟩ := hN
  have hci : consoleintr k 21 d = killLoop (usub k.cons.e k.cons.w) k := by
    simp [consoleintr]
  rw [hci, killLoop_all _ k (by simp only [usub_eq, UINT] at *; omega) h3 n3, eraseN_bytes]

theorem nonl_consoleintr (k : Kernel) (c : Int) (d : Dev) (hI : IdxInv k.cons)
    (hS : HShape k.historyBufferArray) (hN : NoNewline k)
    (hc0 : 0 ≤ c) (hc1 : c < 256) (hg : k.cons.e + INPUT_BUF_SIZE < HALF) :
    NoNewline (consoleintr k c d) := by
  by_cases c21 : c = 21
  · subst c21
    rw [kill_exact k d hI hN]
    obtain ⟨n1, n2, n3, n4⟩ := hN
    refine ⟨n1, le_refl _, ?_, n4⟩
    show 10 ∉ window k.cons.buf k.cons.w (usub k.cons.w k.cons.w)
    have e0 : usub k.cons.w k.cons.w = 0 := by simp only [usub_eq, UINT]; omega
    rw [e0]; simp [window]
  unfold consoleintr
  split_ifs with c16 c8 hne c27 g1 g2 g2b
  · exact hN
  · obtain ⟨_, h2, h3, _, h5⟩ := hI
    obtain ⟨n1, n2, n3, n4⟩ := hN
    have e1 : usub k.cons.e k.cons.w = usub (udec k.cons.e) k.cons.w + 1 := by
      simp only [usub_eq, udec_eq, UINT] at *; omega
    unfold uncommitted at n3
    rw [e1] at n3
    refine ⟨n1, ?_, ?_, n4⟩
    · show k.cons.w ≤ udec k.cons.e
      simp only [udec_eq, UINT] at *; omega
    · show 10 ∉ window k.cons.buf k.cons.w (usub (udec k.cons.e) k.cons.w)
      exact (nonl_window_init _ _ _ h2 n3).1
  · exact hN
  · exact nonl_historyUp k hI hS hN hg
  · exact nonl_historyDown k hI hS hN hg
  · exact hN
  · exact hN
  · exact nonl_default k c d hI hS hN hc0 hc1 hg

theorem nonl_init : NoNewline init := by
  refine ⟨by simp [init, INPUT_BUF_SIZE], le_refl _, ?_, ?_⟩
  · show 10 ∉ window init.cons.buf 0 (usub 0 0)
    have e0 : usub 0 0 = 0 := by simp only [usub_eq, UINT]
    rw [e0]; simp [window]
  · intro row hrow
    have : row = List.replicate 128 0 := List.eq_of_mem_replicate hrow
    subst this
    intro hm
    have := List.eq_of_mem_replicate hm
    omega

/-! ## Reaching the indices from `2^31` on -/

theorem readLoop_out (target : Nat) (killed : Bool) (copyout : Nat → Bool) (n : Nat) :
    ∀ (k : Kernel) (dst : List Nat),
      (readLoop target killed copyout n k dst).k.uart = k.uart ∧
      (readLoop target killed copyout n k dst).k.procdumps = k.procdumps := by
  induction n with
  | zero => intro k dst; exact ⟨rfl, rfl⟩
  | succ n ih =>
    intro k dst
    rw [readLoop]
    by_cases h1 : k.cons.r = k.cons.w
    · rw [if_pos h1]; cases killed <;> exact ⟨rfl, rfl⟩
    rewrite [if_neg h1]
    generalize rd k.cons.buf (k.cons.r % INPUT_BUF_SIZE) = c
    simp only []
    split_ifs
    · exact ⟨rfl, rfl⟩
    · exact ⟨rfl, rfl⟩
    · exact ⟨rfl, rfl⟩
    · exact ⟨rfl, rfl⟩
    · exact ih _ _

theorem kernel_eq (a b : Kernel) (h1 : a.cons = b.cons)
    (h2 : a.historyBufferArray = b.historyBufferArray) (h3 : a.uart = b.uart)
    (h4 : a.procdumps = b.procdumps) : a = b := by
  cases a; cases b
  simp only [Kernel.mk.injEq]
  exact ⟨h1, h2, h3, h4⟩

/-- What a typed line sends to the terminal: its echo, and the byte 1 after the
terminator. -/
theorem feed_line_out (d : Dev) (k : Kernel) (s : List Nat) (t : Nat) (ht : t = 10 ∨ t = 4)
    (hs : ∀ b, b ∈ s → Ordinary b) (he : k.cons.e < UINT) (hr : k.cons.r < UINT)
    (hroom : usub k.cons.e k.cons.r + s.length < INPUT_BUF_SIZE) :
    (feed d k (keys s ++ [(t : Int)])).uart = k.uart ++ s ++ [t, 1] ∧
    (feed d k (keys s ++ [(t : Int)])).procdumps = k.procdumps := by
  have hroom2 : usub ((k.cons.e + s.length) % UINT) k.cons.r < INPUT_BUF_SIZE := by
    simp only [usub_eq, UINT, INPUT_BUF_SIZE] at *; omega
  rw [feed_append, feed_ordinary d s k hs he hr hroom]
  show (consoleintr _ (t : Int) d).uart = _ ∧ (consoleintr _ (t : Int) d).procdumps = _
  rw [consoleintr_commit _ d t ht hroom2]
  exact ⟨rfl, rfl⟩

/-- The whole state after a line has been typed into an empty, fully read
console and read out. -/
theorem submit_eq (d : Dev) (k : Kernel) (s : List Nat)
    (hbuf : k.cons.buf.length = INPUT_BUF_SIZE) (hr : k.cons.r < UINT)
    (hw : k.cons.w = k.cons.r) (he : k.cons.e = k.cons.r)
    (hs : ∀ b, b ∈ s → Ordinary b) (hlen : s.length + 1 ≤ INPUT_BUF_SIZE) :
    submit d k s =
      { cons := { buf := wrs k.cons.buf k.cons.r (s ++ [10])
                  r := (k.cons.r + (s.length + 1)) % UINT
                  w := (k.cons.r + (s.length + 1)) % UINT
                  e := (k.cons.r + (s.length + 1)) % UINT }
        historyBufferArray := (feed d k (keys s ++ [10])).historyBufferArray
        uart := k.uart ++ s ++ [10, 1]
        procdumps := k.procdumps } := by
  have hI : INPUT_BUF_SIZE = 128 := rfl
  have hsub : submit d k s = (readLoop 128 false (fun _ => true) 128
      (feed d k (keys s ++ [10])) []).k := rfl
  have h10 : ((10 : Int)) = ((10 : Nat) : Int) := rfl
  obtain ⟨o1, o2⟩ := readLoop_out 128 false (fun _ => true) 128 (feed d k (keys s ++ [10])) []
  obtain ⟨f1, f2⟩ := feed_line_out d k s 10 (Or.inl rfl) hs (by rw [he]; exact hr) hr
    (by rw [he]; simp only [usub_eq, UINT, INPUT_BUF_SIZE] at *; omega)
  rw [← h10] at f1 f2
  apply kernel_eq
  · rw [hsub]
    exact read_after_line d k s false (fun _ => true) (fun _ => rfl) 128 hbuf hr hw he hs hlen
      (by omega)
  · rw [hsub]; exact readLoop_hist _ _ _ _ _ _
  · rw [hsub, o1, f1]
  · rw [hsub, o2, f2]

theorem wr_same (a : List Nat) (i v : Nat) (h : rd a i = v) (hi : i < a.length) :
    wr a i v = a := by
  unfold wr rd at *
  rw [List.getD_eq_getElem _ _ hi] at h
  apply List.ext_getElem (by simp)
  intro j h1 h2
  rw [List.getElem_set]
  split_ifs with hij
  · subst hij; exact h.symm
  · rfl

/-- Storing bytes that the ring already holds at their places leaves it as it
is. -/
theorem wrs_same (s : List Nat) : ∀ (buf : List Nat) (e : Nat), e < UINT →
    buf.length = INPUT_BUF_SIZE →
    (∀ j, j < s.length → rd buf ((e + j) % UINT % INPUT_BUF_SIZE) = s.getD j 0) →
    wrs buf e s = buf := by
  induction s with
  | nil => intro buf e _ _ _; rfl
  | cons b s ih =>
    intro buf e he hb h
    have h0 := h 0 (by simp)
    rw [Nat.add_zero, Nat.mod_eq_of_lt he] at h0
    rw [wrs, wr_same buf _ b (by simpa using h0) (by rw [hb]; exact Nat.mod_lt _ (by decide))]
    apply ih buf (uinc e) (by simp only [uinc_eq, UINT]; omega) hb
    intro j hj
    have e1 : (uinc e + j) % UINT = (e + (j + 1)) % UINT := by simp only [uinc_eq, UINT]; omega
    rw [e1]
    have := h (j + 1) (by simpa using hj)
    simpa using this

theorem rd_ringH (i : Nat) (hi : i < INPUT_BUF_SIZE) :
    rd ringH i = (historyStr ++ [10]).getD (i % 8) 0 := by
  unfold rd ringH
  rw [List.getD_eq_getElem _ _ (by simpa using hi)]
  simp

theorem reachableByte_feed (d : Dev) (cs : List Int) (hcs : ∀ c, c ∈ cs → 0 ≤ c ∧ c < 256) :
    ∀ k, ReachableByte k → ReachableByte (feed d k cs) := by
  induction cs with
  | nil => intro k h; exact h
  | cons c cs ih =>
    intro k h
    exact ih (fun x hx => hcs x (List.mem_cons_of_mem _ hx)) _
      (ReachableByte.intr k c d h (hcs c (List.mem_cons_self _ _)).1
        (hcs c (List.mem_cons_self _ _)).2)

theorem keys_byte (t : List Nat) (ht : ∀ b, b ∈ t → b < 256) :
    ∀ c, c ∈ keys t ++ [10] → 0 ≤ c ∧ c < 256 := by
  intro c hc
  rcases List.mem_append.mp hc with h | h
  · unfold keys at h
    obtain ⟨b, hb, rfl⟩ := List.mem_map.mp h
    have := ht b hb
    exact ⟨Int.ofNat_nonneg b, by show ((b : Nat) : Int) < 256; omega⟩
  · have := List.mem_singleton.mp h
    subst this
    exact ⟨by decide, by decide⟩

theorem reachableByte_submit (d : Dev) (k : Kernel) (t : List Nat) (ht : ∀ b, b ∈ t → b < 256)
    (h : ReachableByte k) : ReachableByte (submit d k t) :=
  ReachableByte.read _ _ _ _ _ _ (reachableByte_feed d _ (keys_byte t ht) k h)

theorem reachableByte_session (d : Dev) (ts : List (List Nat))
    (hts : ∀ t, t ∈ ts → ∀ b, b ∈ t → b < 256) :
    ∀ k, ReachableByte k → ReachableByte (session d k ts) := by
  induction ts with
  | nil => intro k h; exact h
  | cons t ts ih =>
    intro k h
    exact ih (fun x hx => hts x (List.mem_cons_of_mem _ hx)) _
      (reachableByte_submit d k t (hts t (List.mem_cons_self _ _)) h)

/-- One more line `history` submitted below `2^31`. -/
theorem idle_step (n : Nat) (hn : 8 * n + 8 ≤ HALF) :
    submit quiet (idleState n) historyStr = idleState (n + 1) := by
  have hI : INPUT_BUF_SIZE = 128 := rfl
  have hU : 8 * n + 8 < UINT := by simp only [HALF, UINT] at *; omega
  have hbuf : (idleState n).cons.buf.length = INPUT_BUF_SIZE := by
    simp [idleState, ringH]
  have hsub := submit_eq quiet (idleState n) historyStr hbuf
    (by show 8 * n < UINT; omega) rfl rfl (by decide) (by decide)
  have hhist := history_line_skipped (idleState n) quiet hbuf rfl
    (by show 8 * n + 7 < HALF; omega) (by show 8 * n < UINT; omega)
    (by show usub (8 * n) (8 * n) + 7 < INPUT_BUF_SIZE
        simp only [usub_eq, UINT, INPUT_BUF_SIZE]; omega)
  have hring : wrs ringH (8 * n) (historyStr ++ [10]) = ringH := by
    apply wrs_same _ _ _ (by omega) (by simp [ringH])
    intro j hj
    have hj8 : j < 8 := by simpa [historyStr] using hj
    rw [rd_ringH _ (Nat.mod_lt _ (by decide))]
    have e1 : (8 * n + j) % UINT % INPUT_BUF_SIZE % 8 = j := by
      simp only [UINT, INPUT_BUF_SIZE] at *; omega
    rw [e1]
  have hmod : (8 * n + (historyStr.length + 1)) % UINT = 8 * (n + 1) := by
    have hl : historyStr.length = 7 := rfl
    rw [hl]; simp only [UINT] at *; omega
  rw [hsub, hhist]
  show ({ cons := { buf := wrs ringH (8 * n) (historyStr ++ [10])
                    r := (8 * n + (historyStr.length + 1)) % UINT
                    w := (8 * n + (historyStr.length + 1)) % UINT
                    e := (8 * n + (historyStr.length + 1)) % UINT }
          historyBufferArray := init.historyBufferArray
          uart := idleOut n ++ historyStr ++ [10, 1]
          procdumps := 0 } : Kernel) = idleState (n + 1)
  rw [hring, hmod]
  rfl

/-- The state after `n ≥ 16` lines `history` submitted at boot, while the
indices stay at or below `2^31`. -/
theorem idle_session (m : Nat) : 8 * (16 + m) ≤ HALF →
    session quiet init (List.replicate (16 + m) historyStr) = idleState (16 + m) := by
  induction m with
  | zero => intro _; decide!
  | succ m ih =>
    intro h
    have e1 : 16 + (m + 1) = (16 + m) + 1 := by omega
    rw [e1, List.replicate_succ', session_append, ih (by omega)]
    exact idle_step (16 + m) (by omega)

theorem scratch_empty (cons : Cons) (stack below : Nat → Nat) (v : Nat)
    (hw : cons.w = cons.e) (he : cons.e + 1 < UINT) :
    scratch { cons with buf := wr cons.buf (cons.e % INPUT_BUF_SIZE) v, e := uinc cons.e }
        stack below
      = wr ((List.range INPUT_BUF_SIZE).map stack) 0 0 := by
  have e1 : usub (uinc cons.e) 1 - cons.w = 0 := by
    rw [hw]; simp only [usub_eq, uinc_eq, UINT] at *; omega
  have e2 : usub (usub (uinc cons.e) 1) cons.w % INPUT_BUF_SIZE = 0 := by
    rw [hw]; simp only [usub_eq, uinc_eq, UINT, INPUT_BUF_SIZE] at *; omega
  show wr (copyLoop _ below (usub (uinc cons.e) 1 - cons.w) cons.w 0 _)
    (usub (usub (uinc cons.e) 1) cons.w % INPUT_BUF_SIZE) 0 = _
  rw [e1, e2]
  rfl

/-- One more empty line submitted, at any index below `2^32 - 1`. -/
theorem empty_step (n : Nat) (hn : n + 1 < UINT) :
    submit quiet (emptyState n) [] = emptyState (n + 1) := by
  have hI : INPUT_BUF_SIZE = 128 := rfl
  have hbuf : (emptyState n).cons.buf.length = INPUT_BUF_SIZE := by
    simp [emptyState, INPUT_BUF_SIZE]
  have hsub := submit_eq quiet (emptyState n) [] hbuf
    (by show n < UINT; omega) rfl rfl (by simp) (by decide)
  have hroom : usub (emptyState n).cons.e (emptyState n).cons.r < INPUT_BUF_SIZE := by
    show usub n n < INPUT_BUF_SIZE
    simp only [usub_eq, UINT, INPUT_BUF_SIZE]; omega
  have hhist : (feed quiet (emptyState n) (keys [] ++ [10])).historyBufferArray
      = (emptyState n).historyBufferArray := by
    show (consoleintr (emptyState n) ((10 : Nat) : Int) quiet).historyBufferArray = _
    rw [consoleintr_commit _ quiet 10 (Or.inl rfl) hroom]
    show record (emptyState 0).historyBufferArray (scratch _ quiet.stack quiet.below)
      = (emptyState 0).historyBufferArray
    rw [scratch_empty (emptyState n).cons quiet.stack quiet.below 10 rfl (by show n + 1 < UINT; omega)]
    decide!
  have hring : wrs (List.replicate 128 10) n ([] ++ [10]) = List.replicate 128 10 := by
    apply wrs_same _ _ _ (by omega) (by simp [INPUT_BUF_SIZE])
    intro j hj
    have hj0 : j = 0 := by simpa using hj
    subst hj0
    unfold rd
    rw [List.getD_eq_getElem _ _ (by rw [List.length_replicate]; exact Nat.mod_lt _ (by decide))]
    simp only [List.getElem_replicate]
    rfl
  have hmod : (n + (([] : List Nat).length + 1)) % UINT = n + 1 := by
    simp only [List.length_nil, Nat.zero_add]; exact Nat.mod_eq_of_lt hn
  rw [hsub, hhist]
  show ({ cons := { buf := wrs (List.replicate 128 10) n ([] ++ [10])
                    r := (n + (([] : List Nat).length + 1)) % UINT
                    w := (n + (([] : List Nat).length + 1)) % UINT
                    e := (n + (([] : List Nat).length + 1)) % UINT }
          historyBufferArray := (emptyState n).historyBufferArray
          uart := emptyOut n ++ [] ++ [10, 1]
          procdumps := 0 } : Kernel) = emptyState (n + 1)
  rw [hring, hmod, List.append_nil]
  rfl

/-- The state after `n ≥ 128` empty lines submitted at boot. -/
theorem empty_session (m : Nat) : 128 + m < UINT →
    session quiet init (List.replicate (128 + m) []) = emptyState (128 + m) := by
  induction m with
  | zero => intro _; decide!
  | succ m ih =>
    intro h
    have e1 : 128 + (m + 1) = (128 + m) + 1 := by omega
    rw [e1, List.replicate_succ', session_append, ih (by omega)]
    exact empty_step (128 + m) (by omega)

/-- The state with the three indices at `2^31` and an empty history is
reachable: submit the line `history` `2^28` times. -/
theorem reachable_idle : ReachableByte (idleState 268435456) := by
  have h := idle_session 268435440 (by unfold HALF; omega)
  have e : (16 + 268435440 : Nat) = 268435456 := by omega
  rw [e] at h
  rw [← h]
  apply reachableByte_session quiet _ _ init ReachableByte.start
  intro t ht b hb
  have := List.eq_of_mem_replicate ht
  subst this
  revert b
  decide

/-- The state with the three indices at `2^32 - 8` is reachable: submit the
empty line `2^32 - 8` times. -/
theorem reachable_empty : ReachableByte (emptyState 4294967288) := by
  have h := empty_session 4294967160 (by unfold UINT; omega)
  have e : (128 + 4294967160 : Nat) = 4294967288 := by omega
  rw [e] at h
  rw [← h]
  apply reachableByte_session quiet _ _ init ReachableByte.start
  intro t ht b hb
  have := List.eq_of_mem_replicate ht
  subst this
  simp at hb

/-! ## Where the copy loop of the commit block departs from the claims -/

theorem reachable_idle_state : Reachable (idleState 268435456) :=
  reachableByte_reachable _ reachable_idle

/-- Kill-line stops at once when the last byte of the uncommitted line is a
newline. -/
theorem kill_stops (k : Kernel) (d : Dev)
    (h : rd k.cons.buf (usub k.cons.e 1 % INPUT_BUF_SIZE) = 10) : consoleintr k 21 d = k := by
  have hci : consoleintr k 21 d = killLoop (usub k.cons.e k.cons.w) k := by
    simp [consoleintr]
  rw [hci]
  cases usub k.cons.e k.cons.w with
  | zero => rfl
  | succ n => rw [killLoop, if_neg (fun hc => hc.2 h)]

/-- C5 fails on the code from index `2^31` on. The state with an empty history
and the three ring indices at `2^31` is reachable (the line `history`,
submitted `2^28` times at boot, is never recorded). From there on the `int`
index of the copy loop in the commit block is negative, its remainder
`i % 128` is zero or negative, and the loop reads below `cons.buf` instead of
the ring: after the sixteen lines `c0` .. `c15` are submitted there (zero
bytes below the ring), the lookup at index 0 returns `c`, not the line `c0`.
At boot the example of the claim holds: after `c0` .. `c16` the lookup at
index 0 returns `c1`. -/
theorem C5_lookup_wrong_from_index_two_to_31 :
    Reachable (idleState 268435456) ∧
    (idleState 268435456).historyBufferArray.lastCommandIndex = 0 ∧
    (idleState 268435456).cons.r = 2147483648 ∧
    (idleState 268435456).cons.w = 2147483648 ∧
    (idleState 268435456).cons.e = 2147483648 ∧
    (commands17.take 16).getD 0 [] = [99, 48] ∧
    sys_history (session quiet (idleState 268435456) (commands17.take 16)) 0
      = (0, some (pad [99])) ∧
    sys_history (session quiet init commands17) 0 = (0, some (pad [99, 49])) :=
  ⟨reachable_idle_state, by decide!, by decide!, by decide!, by decide!, by decide!, by decide!,
    by decide!⟩

/-- C10 fails on the code from index `2^31` on. In the reachable state with
the three ring indices at `2^31` and an empty history, typing `history` and a
newline changes the history store: the copy loop of the commit block reads the
first byte from the ring and the next one below `cons.buf` (its `int` index is
negative), so with a zero byte there the command is taken as `h` and recorded
in slot 0 with length 1. -/
theorem C10_history_line_recorded_from_index_two_to_31 :
    Reachable (idleState 268435456) ∧
    (idleState 268435456).cons.r = 2147483648 ∧
    (idleState 268435456).cons.w = 2147483648 ∧
    (idleState 268435456).cons.e = 2147483648 ∧
    (idleState 268435456).historyBufferArray.lastCommandIndex = 0 ∧
    (feed quiet (idleState 268435456) (keys historyStr ++ [10])).historyBufferArray
      ≠ (idleState 268435456).historyBufferArray ∧
    (feed quiet (idleState 268435456)
      (keys historyStr ++ [10])).historyBufferArray.lastCommandIndex = 1 ∧
    (feed quiet (idleState 268435456)
      (keys historyStr ++ [10])).historyBufferArray.bufferArr.getD 0 [] = pad [104] ∧
    rd (feed quiet (idleState 268435456)
      (keys historyStr ++ [10])).historyBufferArray.lengthsArr 0 = 1 :=
  ⟨reachable_idle_state, by decide!, by decide!, by decide!, by decide!, by decide!, by decide!,
    by decide!, by decide!⟩

/-- C15 fails on the code from index `2^31` on. In the reachable state with the
three ring indices at `2^31` and an empty history, after the one line `ab` is
submitted the first history-up press shows `a`, not `ab`: the copy loop of the
commit block took the second byte from below `cons.buf` (a zero byte), because
its `int` index is negative there. At boot the example of the claim holds:
after `a` and `b` the first press shows `b` and the second shows `a`. -/
theorem C15_navigation_wrong_from_index_two_to_31 :
    Reachable (idleState 268435456) ∧
    (idleState 268435456).historyBufferArray.lastCommandIndex = 0 ∧
    (idleState 268435456).cons.r = 2147483648 ∧
    (idleState 268435456).cons.w = 2147483648 ∧
    (idleState 268435456).cons.e = 2147483648 ∧
    uncommitted (feed arrowUp (session quiet (idleState 268435456) [[97, 98]]) [27]) = [97] ∧
    uncommitted (feed arrowUp (session quiet init [[97], [98]]) [27]) = [98] ∧
    uncommitted (feed arrowUp (session quiet init [[97], [98]]) [27, 27]) = [97] :=
  ⟨reachable_idle_state, by decide!, by decide!, by decide!, by decide!, by decide!, by decide!,
    by decide!⟩

theorem reachable_afterWrap : ReachableByte afterWrap := by
  unfold afterWrap
  apply reachableByte_feed arrowUp _ (by decide)
  apply reachableByte_feed stale _ _ _ reachable_empty
  exact keys_byte _ (by decide)

/-- C19 fails on the code at the wrap of the indices. The state with the three
ring indices at `2^32 - 8` is reachable with bytes only (submit the empty line
`2^32 - 8` times). Eight bytes and a newline typed there let `e` wrap around to
1 while `w` is `2^32 - 8`, so the test `i < cons.e - 1` of the copy loop fails
at once and the commit records the first eight bytes of the uninitialised
array `command`. With newline bytes there, two presses of history-up (the
first only moves the cursor) put eight newline bytes into `buf[w..e)`, and
`^U` then leaves the whole state as it is, with `e = 9` and `w = 1`. -/
theorem C19_newline_in_uncommitted_line_after_wrap :
    ReachableByte afterWrap ∧
    uncommitted afterWrap = List.replicate 8 10 ∧
    consoleintr afterWrap 21 quiet = afterWrap ∧
    afterWrap.cons.e = 9 ∧ afterWrap.cons.w = 1 :=
  ⟨reachable_afterWrap, by decide!, kill_stops afterWrap quiet (by decide!), by decide!, by decide!⟩

end Console
